import Mathlib

/-! The rvcc preprocessor core: a shallow embedding of `preprocess.c`.

Token sequences (`Token *` linked through `Next`) are embedded as `List Token`;
the `NULL` pointer is the empty list, so dereferencing `NULL` shows up as the
result `Err.crash`.  `errorTok` (diagnostic followed by `exit`) is the result
`Err.fatal`.  `warnTok` only prints and is dropped.  Global variables of the
translation unit (`Macros`, `CondIncls`, `pragma_once`, `include_next_idx`, the
function-local statics) are the fields of `State`, threaded explicitly.
Functions that live in other translation units (lexer, constant-expression
evaluator, file system) are the fields of `Env`.
-/

namespace Rvcc

/-! ## Data model -/

/-- Token kinds used by the preprocessor (`TokenKind` of `rvcc.h`). -/
inductive TokenKind where
  | TK_IDENT
  | TK_PUNCT
  | TK_KEYWORD
  | TK_STR
  | TK_NUM
  | TK_PP_NUM
  | TK_EOF
  deriving DecidableEq, Repr

/-- Kinds of C types (`TypeKind` of `rvcc.h`). -/
inductive TypeKind where
  | TY_VOID | TY_BOOL | TY_CHAR | TY_SHORT | TY_INT | TY_LONG
  | TY_FLOAT | TY_DOUBLE | TY_LDOUBLE | TY_ENUM | TY_PTR | TY_FUNC
  | TY_ARRAY | TY_VLA | TY_STRUCT | TY_UNION
  deriving DecidableEq, Repr

/-- The element type (`Ty->Base`) of a literal's type: the fields of `Type`
that `type.c` initialises for the scalar types. -/
structure BaseType where
  Kind : TypeKind
  Size : Int
  Align : Int
  IsUnsigned : Bool := false
  deriving DecidableEq, Repr

/-- The type attached to a literal token (`Tok->Ty`). -/
structure TokType where
  Kind : TypeKind
  Size : Int
  Align : Int
  IsUnsigned : Bool := false
  ArrayLen : Int := 0
  Base : Option BaseType := none
  deriving DecidableEq, Repr

/-- Translation of `TyChar` (type.c). -/
def TyChar : BaseType := { Kind := .TY_CHAR, Size := 1, Align := 1 }

/-- Wrap-around of a value stored in an `int`. -/
def wrapInt32 (x : Int) : Int := (x + 2 ^ 31) % 2 ^ 32 - 2 ^ 31

/-- Translation of `arrayOf` (type.c): `newType(TY_ARRAY, Base->Size * Len, Base->Align)`. -/
def arrayOf (Base : BaseType) (Len : Int) : TokType :=
  { Kind := .TY_ARRAY, Size := wrapInt32 (Base.Size * Len), Align := Base.Align,
    ArrayLen := Len, Base := some Base }

/-- The fields of a `Token` other than `Next` and `Origin`.
`Loc` holds the `Len` characters of the lexeme, `After` the rest of the source
buffer behind the lexeme (what `Loc + Len` points to), `File` the index of the
token's `File` object in `State.files`. -/
structure TokenData where
  Kind : TokenKind
  Loc : String
  After : String := ""
  AtBOL : Bool := false
  HasSpace : Bool := false
  Hideset : List String := []
  File : Nat := 0
  Filename : String := ""
  LineNo : Int := 0
  LineDelta : Int := 0
  Val : Int := 0
  Ty : Option TokType := none
  Str : List Nat := []
  deriving DecidableEq, Repr

/-- A token.  `Origin` is the chain of `Origin` pointers, nearest first: the
empty list is `NULL`, and `T->Origin = Tok` stores `Tok` in front of `Tok`'s
own chain. -/
structure Token extends TokenData where
  Origin : List TokenData := []
  deriving DecidableEq, Repr

/-- A `Hideset` list: the names, first node first. `NULL` is `[]`. -/
abbrev Hideset := List String

/-- A macro argument (`struct MacroArg`). -/
structure MacroArg where
  Name : String
  IsVaArg : Bool := false
  Tok : List Token
  deriving DecidableEq, Repr

/-- The built-in handlers a `Macro` may point to (`macroHandlerFn *`). -/
inductive Handler where
  | fileMacro
  | lineMacro
  | counterMacro
  | timestampMacro
  | baseFileMacro
  deriving DecidableEq, Repr

/-- A macro (`struct Macro`).  `Params` is the `MacroParam` list, `VaArgsName`
and `Handler` are `none` for `NULL`. -/
structure Macro where
  Name : String
  IsObjlike : Bool
  Params : List String := []
  VaArgsName : Option String := none
  Body : List Token := []
  Handler : Option Handler := none
  deriving DecidableEq, Repr

/-- The `Ctx` enumeration of `struct CondIncl`. -/
inductive CondCtx where
  | IN_THEN
  | IN_ELIF
  | IN_ELSE
  deriving DecidableEq, Repr

/-- A frame of the `#if` stack (`struct CondIncl`). -/
structure CondIncl where
  Ctx : CondCtx
  Tok : Token
  Included : Bool
  deriving DecidableEq, Repr

/-- A `File` object (`rvcc.h`): the fields the preprocessor reads or writes. -/
structure FileRec where
  Name : String
  FileNo : Nat := 0
  DisplayName : String
  LineDelta : Int := 0
  deriving DecidableEq, Repr

/-- How a run ends without a result. -/
inductive Err where
  | fatal (msg : String)
  | crash
  | outOfFuel
  deriving DecidableEq, Repr

/-- The global variables of `preprocess.c` together with the function-local
statics (`cache` of `searchIncludePaths`, `IncludeGuards` of `includeFile`,
`I` of `counterMacro`) and the heap of `File` objects. -/
structure State where
  Macros : List (String × Macro) := []
  CondIncls : List CondIncl := []
  pragma_once : List (String × Unit) := []
  include_next_idx : Nat := 0
  cache : List (String × String) := []
  IncludeGuards : List (String × String) := []
  counter : Int := 0
  files : List FileRec := []
  deriving DecidableEq, Repr

/-- Functions and configuration defined outside `preprocess.c`:
the lexer (`tokenize`, `tokenizeFile`, `tokenizeStringLiteral`,
`convertPPTokens`), the expression evaluator (`constExpr`), the file system
(`fileExists`, `stat` with `ctime_r`, `dirname`) and the configuration
(`IncludePaths`, `BaseFile`). -/
structure Env where
  tokenize : String → Token × List Token
  tokenizeFile : String → Option (List Token)
  tokenizeStringLiteral : Token → BaseType → Token
  convertPPTokens : List Token → Except Err (List Token)
  constExpr : List Token → Except Err (Int × List Token)
  fileExists : String → Bool
  mtime : String → Option String
  dirname : String → String
  IncludePaths : List String
  BaseFile : String

/-! ## Lexer helpers and hash map -/

/-- Modelled from the spec: the lexer helper `equal` (tokenize.c, not under
src/), which the spec renders as "the token is `(`": the lexeme is exactly
the given string. -/
def equal (Tok : Token) (s : String) : Bool := Tok.Loc == s

/-- Modelled from the spec: the lexer helper `skip` (tokenize.c): the token
must be the given string (fatal otherwise); returns `Tok->Next`. -/
def skip (Tok : List Token) (s : String) : Except Err (List Token) :=
  match Tok with
  | [] => .error .crash
  | t :: rest => if equal t s then .ok rest else .error (.fatal ("expected '" ++ s ++ "'"))

/-- Modelled from the spec: the lexer helper `consume` (tokenize.c): when the
token is the given string, step over it and report `true`. -/
def consume (Tok : List Token) (s : String) : Except Err (Bool × List Token) :=
  match Tok with
  | [] => .error .crash
  | t :: rest => if equal t s then .ok (true, rest) else .ok (false, t :: rest)

/-- Modelled from the spec: `hashmap_get` of the hash-map utility
(hashmap.c): the value stored under the key, if any. -/
def hashmap_get {α : Type} (Map : List (String × α)) (Key : String) : Option α :=
  match Map with
  | [] => none
  | (k, v) :: rest => if k == Key then some v else hashmap_get rest Key

/-- Modelled from the spec: `hashmap_delete`: the key is no longer mapped. -/
def hashmap_delete {α : Type} (Map : List (String × α)) (Key : String) : List (String × α) :=
  match Map with
  | [] => []
  | (k, v) :: rest => if k == Key then hashmap_delete rest Key else (k, v) :: hashmap_delete rest Key

/-- Modelled from the spec: `hashmap_put`: "redefinition overwrites". -/
def hashmap_put {α : Type} (Map : List (String × α)) (Key : String) (Val : α) : List (String × α) :=
  (Key, Val) :: hashmap_delete Map Key

/-! ## Token utilities -/

/-- Translation of `isHash`: `Tok->AtBOL && equal(Tok, "#")`. -/
def isHash (Tok : Token) : Bool := Tok.AtBOL && equal Tok "#"

/-- Translation of `skipLine`; the warning is not modelled. -/
def skipLine : List Token → Except Err (List Token)
  | [] => .error .crash
  | t :: rest => if t.AtBOL then .ok (t :: rest) else skipLine rest

/-- Translation of `copyToken`: the copy has every field but `Next`, which a
list element does not carry. -/
def copyToken (Tok : Token) : Token := Tok

/-- Translation of `newEOF`. -/
def newEOF (Tok : Token) : Token := { copyToken Tok with Kind := .TK_EOF, Loc := "" }

/-- Translation of `newHideset`. -/
def newHideset (Name : String) : Hideset := [Name]

/-- Translation of `hidesetUnion`: a copy of `Hs1` linked in front of `Hs2`. -/
def hidesetUnion : Hideset → Hideset → Hideset
  | [], Hs2 => Hs2
  | n :: Hs1, Hs2 => n :: hidesetUnion Hs1 Hs2

/-- Translation of `hidesetContains`; `S`, `Len` are given as the string
they denote. -/
def hidesetContains : Hideset → String → Bool
  | [], _ => false
  | n :: Hs, S => if n == S then true else hidesetContains Hs S

/-- Translation of `hidesetIntersection`. -/
def hidesetIntersection : Hideset → Hideset → Hideset
  | [], _ => []
  | n :: Hs1, Hs2 =>
    if hidesetContains Hs2 n then n :: hidesetIntersection Hs1 Hs2
    else hidesetIntersection Hs1 Hs2

/-- Translation of `addHideset`. -/
def addHideset : List Token → Hideset → List Token
  | [], _ => []
  | t :: Tok, Hs =>
    { copyToken t with Hideset := hidesetUnion t.Hideset Hs } :: addHideset Tok Hs

/-- Translation of `append`: `Tok1` up to its EOF, then `Tok2`.  A `Tok1`
without EOF token runs into `NULL`. -/
def append : List Token → List Token → Except Err (List Token)
  | [], _ => .error .crash
  | t :: Tok1, Tok2 =>
    if t.Kind = .TK_EOF then .ok Tok2
    else match append Tok1 Tok2 with
      | .error e => .error e
      | .ok r => .ok (copyToken t :: r)

/-- Translation of `skipCondIncl2`.  The recursive call continues the loop on
its own result, so the recursion is on a step budget; `skipCondIncl2` below
supplies one more than the number of tokens. -/
def skipCondIncl2F : Nat → List Token → Except Err (List Token)
  | 0, _ => .error .outOfFuel
  | _ + 1, [] => .error .crash
  | f + 1, t :: rest =>
    if t.Kind = .TK_EOF then .ok (t :: rest)
    else if isHash t then
      match rest with
      | [] => .error .crash
      | n :: rest2 =>
        if equal n "if" || equal n "ifdef" || equal n "ifndef" then
          match skipCondIncl2F f rest2 with
          | .error e => .error e
          | .ok r => skipCondIncl2F f r
        else if equal n "endif" then .ok rest2
        else skipCondIncl2F f rest
    else skipCondIncl2F f rest

/-- Translation of `skipCondIncl2`. -/
def skipCondIncl2 (Tok : List Token) : Except Err (List Token) :=
  skipCondIncl2F (Tok.length + 1) Tok

/-- Translation of `skipCondIncl`, on the same kind of step budget. -/
def skipCondInclF : Nat → List Token → Except Err (List Token)
  | 0, _ => .error .outOfFuel
  | _ + 1, [] => .error .crash
  | f + 1, t :: rest =>
    if t.Kind = .TK_EOF then .ok (t :: rest)
    else if isHash t then
      match rest with
      | [] => .error .crash
      | n :: rest2 =>
        if equal n "if" || equal n "ifdef" || equal n "ifndef" then
          match skipCondIncl2 rest2 with
          | .error e => .error e
          | .ok r => skipCondInclF f r
        else if equal n "elif" || equal n "else" || equal n "endif" then .ok (t :: rest)
        else skipCondInclF f rest
    else skipCondInclF f rest

/-- Translation of `skipCondIncl`. -/
def skipCondIncl (Tok : List Token) : Except Err (List Token) :=
  skipCondInclF (Tok.length + 1) Tok

/-- The escaping loop of `quoteString`. -/
def quoteChars : List Char → List Char
  | [] => []
  | c :: cs =>
    if c == '\\' || c == '"' then '\\' :: c :: quoteChars cs else c :: quoteChars cs

/-- Translation of `quoteString`: the string written to `Buf`. -/
def quoteString (Str : String) : String :=
  String.mk ('"' :: (quoteChars Str.data ++ ['"']))

/-- The `File` object a token points to. -/
def fileOf (st : State) (Tok : TokenData) : FileRec :=
  st.files.getD Tok.File { Name := "", DisplayName := "" }

/-- Translation of `tokenize(newFile(Name, FileNo, Buf))`: a new `File` object
is allocated, the external lexer runs on the buffer, and the tokens it returns
point to the new file (its first token and the tokens behind it).  `struct
Hideset` is private to `preprocess.c`, so a token that comes from the lexer has
the `NULL` hideset. -/
def tokenizeNew (env : Env) (st : State) (Name : String) (FileNo : Nat) (Buf : String) :
    (Token × List Token) × State :=
  (({ (env.tokenize Buf).1 with File := st.files.length, Hideset := [] },
    (env.tokenize Buf).2.map fun t => { t with File := st.files.length, Hideset := [] }),
   { st with files := st.files ++ [{ Name := Name, FileNo := FileNo, DisplayName := Name }] })

/-- Translation of `newStrToken`: the first token of the lexed buffer and the
tokens linked behind it. -/
def newStrToken (env : Env) (st : State) (Str : String) (Tmpl : TokenData) :
    (Token × List Token) × State :=
  tokenizeNew env st (fileOf st Tmpl).Name (fileOf st Tmpl).FileNo (quoteString Str)

/-- Translation of `newNumToken`; `format("%d\n", Val)` is the decimal
numeral followed by a newline. -/
def newNumToken (env : Env) (st : State) (Val : Int) (Tmpl : TokenData) :
    (Token × List Token) × State :=
  tokenizeNew env st (fileOf st Tmpl).Name (fileOf st Tmpl).FileNo (toString Val ++ "\n")

/-- Translation of `copyLine`: the copied line with its new EOF, and `*Rest`. -/
def copyLine : List Token → Except Err (List Token × List Token)
  | [] => .error .crash
  | t :: rest =>
    if t.AtBOL then .ok ([newEOF t], t :: rest)
    else match copyLine rest with
      | .error e => .error e
      | .ok (line, r) => .ok (copyToken t :: line, r)

/-- Translation of `findMacro`. -/
def findMacro (st : State) (Tok : Token) : Option Macro :=
  if Tok.Kind ≠ .TK_IDENT then none else hashmap_get st.Macros Tok.Loc

/-- The loop of `readConstExpr` over the copied line, on a step budget. -/
def readConstExprF (env : Env) : Nat → List Token → State → Except Err (List Token × State)
  | 0, _, _ => .error .outOfFuel
  | _ + 1, [], _ => .error .crash
  | f + 1, t :: rest, st =>
    if t.Kind = .TK_EOF then .ok (t :: rest, st)
    else if equal t "defined" then
      match consume rest "(" with
      | .error e => .error e
      | .ok (HasParen, Tok1) =>
        match Tok1 with
        | [] => .error .crash
        | id :: Tok2 =>
          if id.Kind ≠ .TK_IDENT then .error (.fatal "macro name must be an identifier")
          else
            match (if HasParen then skip Tok2 ")" else .ok Tok2) with
            | .error e => .error e
            | .ok Tok3 =>
              let num := newNumToken env st (if (findMacro st id).isSome then 1 else 0) t.toTokenData
              match readConstExprF env f Tok3 num.2 with
              | .error e => .error e
              | .ok (r, st2) => .ok (num.1.1 :: r, st2)
    else
      match readConstExprF env f rest st with
      | .error e => .error e
      | .ok (r, st2) => .ok (t :: r, st2)

/-- Translation of `readConstExpr`: the prepared expression, `*Rest` and the
state (the lexer allocated `File` objects). -/
def readConstExpr (env : Env) (Tok : List Token) (st : State) :
    Except Err (List Token × List Token × State) :=
  match copyLine Tok with
  | .error e => .error e
  | .ok (line, Rest) =>
    match readConstExprF env (line.length + 1) line st with
    | .error e => .error e
    | .ok (r, st2) => .ok (r, Rest, st2)

/-- Translation of `pushCondIncl`. -/
def pushCondIncl (st : State) (Tok : Token) (Included : Bool) : State :=
  { st with CondIncls := { Ctx := .IN_THEN, Tok := Tok, Included := Included } :: st.CondIncls }

/-- Translation of `addMacro`; the caller's later stores into the new macro
(`Params`, `VaArgsName`, `Handler`) are passed in. -/
def addMacro (st : State) (Name : String) (IsObjlike : Bool) (Body : List Token)
    (Params : List String) (VaArgsName : Option String) (H : Option Handler) : State :=
  let M : Macro :=
    { Name := Name, IsObjlike := IsObjlike, Params := Params, VaArgsName := VaArgsName,
      Body := Body, Handler := H }
  { st with Macros := hashmap_put st.Macros Name M }

/-- Translation of `undefMacro`. -/
def undefMacro (st : State) (Name : String) : State :=
  { st with Macros := hashmap_delete st.Macros Name }

/-- Translation of `readMacroParams` on a step budget: the parameters read so
far are `Params`; the result is the parameter list, `*VaArgsName` and `*Rest`. -/
def readMacroParamsF : Nat → List Token → List String →
    Except Err (List String × Option String × List Token)
  | 0, _, _ => .error .outOfFuel
  | _ + 1, [], _ => .error .crash
  | f + 1, t :: rest, Params =>
    if equal t ")" then .ok (Params, none, rest)
    else
      match (if Params ≠ [] then skip (t :: rest) "," else .ok (t :: rest)) with
      | .error e => .error e
      | .ok [] => .error .crash
      | .ok (t1 :: rest1) =>
        if equal t1 "..." then
          match skip rest1 ")" with
          | .error e => .error e
          | .ok r => .ok (Params, some "__VA_ARGS__", r)
        else if t1.Kind ≠ .TK_IDENT then .error (.fatal "expected an identifier")
        else
          match rest1 with
          | [] => .error .crash
          | t2 :: rest2 =>
            if equal t2 "..." then
              match skip rest2 ")" with
              | .error e => .error e
              | .ok r => .ok (Params, some t1.Loc, r)
            else readMacroParamsF f rest1 (Params ++ [t1.Loc])

/-- Translation of `readMacroParams`. -/
def readMacroParams (Tok : List Token) : Except Err (List String × Option String × List Token) :=
  readMacroParamsF (Tok.length + 1) Tok []

/-- Translation of `readMacroDefinition`: the new state and `*Rest`. -/
def readMacroDefinition (st : State) (Tok : List Token) : Except Err (State × List Token) :=
  match Tok with
  | [] => .error .crash
  | t :: rest =>
    if t.Kind ≠ .TK_IDENT then .error (.fatal "macro name must be an identifier")
    else
      match rest with
      | [] => .error .crash
      | n :: rest2 =>
        if !n.HasSpace && equal n "(" then
          match readMacroParams rest2 with
          | .error e => .error e
          | .ok (Params, VaArgsName, Tok1) =>
            match copyLine Tok1 with
            | .error e => .error e
            | .ok (Body, Rest) => .ok (addMacro st t.Loc false Body Params VaArgsName none, Rest)
        else
          match copyLine (n :: rest2) with
          | .error e => .error e
          | .ok (Body, Rest) => .ok (addMacro st t.Loc true Body [] none none, Rest)

/-- Translation of `readMacroArgOne`; `Level` is the loop variable of that
name.  Returns the argument (its name not yet set) and `*Rest`. -/
def readMacroArgOneL : List Token → Bool → Nat → Except Err (MacroArg × List Token)
  | [], _, _ => .error .crash
  | t :: rest, ReadRest, Level =>
    if Level == 0 && equal t ")" then .ok ({ Name := "", Tok := [newEOF t] }, t :: rest)
    else if Level == 0 && !ReadRest && equal t "," then
      .ok ({ Name := "", Tok := [newEOF t] }, t :: rest)
    else if t.Kind = .TK_EOF then .error (.fatal "premature end of input")
    else
      match readMacroArgOneL rest ReadRest
          (if equal t "(" then Level + 1 else if equal t ")" then Level - 1 else Level) with
      | .error e => .error e
      | .ok (Arg, r) => .ok ({ Arg with Tok := copyToken t :: Arg.Tok }, r)

/-- Translation of `readMacroArgOne` (`Level` starts at 0). -/
def readMacroArgOne (Tok : List Token) (ReadRest : Bool) : Except Err (MacroArg × List Token) :=
  readMacroArgOneL Tok ReadRest 0

/-- The `for` loop of `readMacroArgs` over the parameters; `first` says that
`Cur == &Head`. -/
def readMacroArgsLoop : List String → Bool → List Token → Except Err (List MacroArg × List Token)
  | [], _, Tok => .ok ([], Tok)
  | p :: PP, first, Tok =>
    match (if first then .ok Tok else skip Tok ",") with
    | .error e => .error e
    | .ok Tok1 =>
      match readMacroArgOne Tok1 false with
      | .error e => .error e
      | .ok (Arg, Tok2) =>
        match readMacroArgsLoop PP false Tok2 with
        | .error e => .error e
        | .ok (Args, Tok3) => .ok ({ Arg with Name := p } :: Args, Tok3)

/-- Translation of `readMacroArgs`; `Tok` starts at the macro name.  Returns the
arguments and `*Rest`, which is at the closing parenthesis.  After the loop
`PP` is `NULL`, so the `too many arguments` branch cannot be taken. -/
def readMacroArgs (Tok : List Token) (Params : List String) (VaArgsName : Option String) :
    Except Err (List MacroArg × List Token) :=
  match Tok with
  | _ :: _ :: Tok0 =>
    match readMacroArgsLoop Params true Tok0 with
    | .error e => .error e
    | .ok (Args, Tok1) =>
      match VaArgsName with
      | some va =>
        match Tok1 with
        | [] => .error .crash
        | t :: rest =>
          if equal t ")" then
            .ok (Args ++ [{ Name := va, IsVaArg := true, Tok := [newEOF t] }], t :: rest)
          else
            match (if Params ≠ [] then skip (t :: rest) "," else .ok (t :: rest)) with
            | .error e => .error e
            | .ok Tok2 =>
              match readMacroArgOne Tok2 true with
              | .error e => .error e
              | .ok (Arg, Tok3) =>
                match skip Tok3 ")" with
                | .error e => .error e
                | .ok _ => .ok (Args ++ [{ Arg with Name := va, IsVaArg := true }], Tok3)
      | none =>
        match skip Tok1 ")" with
        | .error e => .error e
        | .ok _ => .ok (Args, Tok1)
  | _ => .error .crash

/-- Translation of `findArg`. -/
def findArg : List MacroArg → Token → Option MacroArg
  | [], _ => none
  | AP :: Args, Tok => if Tok.Loc == AP.Name then some AP else findArg Args Tok

/-- The loops of `joinTokens`: the characters written to `Buf`.  `End` is the
number of `Next` steps from the current token to `End` (`none` for `NULL`),
`first` says `T == Tok`. -/
def joinTokensLoop : List Token → Option Nat → Bool → Except Err String
  | [], none, _ => .ok ""
  | [], some _, _ => .error .crash
  | t :: rest, End, first =>
    if End = some 0 then .ok ""
    else if t.Kind = .TK_EOF then .ok ""
    else
      match joinTokensLoop rest (End.map fun n => n - 1) false with
      | .error e => .error e
      | .ok r => .ok ((if !first && t.HasSpace then " " else "") ++ t.Loc ++ r)

/-- Translation of `joinTokens`. -/
def joinTokens (Tok : List Token) (End : Option Nat) : Except Err String :=
  joinTokensLoop Tok End true

/-- Translation of `stringize`. -/
def stringize (env : Env) (st : State) (Hash : Token) (Arg : List Token) :
    Except Err ((Token × List Token) × State) :=
  match joinTokens Arg none with
  | .error e => .error e
  | .ok S => .ok (newStrToken env st S Hash.toTokenData)

/-- Translation of `paste`. -/
def paste (env : Env) (st : State) (LHS RHS : Token) : Except Err (Token × State) :=
  let r := tokenizeNew env st (fileOf st LHS.toTokenData).Name (fileOf st LHS.toTokenData).FileNo
    (LHS.Loc ++ RHS.Loc)
  match r.1.2 with
  | [] => .error .crash
  | n :: _ =>
    if n.Kind ≠ .TK_EOF then
      .error (.fatal ("pasting forms '" ++ LHS.Loc ++ RHS.Loc ++ "', an invalid token"))
    else .ok (r.1.1, r.2)

/-- Translation of `hasVarargs`. -/
def hasVarargs : List MacroArg → Except Err Bool
  | [] => .ok false
  | AP :: Args =>
    if AP.Name == "__VA_ARGS__" then
      match AP.Tok with
      | [] => .error .crash
      | t :: _ => .ok (t.Kind ≠ .TK_EOF)
    else hasVarargs Args

/-! ## Substitution -/

/-- The loop `for (T = Tok; T->Kind != TK_EOF; T = T->Next) Cur = Cur->Next = copyToken(T)`
that `subst` uses to emit the tokens of an argument: the tokens before EOF. -/
def copyUntilEOF : List Token → Except Err (List Token)
  | [] => .error .crash
  | t :: rest =>
    if t.Kind = .TK_EOF then .ok []
    else match copyUntilEOF rest with
      | .error e => .error e
      | .ok r => .ok (copyToken t :: r)

/-- The test of the GNU comma rule in `subst`:
`equal(Tok, ",") && equal(Tok->Next, "##")` and then
`Arg = findArg(Args, Tok->Next->Next)` with `Arg && Arg->IsVaArg`; the result
is that argument when the rule applies. -/
def commaVaArg (Args : List MacroArg) (t : Token) (rest : List Token) :
    Except Err (Option MacroArg) :=
  if equal t "," then
    match rest with
    | [] => .error .crash
    | n :: rest2 =>
      if equal n "##" then
        match rest2 with
        | [] => .error .crash
        | p :: _ =>
          match findArg Args p with
          | some Arg => if Arg.IsVaArg then .ok (some Arg) else .ok none
          | none => .ok none
      else .ok none
  else .ok none

/-- The test `Arg && equal(Tok->Next, "##")` of `subst`. -/
def leftOfPaste (Arg : Option MacroArg) (rest : List Token) : Except Err Bool :=
  match Arg, rest with
  | none, _ => .ok false
  | some _, [] => .error .crash
  | some _, n :: _ => .ok (equal n "##")

/-- The test `equal(Tok, "__VA_OPT__") && equal(Tok->Next, "(")` of `subst`. -/
def isVaOpt (t : Token) (rest : List Token) : Except Err Bool :=
  if equal t "__VA_OPT__" then
    match rest with
    | [] => .error .crash
    | n :: _ => .ok (equal n "(")
  else .ok false

/-- The body of the `__VA_OPT__` branch of `subst` up to its `continue`: the
tokens emitted and the new `Tok`; `RHS` is `Tok->Next->Next`. -/
def vaOptTokens (Args : List MacroArg) (RHS : List Token) :
    Except Err (List Token × List Token) :=
  match readMacroArgOne RHS true with
  | .error e => .error e
  | .ok (Arg1, Tok1) =>
    match hasVarargs Args with
    | .error e => .error e
    | .ok hv =>
      match (if hv then copyUntilEOF Arg1.Tok else .ok []) with
      | .error e => .error e
      | .ok more =>
        match skip Tok1 ")" with
        | .error e => .error e
        | .ok Tok2 => .ok (more, Tok2)

/-- What `preprocess2(Arg->Tok)` and the two stores into its first token leave
at `Arg->Tok`: the call works on the argument's own tokens, so the list that
starts at the argument's first token is another one afterwards.  The function
takes the argument's tokens, the state, and the `AtBOL` and `HasSpace` stored
into the head of the result. -/
abbrev ArgView := List Token → State → Bool → Bool → Except Err (List Token)

/-- The arguments after the list of the argument that `findArg(Args, Tok)`
returns has become `V`. -/
def setArgTok : List MacroArg → Token → List Token → List MacroArg
  | [], _, _ => []
  | AP :: Args, Tok, V =>
    if Tok.Loc == AP.Name then { AP with Tok := V } :: Args else AP :: setArgTok Args Tok V

/-- The outcome of one iteration of the loop of `subst`: the loop has ended
with the list returned, or it goes on with the arguments, `Tok`, the output
and the state. -/
inductive SubstNext where
  | done (r : List Token × State)
  | next (Args : List MacroArg) (Tok Out : List Token) (st : State)

/-- One iteration of the `while` loop of `subst`.  `Out` holds the tokens
linked from `Head` so far (`Cur` is its last element, `Cur == &Head` is
`Out = []`); `pp2` is `preprocess2` and `view` what it leaves at `Arg->Tok`. -/
def substStep (env : Env) (pp2 : List Token → State → Except Err (List Token × State))
    (view : ArgView) (Args : List MacroArg) (Tok Out : List Token) (st : State) :
    Except Err SubstNext :=
  match Tok with
  | [] => .error .crash
  | t :: rest =>
    if t.Kind = .TK_EOF then .ok (.done (Out ++ t :: rest, st))
    else if equal t "#" then
      match rest with
      | [] => .error .crash
      | n :: rest2 =>
        match findArg Args n with
        | none => .error (.fatal "'#' is not followed by a macro parameter")
        | some Arg =>
          match stringize env st t Arg.Tok with
          | .error e => .error e
          | .ok (s, st1) => .ok (.next Args rest2 (Out ++ [s.1]) st1)
    else
      match commaVaArg Args t rest with
      | .error e => .error e
      | .ok (some Arg) =>
        match Arg.Tok with
        | [] => .error .crash
        | a :: _ =>
          if a.Kind = .TK_EOF then .ok (.next Args (rest.drop 2) Out st)
          else .ok (.next Args (rest.drop 1) (Out ++ [copyToken t]) st)
      | .ok none =>
        if equal t "##" then
          match Out.getLast?, rest with
          | none, _ => .error (.fatal "'##' cannot appear at start of macro expansion")
          | some _, [] => .error .crash
          | some Cur, n :: rest2 =>
            if n.Kind = .TK_EOF then
              .error (.fatal "'##' cannot appear at end of macro expansion")
            else
              match findArg Args n with
              | some Arg =>
                match Arg.Tok with
                | [] => .error .crash
                | a :: as =>
                  if a.Kind ≠ .TK_EOF then
                    match paste env st Cur a with
                    | .error e => .error e
                    | .ok (p, st1) =>
                      match copyUntilEOF as with
                      | .error e => .error e
                      | .ok more => .ok (.next Args rest2 (Out.dropLast ++ [p] ++ more) st1)
                  else .ok (.next Args rest2 Out st)
              | none =>
                match paste env st Cur n with
                | .error e => .error e
                | .ok (p, st1) => .ok (.next Args rest2 (Out.dropLast ++ [p]) st1)
        else
          match leftOfPaste (findArg Args t) rest, findArg Args t with
          | .error e, _ => .error e
          | .ok true, none => .error .crash
          | .ok true, some Arg =>
            match Arg.Tok with
            | [] => .error .crash
            | a :: _ =>
              if a.Kind = .TK_EOF then
                match rest.drop 1 with
                | [] => .error .crash
                | RHS :: rest3 =>
                  match findArg Args RHS with
                  | some Arg2 =>
                    match copyUntilEOF Arg2.Tok with
                    | .error e => .error e
                    | .ok more => .ok (.next Args rest3 (Out ++ more) st)
                  | none => .ok (.next Args rest3 (Out ++ [copyToken RHS]) st)
              else
                match copyUntilEOF Arg.Tok with
                | .error e => .error e
                | .ok more => .ok (.next Args rest (Out ++ more) st)
          | .ok false, Arg? =>
            match isVaOpt t rest with
            | .error e => .error e
            | .ok true =>
              match vaOptTokens Args (rest.drop 1) with
              | .error e => .error e
              | .ok (more, Tok2) => .ok (.next Args Tok2 (Out ++ more) st)
            | .ok false =>
              match Arg? with
              | some Arg =>
                match pp2 Arg.Tok st with
                | .error e => .error e
                | .ok ([], _) => .error .crash
                | .ok (T :: Ts, st1) =>
                  match copyUntilEOF
                      ({ T with AtBOL := t.AtBOL, HasSpace := t.HasSpace } :: Ts) with
                  | .error e => .error e
                  | .ok more =>
                    match view Arg.Tok st t.AtBOL t.HasSpace with
                    | .error e => .error e
                    | .ok V => .ok (.next (setArgTok Args t V) rest (Out ++ more) st1)
              | none => .ok (.next Args rest (Out ++ [copyToken t]) st)

/-- Translation of `subst` on a step budget: the `while` loop over `substStep`. -/
def substF (env : Env) (pp2 : List Token → State → Except Err (List Token × State))
    (view : ArgView) :
    List MacroArg → Nat → List Token → List Token → State → Except Err (List Token × State)
  | _, 0, _, _, _ => .error .outOfFuel
  | Args, f + 1, Tok, Out, st =>
    match substStep env pp2 view Args Tok Out st with
    | .error e => .error e
    | .ok (.done r) => .ok r
    | .ok (.next Args1 Tok1 Out1 st1) => substF env pp2 view Args1 f Tok1 Out1 st1

/-- Translation of `subst`. -/
def subst (env : Env) (pp2 : List Token → State → Except Err (List Token × State))
    (view : ArgView) (Tok : List Token) (Args : List MacroArg) (st : State) :
    Except Err (List Token × State) :=
  substF env pp2 view Args (Tok.length + 1) Tok [] st

/-! ## Expansion driver -/

/-- The token reached by `while (Tmpl->Origin) Tmpl = Tmpl->Origin`. -/
def originRoot (Tmpl : Token) : TokenData :=
  match Tmpl.Origin.getLast? with
  | some r => r
  | none => Tmpl.toTokenData

/-- Translation of the built-in handlers `fileMacro`, `lineMacro`,
`counterMacro`, `timestampMacro` and `baseFileMacro`: the token returned
(the first one the lexer produced) and the new state. -/
def runHandler (env : Env) (st : State) (h : Handler) (Tmpl : Token) : Token × State :=
  match h with
  | .fileMacro =>
    let r := newStrToken env st (fileOf st (originRoot Tmpl)).DisplayName (originRoot Tmpl)
    (r.1.1, r.2)
  | .lineMacro =>
    let r := newNumToken env st
      (wrapInt32 ((originRoot Tmpl).LineNo + (fileOf st (originRoot Tmpl)).LineDelta))
      (originRoot Tmpl)
    (r.1.1, r.2)
  | .counterMacro =>
    let r := newNumToken env st st.counter Tmpl.toTokenData
    (r.1.1, { r.2 with counter := wrapInt32 (st.counter + 1) })
  | .timestampMacro =>
    match env.mtime (fileOf st Tmpl.toTokenData).Name with
    | none =>
      let r := newStrToken env st "??? ??? ?? ??:??:?? ????" Tmpl.toTokenData
      (r.1.1, r.2)
    | some Buf =>
      let r := newStrToken env st Buf Tmpl.toTokenData
      (r.1.1, r.2)
  | .baseFileMacro =>
    let r := newStrToken env st env.BaseFile Tmpl.toTokenData
    (r.1.1, r.2)

/-- The loop `for (T = Body; T->Kind != TK_EOF; T = T->Next) T->Origin = Tok`
of `expandMacro`. -/
def setOrigin : List Token → Token → Except Err (List Token)
  | [], _ => .error .crash
  | t :: Body, Tok =>
    if t.Kind = .TK_EOF then .ok (t :: Body)
    else match setOrigin Body Tok with
      | .error e => .error e
      | .ok r => .ok ({ t with Origin := Tok.toTokenData :: Tok.Origin } :: r)

/-- The end of both expansion branches of `expandMacro`: record the origin,
`*Rest = append(Body, Next)`, then copy `AtBOL` and `HasSpace` of the macro
token to `*Rest`. -/
def spliceBody (Body : List Token) (MacroToken : Token) (Next : List Token) :
    Except Err (List Token) :=
  match setOrigin Body MacroToken with
  | .error e => .error e
  | .ok Body1 =>
    match append Body1 Next with
    | .error e => .error e
    | .ok [] => .error .crash
    | .ok (r :: rs) =>
      .ok ({ r with AtBOL := MacroToken.AtBOL, HasSpace := MacroToken.HasSpace } :: rs)

/-- Translation of `expandMacro`.  The result `none` is `false` (the stream
is left as it was); `some Rest` is `true` with the new `*Rest`. -/
def expandMacro (env : Env) (pp2 : List Token → State → Except Err (List Token × State))
    (view : ArgView) (Tok : List Token) (st : State) :
    Except Err (Option (List Token) × State) :=
  match Tok with
  | [] => .error .crash
  | t :: rest =>
    if hidesetContains t.Hideset t.Loc then .ok (none, st)
    else
      match findMacro st t with
      | none => .ok (none, st)
      | some M =>
        match M.Handler with
        | some h => .ok (some ((runHandler env st h t).1 :: rest), (runHandler env st h t).2)
        | none =>
          if M.IsObjlike then
            match spliceBody
                (addHideset M.Body (hidesetUnion t.Hideset (newHideset M.Name))) t rest with
            | .error e => .error e
            | .ok r => .ok (some r, st)
          else
            match rest with
            | [] => .error .crash
            | n :: _ =>
              if !equal n "(" then .ok (none, st)
              else
                match readMacroArgs (t :: rest) M.Params M.VaArgsName with
                | .error e => .error e
                | .ok (_, []) => .error .crash
                | .ok (Args, RParen :: after) =>
                  match subst env pp2 view M.Body Args st with
                  | .error e => .error e
                  | .ok (Body, st1) =>
                    match spliceBody
                        (addHideset Body
                          (hidesetUnion (hidesetIntersection t.Hideset RParen.Hideset)
                            (newHideset M.Name))) t after with
                    | .error e => .error e
                    | .ok r => .ok (some r, st1)

/-! ## File inclusion -/

/-- The `for` loop of `searchIncludePaths` from index `I` over the remaining
include paths. -/
def searchPathsFrom (env : Env) (Filename : String) : List String → Nat → Option (String × Nat)
  | [], _ => none
  | d :: Paths, I =>
    if env.fileExists (d ++ "/" ++ Filename) then some (d ++ "/" ++ Filename, I)
    else searchPathsFrom env Filename Paths (I + 1)

/-- Translation of `searchIncludePaths`. -/
def searchIncludePaths (env : Env) (st : State) (Filename : String) : Option String × State :=
  if Filename.data.head? = some '/' then (some Filename, st)
  else
    match hashmap_get st.cache Filename with
    | some cached => (some cached, st)
    | none =>
      match searchPathsFrom env Filename env.IncludePaths 0 with
      | some (Path, I) =>
        (some Path,
         { st with cache := hashmap_put st.cache Filename Path, include_next_idx := I + 1 })
      | none => (none, st)

/-- Translation of `search_include_next`: the loop advances the global
`include_next_idx` itself. -/
def search_include_next (env : Env) (st : State) (filename : String) : Option String × State :=
  match searchPathsFrom env filename (env.IncludePaths.drop st.include_next_idx)
      st.include_next_idx with
  | some (path, I) => (some path, { st with include_next_idx := I })
  | none =>
    (none, { st with include_next_idx := max st.include_next_idx env.IncludePaths.length })

/-- The search for `>` in `readIncludeFilename`: the number of tokens stepped
over and the stream at `>`. -/
def findCloseAngle : List Token → Except Err (Nat × List Token)
  | [] => .error .crash
  | t :: rest =>
    if equal t ">" then .ok (0, t :: rest)
    else if t.AtBOL || t.Kind = .TK_EOF then .error (.fatal "expected '>'")
    else match findCloseAngle rest with
      | .error e => .error e
      | .ok (n, r) => .ok (n + 1, r)

/-- Translation of `readIncludeFilename`, on a step budget for its recursion:
the file name, `*IsDquote`, `*Rest` and the state. -/
def readIncludeFilenameF (pp2 : List Token → State → Except Err (List Token × State)) :
    Nat → List Token → State → Except Err (String × Bool × List Token × State)
  | 0, _, _ => .error .outOfFuel
  | _ + 1, [], _ => .error .crash
  | f + 1, t :: rest, st =>
    if t.Kind = .TK_STR then
      match skipLine rest with
      | .error e => .error e
      | .ok Rest => .ok ((t.Loc.drop 1).dropRight 1, true, Rest, st)
    else if equal t "<" then
      match findCloseAngle (t :: rest) with
      | .error e => .error e
      | .ok (n, Tok1) =>
        match skipLine (Tok1.drop 1), joinTokens rest (some (n - 1)) with
        | .error e, _ => .error e
        | _, .error e => .error e
        | .ok Rest, .ok name => .ok (name, false, Rest, st)
    else if t.Kind = .TK_IDENT then
      match copyLine (t :: rest) with
      | .error e => .error e
      | .ok (line, Rest) =>
        match pp2 line st with
        | .error e => .error e
        | .ok (Tok2, st1) =>
          match readIncludeFilenameF pp2 f Tok2 st1 with
          | .error e => .error e
          | .ok (name, dq, _, st2) => .ok (name, dq, Rest, st2)
    else .error (.fatal "expected a filename")

/-- The `while` loop of `detect_include_guard`, on a step budget.  The test
`equal(Tok, "if") || ...` is made on the `#` token itself, as in the source. -/
def detectGuardLoopF (macroName : String) : Nat → List Token → Except Err (Option String)
  | 0, _ => .error .outOfFuel
  | _ + 1, [] => .error .crash
  | f + 1, t :: rest =>
    if t.Kind = .TK_EOF then .ok none
    else if !isHash t then detectGuardLoopF macroName f rest
    else
      match rest with
      | [] => .error .crash
      | n :: rest2 =>
        match (if equal n "endif" then
            match rest2 with
            | [] => (.error .crash : Except Err Bool)
            | e :: _ => .ok (decide (e.Kind = TokenKind.TK_EOF))
          else .ok false) with
        | .error e => .error e
        | .ok true => .ok (some macroName)
        | .ok false =>
          if equal t "if" || equal t "ifdef" || equal t "ifndef" then
            match skipCondIncl rest with
            | .error e => .error e
            | .ok r => detectGuardLoopF macroName f r
          else detectGuardLoopF macroName f rest

/-- Translation of `detect_include_guard`. -/
def detect_include_guard (Tok : List Token) : Except Err (Option String) :=
  match Tok with
  | [] => .error .crash
  | h :: rest =>
    if !isHash h then .ok none
    else
      match rest with
      | [] => .error .crash
      | n :: rest2 =>
        if !equal n "ifndef" then .ok none
        else
          match rest2 with
          | [] => .error .crash
          | m :: rest3 =>
            if m.Kind ≠ .TK_IDENT then .ok none
            else
              match rest3 with
              | [] => .error .crash
              | h2 :: rest4 =>
                if !isHash h2 then .ok none
                else
                  match rest4 with
                  | [] => .error .crash
                  | d :: rest5 =>
                    if !equal d "define" then .ok none
                    else
                      match rest5 with
                      | [] => .error .crash
                      | m2 :: _ =>
                        if !equal m2 m.Loc then .ok none
                        else detectGuardLoopF m.Loc (rest3.length + 1) rest3

/-- Translation of `tokenizeFile` as `includeFile` uses it: the lexer opens the
file, allocates its `File` object and returns the tokens pointing to it, with
the `NULL` hideset. -/
def tokenizeFileNew (env : Env) (st : State) (Path : String) : Option (List Token × State) :=
  match env.tokenizeFile Path with
  | none => none
  | some toks =>
    some (toks.map (fun t => { t with File := st.files.length, Hideset := [] }),
      { st with files := st.files ++
          [{ Name := Path, FileNo := st.files.length + 1, DisplayName := Path }] })

/-- Translation of `includeFile`. -/
def includeFile (env : Env) (st : State) (Tok : List Token) (Path : String) :
    Except Err (List Token × State) :=
  if (hashmap_get st.pragma_once Path).isSome then .ok (Tok, st)
  else if ((hashmap_get st.IncludeGuards Path).bind fun G => hashmap_get st.Macros G).isSome then
    .ok (Tok, st)
  else
    match tokenizeFileNew env st Path with
    | none => .error (.fatal (Path ++ ": cannot open file"))
    | some (Tok2, st1) =>
      match detect_include_guard Tok2 with
      | .error e => .error e
      | .ok G =>
        match append Tok2 Tok with
        | .error e => .error e
        | .ok r =>
          .ok (r, match G with
            | some GuardName =>
              { st1 with IncludeGuards := hashmap_put st1.IncludeGuards Path GuardName }
            | none => st1)

/-! ## Adjacent string literals and the entry point -/

/-- The `StringKind` enumeration. -/
inductive StringKind where
  | STR_NONE
  | STR_UTF8
  | STR_UTF16
  | STR_UTF32
  | STR_WIDE
  deriving DecidableEq, Repr

/-- Translation of `getStringKind`.  `strcmp(Tok->Loc, "u8")` compares the
whole buffer from `Loc` on, that is the lexeme and what follows it; the
`default` case is `unreachable()`. -/
def getStringKind (Tok : Token) : Except Err StringKind :=
  if Tok.Loc ++ Tok.After == "u8" then .ok .STR_UTF8
  else
    match (Tok.Loc ++ Tok.After).data.head? with
    | some '"' => .ok .STR_NONE
    | some 'u' => .ok .STR_UTF16
    | some 'U' => .ok .STR_UTF32
    | some 'L' => .ok .STR_WIDE
    | _ => .error (.fatal "internal error")

/-- The type `Tok->Ty` of a literal; a `NULL` type is a crash. -/
def tokTy (T : Token) : Except Err TokType :=
  match T.Ty with
  | none => .error .crash
  | some ty => .ok ty

/-- The element type `Tok->Ty->Base` of a literal. -/
def tokBase (T : Token) : Except Err BaseType :=
  match T.Ty with
  | none => .error .crash
  | some ty =>
    match ty.Base with
    | none => .error .crash
    | some b => .ok b

/-- The first inner loop of the first pass: determine the kind and element
type of the run that starts before `T`. -/
def scanRun : List Token → StringKind → BaseType → Except Err (StringKind × BaseType)
  | [], _, _ => .error .crash
  | T :: rest, Kind, BaseTy =>
    if T.Kind ≠ .TK_STR then .ok (Kind, BaseTy)
    else
      match getStringKind T with
      | .error e => .error e
      | .ok K =>
        if Kind = .STR_NONE then
          match tokBase T with
          | .error e => .error e
          | .ok b => scanRun rest K b
        else if K ≠ .STR_NONE ∧ Kind ≠ K then
          .error (.fatal "unsupported non-standard concatenation of string literals")
        else scanRun rest Kind BaseTy

/-- The second inner loop of the first pass: re-lex the narrow literals of the
run with the wide element type. -/
def widenRun (env : Env) (BaseTy : BaseType) : List Token → Except Err (List Token)
  | [] => .error .crash
  | T :: rest =>
    if T.Kind ≠ .TK_STR then .ok (T :: rest)
    else
      match tokBase T, widenRun env BaseTy rest with
      | .error e, _ => .error e
      | _, .error e => .error e
      | .ok b, .ok r =>
        .ok ((if b.Size = 1 then env.tokenizeStringLiteral T BaseTy else T) :: r)

/-- The first pass of `joinAdjacentStringLiterals`, on a step budget. -/
def joinPass1F (env : Env) : Nat → List Token → Except Err (List Token)
  | 0, _ => .error .outOfFuel
  | _ + 1, [] => .error .crash
  | f + 1, Tok1 :: rest =>
    if Tok1.Kind = .TK_EOF then .ok (Tok1 :: rest)
    else
      match rest with
      | [] => .error .crash
      | n :: _ =>
        if Tok1.Kind ≠ .TK_STR ∨ n.Kind ≠ .TK_STR then
          match joinPass1F env f rest with
          | .error e => .error e
          | .ok r => .ok (Tok1 :: r)
        else
          match getStringKind Tok1, tokBase Tok1 with
          | .error e, _ => .error e
          | _, .error e => .error e
          | .ok Kind, .ok b =>
            match scanRun rest Kind b with
            | .error e => .error e
            | .ok (_, BaseTy) =>
              match (if BaseTy.Size > 1 then widenRun env BaseTy (Tok1 :: rest)
                  else .ok (Tok1 :: rest)) with
              | .error e => .error e
              | .ok w =>
                match joinPass1F env f (w.dropWhile fun T => T.Kind = .TK_STR) with
                | .error e => .error e
                | .ok r => .ok (w.takeWhile (fun T => T.Kind = .TK_STR) ++ r)

/-- The length computed by the second pass: `Len = Len + T->Ty->ArrayLen - 1`
over the rest of the run, in `int` arithmetic. -/
def joinedLen : List Token → Int → Except Err Int
  | [], Len => .ok Len
  | T :: run, Len =>
    match tokTy T with
    | .error e => .error e
    | .ok ty => joinedLen run (wrapInt32 (wrapInt32 (Len + ty.ArrayLen) - 1))

/-- The bytes of `Buf` after `memcpy(Buf + I, Src, n)`; bytes that `Src` does
not have read as 0 and writes behind the buffer are dropped. -/
def memcpy (Buf : List Nat) (I : Int) (Src : List Nat) (n : Int) : List Nat :=
  (List.range Buf.length).map fun (j : Nat) =>
    if I ≤ (j : Int) ∧ (j : Int) < I + n then Src.getD ((j : Int) - I).toNat 0 else Buf.getD j 0

/-- The copy loop of the second pass over the run. -/
def joinedStr : List Token → List Nat → Int → Except Err (List Nat)
  | [], Buf, _ => .ok Buf
  | T :: run, Buf, I =>
    match tokTy T, tokBase T with
    | .error e, _ => .error e
    | _, .error e => .error e
    | .ok ty, .ok b =>
      joinedStr run (memcpy Buf I T.Str ty.Size) (wrapInt32 (wrapInt32 (I + ty.Size) - b.Size))

/-- The second pass of `joinAdjacentStringLiterals`, on a step budget. -/
def joinPass2F : Nat → List Token → Except Err (List Token)
  | 0, _ => .error .outOfFuel
  | _ + 1, [] => .error .crash
  | f + 1, Tok1 :: rest =>
    if Tok1.Kind = .TK_EOF then .ok (Tok1 :: rest)
    else
      match rest with
      | [] => .error .crash
      | n :: _ =>
        if Tok1.Kind ≠ .TK_STR ∨ n.Kind ≠ .TK_STR then
          match joinPass2F f rest with
          | .error e => .error e
          | .ok r => .ok (Tok1 :: r)
        else
          match tokTy Tok1, tokBase Tok1 with
          | .error e, _ => .error e
          | _, .error e => .error e
          | .ok ty, .ok b =>
            match joinedLen (rest.takeWhile fun T => T.Kind = .TK_STR) ty.ArrayLen with
            | .error e => .error e
            | .ok Len =>
              match joinedStr (Tok1 :: rest.takeWhile fun T => T.Kind = .TK_STR)
                  (List.replicate (b.Size * Len).toNat 0) 0 with
              | .error e => .error e
              | .ok Buf =>
                match joinPass2F f (rest.dropWhile fun T => T.Kind = .TK_STR) with
                | .error e => .error e
                | .ok r => .ok ({ copyToken Tok1 with Ty := some (arrayOf b Len), Str := Buf } :: r)

/-- Translation of `joinAdjacentStringLiterals`. -/
def joinAdjacentStringLiterals (env : Env) (Tok : List Token) : Except Err (List Token) :=
  match joinPass1F env (2 * Tok.length + 2) Tok with
  | .error e => .error e
  | .ok r => joinPass2F (r.length + 1) r

/-- Translation of `preprocess`, given `preprocess2`. -/
def preprocessWith (env : Env) (pp2 : List Token → State → Except Err (List Token × State))
    (Tok : List Token) (st : State) : Except Err (List Token × State) :=
  match pp2 Tok st with
  | .error e => .error e
  | .ok (Tok1, st1) =>
    match st1.CondIncls with
    | _ :: _ => .error (.fatal "unterminated conditional directive")
    | [] =>
      match env.convertPPTokens Tok1 with
      | .error e => .error e
      | .ok Tok2 =>
        match joinAdjacentStringLiterals env Tok2 with
        | .error e => .error e
        | .ok Tok3 =>
          .ok (Tok3.map (fun T => { T with LineNo := wrapInt32 (T.LineNo + T.LineDelta) }), st1)

/-! ## Directives -/

/-- Application of `g` to the `File` object with index `i`. -/
def modifyFile (files : List FileRec) (i : Nat) (g : FileRec → FileRec) : List FileRec :=
  match files, i with
  | [], _ => []
  | r :: rs, 0 => g r :: rs
  | r :: rs, i + 1 => r :: modifyFile rs i g

/-- The C string stored in `Tok->Str`: the characters before the first NUL. -/
def cstr (Str : List Nat) : String :=
  String.mk ((Str.takeWhile fun b => b ≠ 0).map Char.ofNat)

/-- Translation of `readLineMarker`: `*Rest` and the state. -/
def readLineMarker (env : Env) (pp2 : List Token → State → Except Err (List Token × State))
    (Tok : List Token) (st : State) : Except Err (List Token × State) :=
  match Tok, copyLine Tok with
  | [], _ => .error .crash
  | _, .error e => .error e
  | Start :: _, .ok (line, Rest) =>
    match preprocessWith env pp2 line st with
    | .error e => .error e
    | .ok ([], _) => .error .crash
    | .ok (n :: Tok2, st1) =>
      if n.Kind ≠ .TK_NUM then .error (.fatal "invalid line marker")
      else
        match n.Ty with
        | none => .error .crash
        | some ty =>
          if ty.Kind ≠ .TY_INT then .error (.fatal "invalid line marker")
          else
            match Tok2 with
            | [] => .error .crash
            | s :: _ =>
              if s.Kind = .TK_EOF then
                .ok (Rest, { st1 with files := modifyFile st1.files Start.File (fun r =>
                  { r with LineDelta := wrapInt32 (n.Val - Start.LineNo) }) })
              else if s.Kind ≠ .TK_STR then .error (.fatal "filename expected")
              else
                .ok (Rest, { st1 with files := modifyFile st1.files Start.File (fun r =>
                  { r with LineDelta := wrapInt32 (n.Val - Start.LineNo), DisplayName := cstr s.Str }) })

/-- The loop of `evalConstExpr` that replaces the identifiers left after
expansion by the number 0. -/
def identsToZero (env : Env) : List Token → State → Except Err (List Token × State)
  | [], _ => .error .crash
  | T :: rest, st =>
    if T.Kind = .TK_EOF then .ok (T :: rest, st)
    else if T.Kind = .TK_IDENT then
      match identsToZero env rest (newNumToken env st 0 T.toTokenData).2 with
      | .error e => .error e
      | .ok (r, st2) => .ok ((newNumToken env st 0 T.toTokenData).1.1 :: r, st2)
    else
      match identsToZero env rest st with
      | .error e => .error e
      | .ok (r, st2) => .ok (T :: r, st2)

/-- Translation of `evalConstExpr`; `Tok` starts at the `if` or `elif` token.
Returns the value, `*Rest` and the state. -/
def evalConstExpr (env : Env) (pp2 : List Token → State → Except Err (List Token × State))
    (Tok : List Token) (st : State) : Except Err (Int × List Token × State) :=
  match Tok with
  | [] => .error .crash
  | _ :: rest =>
    match readConstExpr env rest st with
    | .error e => .error e
    | .ok (Expr, Rest, st1) =>
      match pp2 Expr st1 with
      | .error e => .error e
      | .ok ([], _) => .error .crash
      | .ok (e :: Expr1, st2) =>
        if e.Kind = .TK_EOF then .error (.fatal "no expression")
        else
          match identsToZero env (e :: Expr1) st2 with
          | .error e => .error e
          | .ok (Expr2, st3) =>
            match env.convertPPTokens Expr2 with
            | .error e => .error e
            | .ok Expr3 =>
              match env.constExpr Expr3 with
              | .error e => .error e
              | .ok (_, []) => .error .crash
              | .ok (Val, r :: _) =>
                if r.Kind ≠ .TK_EOF then .error (.fatal "extra token")
                else .ok (Val, Rest, st3)

/-- The store `CondIncls->Ctx = Ctx` into the top frame. -/
def setTopCtx (st : State) (Ctx : CondCtx) : State :=
  match st.CondIncls with
  | [] => st
  | c :: cs => { st with CondIncls := { c with Ctx := Ctx } :: cs }

/-- The store `CondIncls->Included = true` into the top frame. -/
def setTopIncluded (st : State) : State :=
  match st.CondIncls with
  | [] => st
  | c :: cs => { st with CondIncls := { c with Included := true } :: cs }

/-- One directive of `preprocess2`: the code between `Token *Start = Tok` and
the `continue` of the branch taken.  `Tok` is `Start->Next`; the result is the
token at which the loop continues, and the state.  `f` is the step budget
handed to `readIncludeFilename`. -/
def directive (env : Env) (pp2 : List Token → State → Except Err (List Token × State))
    (f : Nat) (Start : Token) (Tok : List Token) (st : State) :
    Except Err (List Token × State) :=
  match Tok with
  | [] => .error .crash
  | d :: rest =>
    if equal d "include" then
      match readIncludeFilenameF pp2 f rest st with
      | .error e => .error e
      | .ok (Filename, IsDquote, Tok1, st1) =>
        if Filename.data.head? ≠ some '/' ∧ IsDquote = true ∧
            env.fileExists (env.dirname (fileOf st1 Start.toTokenData).Name ++ "/" ++ Filename)
              = true then
          includeFile env st1 Tok1
            (env.dirname (fileOf st1 Start.toTokenData).Name ++ "/" ++ Filename)
        else
          includeFile env (searchIncludePaths env st1 Filename).2 Tok1
            ((searchIncludePaths env st1 Filename).1.getD Filename)
    else if equal d "include_next" then
      match readIncludeFilenameF pp2 f rest st with
      | .error e => .error e
      | .ok (filename, _, Tok1, st1) =>
        includeFile env (search_include_next env st1 filename).2 Tok1
          ((search_include_next env st1 filename).1.getD filename)
    else if equal d "define" then
      match readMacroDefinition st rest with
      | .error e => .error e
      | .ok (st1, Tok1) => .ok (Tok1, st1)
    else if equal d "undef" then
      match rest with
      | [] => .error .crash
      | n :: rest2 =>
        if n.Kind ≠ .TK_IDENT then .error (.fatal "macro name must be an identifier")
        else
          match skipLine rest2 with
          | .error e => .error e
          | .ok Tok1 => .ok (Tok1, undefMacro st n.Loc)
    else if equal d "if" then
      match evalConstExpr env pp2 (d :: rest) st with
      | .error e => .error e
      | .ok (Val, Tok1, st1) =>
        if Val = 0 then
          match skipCondIncl Tok1 with
          | .error e => .error e
          | .ok Tok2 => .ok (Tok2, pushCondIncl st1 Start false)
        else .ok (Tok1, pushCondIncl st1 Start true)
    else if equal d "ifdef" then
      match rest with
      | [] => .error .crash
      | n :: rest2 =>
        match skipLine rest2 with
        | .error e => .error e
        | .ok Tok1 =>
          if (findMacro st n).isSome then .ok (Tok1, pushCondIncl st d true)
          else
            match skipCondIncl Tok1 with
            | .error e => .error e
            | .ok Tok2 => .ok (Tok2, pushCondIncl st d false)
    else if equal d "ifndef" then
      match rest with
      | [] => .error .crash
      | n :: rest2 =>
        match skipLine rest2 with
        | .error e => .error e
        | .ok Tok1 =>
          if (findMacro st n).isSome then
            match skipCondIncl Tok1 with
            | .error e => .error e
            | .ok Tok2 => .ok (Tok2, pushCondIncl st d false)
          else .ok (Tok1, pushCondIncl st d true)
    else if equal d "elif" then
      match st.CondIncls with
      | [] => .error (.fatal "stray #elif")
      | c :: _ =>
        if c.Ctx = .IN_ELSE then .error (.fatal "stray #elif")
        else if c.Included then
          match skipCondIncl (d :: rest) with
          | .error e => .error e
          | .ok Tok2 => .ok (Tok2, setTopCtx st .IN_ELIF)
        else
          match evalConstExpr env pp2 (d :: rest) (setTopCtx st .IN_ELIF) with
          | .error e => .error e
          | .ok (Val, Tok1, st1) =>
            if Val ≠ 0 then
              match st1.CondIncls with
              | [] => .error .crash
              | _ :: _ => .ok (Tok1, setTopIncluded st1)
            else
              match skipCondIncl Tok1 with
              | .error e => .error e
              | .ok Tok2 => .ok (Tok2, st1)
    else if equal d "else" then
      match st.CondIncls with
      | [] => .error (.fatal "stray #else")
      | c :: _ =>
        if c.Ctx = .IN_ELSE then .error (.fatal "stray #else")
        else
          match skipLine rest with
          | .error e => .error e
          | .ok Tok1 =>
            if c.Included then
              match skipCondIncl Tok1 with
              | .error e => .error e
              | .ok Tok2 => .ok (Tok2, setTopCtx st .IN_ELSE)
            else .ok (Tok1, setTopCtx st .IN_ELSE)
    else if equal d "endif" then
      match st.CondIncls with
      | [] => .error (.fatal "stray #endif")
      | _ :: cs =>
        match skipLine rest with
        | .error e => .error e
        | .ok Tok1 => .ok (Tok1, { st with CondIncls := cs })
    else if equal d "line" then readLineMarker env pp2 rest st
    else if d.Kind = .TK_PP_NUM then readLineMarker env pp2 (d :: rest) st
    else if equal d "pragma" then
      match rest with
      | [] => .error .crash
      | n :: rest2 =>
        if equal n "once" then
          match skipLine rest2 with
          | .error e => .error e
          | .ok Tok1 =>
            .ok (Tok1,
              { st with pragma_once := hashmap_put st.pragma_once (fileOf st d.toTokenData).Name () })
        else
          match skipLine (n :: rest2) with
          | .error e => .error e
          | .ok Tok1 => .ok (Tok1, st)
    else if equal d "error" then .error (.fatal "error")
    else if d.AtBOL then .ok (d :: rest, st)
    else .error (.fatal "invalid preprocessor directive")

/-- The number of tokens behind the invocation that `expandMacro` has replaced:
the length of `Tok->Next` for a built-in or object-like macro, of what follows
the closing parenthesis for a function-like one. -/
def expandedRest (st : State) : List Token → Nat
  | [] => 0
  | t :: rest =>
    match findMacro st t with
    | none => 0
    | some M =>
      if M.Handler.isSome || M.IsObjlike then rest.length
      else
        match readMacroArgs (t :: rest) M.Params M.VaArgsName with
        | .ok (_, _ :: after) => after.length
        | _ => 0

/-- The number of tokens of the stream at which the loop continues after a
directive that were in the stream before: all of them, except behind
`#include` and `#include_next`, where the tokens of the file stand in front of
what `readIncludeFilename` left. -/
def directiveRest (pp2 : List Token → State → Except Err (List Token × State)) (f : Nat)
    (Tok : List Token) (st : State) (Tok2 : List Token) : Nat :=
  match Tok with
  | [] => 0
  | d :: rest =>
    if equal d "include" || equal d "include_next" then
      match readIncludeFilenameF pp2 f rest st with
      | .ok (_, _, Tok1, _) => Tok1.length
      | .error _ => 0
    else Tok2.length

/-- The tokens of the caller's list that a step of `preprocess2` passes without
emitting them, where the first `New` tokens of the stream `S` were made during
the call and `afterLen` tokens at the end of `S` are left in the stream. -/
def passedTokens (New : Nat) (S : List Token) (afterLen : Nat) : List Token :=
  (S.drop New).take (S.length - afterLen - New)

/-- The number of tokens at the front of the new stream `S1` that were made
during the call. -/
def newTokens (New : Nat) (S : List Token) (afterLen : Nat) (S1 : List Token) : Nat :=
  (New - (S.length - afterLen)) + (S1.length - afterLen)

mutual

/-- Translation of `preprocess2`, on a step budget: every iteration of the
`while` loop and every nested call takes one step. -/
def preprocess2F (env : Env) : Nat → List Token → State → Except Err (List Token × State)
  | 0, _, _ => .error .outOfFuel
  | _ + 1, [], _ => .error .crash
  | f + 1, t :: rest, st =>
    if t.Kind = .TK_EOF then .ok (t :: rest, st)
    else
      match expandMacro env (preprocess2F env f) (argViewF env f 0 false) (t :: rest) st with
      | .error e => .error e
      | .ok (some Tok1, st1) => preprocess2F env f Tok1 st1
      | .ok (none, st1) =>
        if !isHash t then
          match preprocess2F env f rest st1 with
          | .error e => .error e
          | .ok (r, st2) =>
            .ok ({ t with LineDelta := (fileOf st1 t.toTokenData).LineDelta,
                          Filename := (fileOf st1 t.toTokenData).DisplayName } :: r, st2)
        else
          match directive env (preprocess2F env f) f t rest st1 with
          | .error e => .error e
          | .ok (Tok2, st2) => preprocess2F env f Tok2 st2

/-- What the loop of `preprocess2` leaves in the list it was called on, seen
from that list's first token, with the caller's stores `T->AtBOL = B` and
`T->HasSpace = H` into the first token `T` of the result.  The loop links the
tokens it emits into the result (`Cur->Next = Tok`) and leaves every other
token as it is: a token of the caller's list that is emitted is followed by
the rest of the result, one that is passed (a macro invocation, a directive)
is followed by its old successor.  The first `New` tokens of the stream were
made during the call (a replacement, a file); `Emitted` says that the result
already has its first token. -/
def argViewF (env : Env) :
    Nat → Nat → Bool → List Token → State → Bool → Bool → Except Err (List Token)
  | 0, _, _, _, _, _, _ => .error .outOfFuel
  | _ + 1, _, _, [], _, _, _ => .error .crash
  | f + 1, New, Emitted, t :: rest, st, B, H =>
    if t.Kind = .TK_EOF then
      .ok (if New = 0 ∧ Emitted = false then { t with AtBOL := B, HasSpace := H } :: rest
        else (t :: rest).drop New)
    else
      match expandMacro env (preprocess2F env f) (argViewF env f 0 false) (t :: rest) st with
      | .error e => .error e
      | .ok (some Tok1, st1) =>
        match argViewF env f (newTokens New (t :: rest) (expandedRest st (t :: rest)) Tok1)
            Emitted Tok1 st1 B H with
        | .error e => .error e
        | .ok V => .ok (passedTokens New (t :: rest) (expandedRest st (t :: rest)) ++ V)
      | .ok (none, st1) =>
        if !isHash t then
          if New = 0 then
            match preprocess2F env f rest st1 with
            | .error e => .error e
            | .ok (r, _) =>
              .ok ({ t with LineDelta := (fileOf st1 t.toTokenData).LineDelta,
                            Filename := (fileOf st1 t.toTokenData).DisplayName,
                            AtBOL := if Emitted then t.AtBOL else B,
                            HasSpace := if Emitted then t.HasSpace else H } :: r)
          else argViewF env f (New - 1) true rest st1 B H
        else
          match directive env (preprocess2F env f) f t rest st1 with
          | .error e => .error e
          | .ok (Tok2, st2) =>
            match argViewF env f
                (newTokens New (t :: rest)
                  (directiveRest (preprocess2F env f) f rest st1 Tok2) Tok2)
                Emitted Tok2 st2 B H with
            | .error e => .error e
            | .ok V =>
              .ok (passedTokens New (t :: rest)
                (directiveRest (preprocess2F env f) f rest st1 Tok2) ++ V)

end

/-- Translation of `preprocess2` with step budget `fuel`. -/
def preprocess2 (env : Env) (fuel : Nat) (Tok : List Token) (st : State) :
    Except Err (List Token × State) :=
  preprocess2F env fuel Tok st

/-- What `preprocess2` with step budget `fuel` leaves at `Arg->Tok`. -/
def preprocess2View (env : Env) (fuel : Nat) : ArgView := argViewF env fuel 0 false

/-- Translation of `preprocess` with step budget `fuel`. -/
def preprocess (env : Env) (fuel : Nat) (Tok : List Token) (st : State) :
    Except Err (List Token × State) :=
  preprocessWith env (preprocess2F env fuel) Tok st

/-! ## Sample tokens for the concrete scenarios -/

/-- An identifier token with the given lexeme. -/
def idt (s : String) : Token := { Kind := .TK_IDENT, Loc := s }

/-- A punctuator token with the given lexeme. -/
def pun (s : String) : Token := { Kind := .TK_PUNCT, Loc := s }

/-- A preprocessing-number token with the given lexeme. -/
def ppn (s : String) : Token := { Kind := .TK_PP_NUM, Loc := s }

/-- The token with `AtBOL` set: the first token of a line. -/
def bol (t : Token) : Token := { t with AtBOL := true }

/-- The token with `HasSpace` set. -/
def spc (t : Token) : Token := { t with HasSpace := true }

/-- The token carrying the given hideset. -/
def hid (t : Token) (hs : Hideset) : Token := { t with Hideset := hs }

/-- The EOF token the lexer puts behind the last line. -/
def eof : Token := { Kind := .TK_EOF, Loc := "", AtBOL := true }

/-- The lexemes of a result, `none` for a failed run. -/
def locs (r : Except Err (List Token × State)) : Option (List String) :=
  match r with
  | .ok (toks, _) => some (toks.map fun t => t.Loc)
  | .error _ => none

/-- The tokens of `#define f(x) f(x)+1` followed by the line `f(f(1))`. -/
def selfRefInput : List Token :=
  [bol (pun "#"), idt "define", spc (idt "f"), pun "(", idt "x", pun ")",
   spc (idt "f"), pun "(", idt "x", pun ")", pun "+", ppn "1",
   bol (idt "f"), pun "(", idt "f", pun "(", ppn "1", pun ")", pun ")", eof]

/-- The macro table after `#define f(x) f(x)+1`. -/
def selfRefMacro : Macro :=
  { Name := "f", IsObjlike := false, Params := ["x"],
    Body := [spc (idt "f"), pun "(", idt "x", pun ")", pun "+", ppn "1", { eof with Loc := "" }] }

/-- The state in which only that macro is defined. -/
def selfRefState : State := { Macros := [("f", selfRefMacro)] }

/-- A toy lexer and evaluator for the concrete scenarios: `tokenize` returns the
buffer as one identifier followed by EOF, no file can be opened, and
`constExpr` reads the value 0 off a leading token `0` and 1 off anything else. -/
def sampleEnv : Env :=
  { tokenize := fun s => ({ Kind := .TK_IDENT, Loc := s }, [eof])
    tokenizeFile := fun _ => none
    tokenizeStringLiteral := fun t _ => t
    convertPPTokens := fun l => .ok l
    constExpr := fun l => .ok (if (l.head?.map fun t => t.Loc) = some "0" then 0 else 1, l.drop 1)
    fileExists := fun _ => false
    mtime := fun _ => none
    dirname := fun s => s
    IncludePaths := []
    BaseFile := "" }

/-- The token `x` after `T->Origin = Tok`. -/
def withOrigin (Tok : Token) (x : Token) : Token :=
  { x with Origin := Tok.toTokenData :: Tok.Origin }

/-- The stream after `(*Rest)->AtBOL = Tok->AtBOL; (*Rest)->HasSpace = Tok->HasSpace`. -/
def headFlags (Tok : Token) : List Token → List Token
  | [] => []
  | r :: rs => { r with AtBOL := Tok.AtBOL, HasSpace := Tok.HasSpace } :: rs

/-- The hideset `Hs` that `expandMacro` computes for a function-like macro. -/
def funcHideset (T RParen : Token) (M : Macro) : Hideset :=
  hidesetUnion (hidesetIntersection T.Hideset RParen.Hideset) (newHideset M.Name)

/-- A body token as the object-like branch of `expandMacro` emits it for the
macro token `T` of macro `M`. -/
def objTok (T : Token) (M : Macro) (x : Token) : Token :=
  { x with Hideset := hidesetUnion x.Hideset (hidesetUnion T.Hideset (newHideset M.Name)),
           Origin := T.toTokenData :: T.Origin }

/-- The macro of `#define X 42`. -/
def answerMacro : Macro := { Name := "X", IsObjlike := true, Body := [spc (ppn "42"), eof] }

/-- The state in which only `X` is defined. -/
def answerState : State := { Macros := [("X", answerMacro)] }

/-- The tokens of the line `f(f(1))`. -/
def selfRefCall : List Token :=
  [bol (idt "f"), pun "(", idt "f", pun "(", ppn "1", pun ")", pun ")", eof]

/-- The stream that `expandMacro` leaves for the inner invocation `f(1)`. -/
def selfRefInner : List Token :=
  match expandMacro sampleEnv (preprocess2 sampleEnv 5) (preprocess2View sampleEnv 5) (selfRefCall.drop 2) selfRefState with
  | .ok (some R, _) => R
  | _ => []

/-- The token as `preprocess2` emits it: `LineDelta` and `Filename` are set
from the token's file. -/
def stamp (st : State) (t : Token) : Token :=
  { t with LineDelta := (fileOf st t.toTokenData).LineDelta,
           Filename := (fileOf st t.toTokenData).DisplayName }

/-- The result of the run on `selfRefInput`. -/
def selfRefOutput : List Token × State :=
  match preprocess2 sampleEnv 30 selfRefInput {} with
  | .ok r => r
  | .error _ => ([], {})

/-- The tokens of the line `#include FOO`, followed by the EOF. -/
def includeIdentInput : List Token :=
  [bol (pun "#"), idt "include", spc (idt "FOO"), eof]

/-- The lists that an argument of the invocation may hold during `subst`: the
list collected by `readMacroArgs`, and what a use of the parameter in an
ordinary place has made of such a list. -/
inductive ArgList (view : ArgView) (Args : List MacroArg) : List Token → Prop where
  | collected (a : MacroArg) : a ∈ Args → ArgList view Args a.Tok
  | viewed (L : List Token) (s : State) (B H : Bool) (V : List Token) :
    ArgList view Args L → view L s B H = .ok V → ArgList view Args V

/-- The token is one that the lexer made for `##` (`paste`) or for `#`
(`stringize`). -/
def Lexed (env : Env) (y : Token) : Prop :=
  (∃ s a b s', paste env s a b = .ok (y, s')) ∨
  (∃ s a L tl s', stringize env s a L = .ok ((y, tl), s'))

/-- Where a token of a substituted body comes from: it is a token of the macro
body, a token of an argument, a token that `preprocess2` returned for an
argument, or a new token that the lexer made for `#` or `##`. -/
def SubstSource (env : Env) (pp2 : List Token → State → Except Err (List Token × State))
    (view : ArgView) (Body : List Token) (Args : List MacroArg) (y : Token) : Prop :=
  y ∈ Body ∨ (∃ L, ArgList view Args L ∧ y ∈ L) ∨
  (∃ L s r s', ArgList view Args L ∧ pp2 L s = .ok (r, s') ∧ y ∈ r) ∨
  Lexed env y

/-- The token `x` is the token `y` but for `AtBOL` and `HasSpace`. -/
def SameButFlags (x y : Token) : Prop :=
  x = { y with AtBOL := x.AtBOL, HasSpace := x.HasSpace }

/-- The token `x` is the token `y` but for the hideset, `Origin`, `AtBOL` and
`HasSpace`. -/
def CopyOf (x y : Token) : Prop :=
  { x with Hideset := y.Hideset, Origin := y.Origin, AtBOL := y.AtBOL,
           HasSpace := y.HasSpace } = y

/-- The macro of `#define cat(a,b) a##b`. -/
def catMacro : Macro :=
  { Name := "cat", IsObjlike := false, Params := ["a", "b"],
    Body := [spc (idt "a"), pun "##", idt "b", eof] }

/-- The state in which only `cat` is defined. -/
def catState : State := { Macros := [("cat", catMacro)] }

/-- The stream `cat ( u , v )` in which all tokens but the closing parenthesis
come from the expansion of a macro `h` (as after `#define h cat(u,v` and the
line `h )`). -/
def pasteStream : List Token :=
  [hid (idt "cat") ["h"], hid (pun "(") ["h"], hid (idt "u") ["h"], hid (pun ",") ["h"],
   hid (idt "v") ["h"], pun ")", eof]

/-- The tokens of `#define cat(a,b) a##b`, `#define h cat(u,v` and `h )`. -/
def pasteInput : List Token :=
  [bol (pun "#"), idt "define", spc (idt "cat"), pun "(", idt "a", pun ",", idt "b", pun ")",
   spc (idt "a"), pun "##", idt "b",
   bol (pun "#"), idt "define", spc (idt "h"), spc (idt "cat"), pun "(", idt "u", pun ",", idt "v",
   bol (idt "h"), spc (pun ")"), eof]

/-- The source from which `expandMacro` makes a replacement token: a body token
for an object-like macro, and for a function-like macro whatever `subst`
produces its output from. -/
def ExpansionSource (env : Env) (pp2 : List Token → State → Except Err (List Token × State))
    (view : ArgView) (M : Macro) (Args : List MacroArg) (y : Token) : Prop :=
  if M.IsObjlike then y ∈ M.Body else SubstSource env pp2 view M.Body Args y

/-! ## Conditional chains -/

/-- One clause of a conditional chain: the `#`, the directive name, the rest of
the directive line and the body that follows the line. -/
structure Clause where
  h : Token
  d : Token
  c : List Token
  B : List Token

/-- The tokens of a clause. -/
def Clause.toks (cl : Clause) : List Token := cl.h :: cl.d :: (cl.c ++ cl.B)

/-- The tokens of a list of clauses. -/
def clausesToks : List Clause → List Token
  | [] => []
  | cl :: cls => cl.toks ++ clausesToks cls

/-- The tokens of an optional `#else` clause. -/
def elseToks : Option Clause → List Token
  | none => []
  | some cl => cl.toks

/-- A well-formed clause with directive name `name` and a directive-free,
macro-free body: the `#` is a punctuator at the beginning of a line, the tokens
of the directive line are on that line, no body token is EOF, a `#` at the
beginning of a line or an identifier that is a key of the macro table, and the
body starts on a new line. -/
def Clause.WellFormed (Ms : List (String × Macro)) (name : String) (cl : Clause) : Prop :=
  cl.h.AtBOL = true ∧ cl.h.Loc = "#" ∧ cl.h.Kind = .TK_PUNCT ∧
  cl.d.Loc = name ∧ cl.d.Kind ≠ .TK_EOF ∧
  (∀ t ∈ cl.c, t.AtBOL = false ∧ t.Kind ≠ .TK_EOF) ∧
  (∀ t ∈ cl.B, t.Kind ≠ .TK_EOF ∧ isHash t = false ∧
    (t.Kind = .TK_IDENT → hashmap_get Ms t.Loc = none)) ∧
  (∀ t ∈ cl.B.head?, t.AtBOL = true)

/-- The condition of an `#if` or `#elif` line with tokens `c` evaluates to `v`
whenever the macro table is `Ms` (for every sufficient step budget), and the
evaluation leaves macro table and conditional stack as they were. -/
def CondValue (env : Env) (Ms : List (String × Macro)) (d : Token) (c : List Token) (v : Int) :
    Prop :=
  ∃ f0, ∀ (f : Nat) (s : State) (X : List Token), f0 ≤ f → s.Macros = Ms →
    (∀ t ∈ X.head?, t.AtBOL = true) → X ≠ [] →
    ∃ s', evalConstExpr env (preprocess2F env f) (d :: (c ++ X)) s = .ok (v, X, s') ∧
      s'.Macros = s.Macros ∧ s'.CondIncls = s.CondIncls

/-- The condition of clause `cl` is true (`b = true`) or false: for `#ifdef X`
and `#ifndef X` by the macro table, for `#if` and `#elif` by evaluation. -/
def Clause.Holds (env : Env) (Ms : List (String × Macro)) (cl : Clause) (b : Bool) : Prop :=
  if cl.d.Loc = "ifdef" then
    ∃ n junk, cl.c = n :: junk ∧ b = (findMacro { Macros := Ms } n).isSome
  else if cl.d.Loc = "ifndef" then
    ∃ n junk, cl.c = n :: junk ∧ b = !(findMacro { Macros := Ms } n).isSome
  else ∃ v, CondValue env Ms cl.d cl.c v ∧ b = decide (v ≠ 0)

/-- The body that a chain selects: the body of the first clause whose condition
holds (the conditions of the clauses behind it are not looked at), else the
body of the `#else` clause, else nothing. -/
inductive Selects (env : Env) (Ms : List (String × Macro)) :
    List Clause → Option Clause → List Token → Prop where
  | take (cl : Clause) (cls : List Clause) (els : Option Clause) :
      cl.Holds env Ms true → Selects env Ms (cl :: cls) els cl.B
  | skip (cl : Clause) (cls : List Clause) (els : Option Clause) (sel : List Token) :
      cl.Holds env Ms false → Selects env Ms cls els sel → Selects env Ms (cl :: cls) els sel
  | orElse (ec : Clause) : Selects env Ms [] (some ec) ec.B
  | nothing : Selects env Ms [] none []

/-- The tokens of a chain behind its opening clause: the `#elif` clauses, the
optional `#else` clause, the `#endif` line and what follows it. -/
def chainRest (cls : List Clause) (els : Option Clause) (fin : Clause) (tail : List Token) :
    List Token :=
  clausesToks cls ++ (elseToks els ++ (fin.toks ++ tail))

/-- The clause `#if 0` with the body `a`. -/
def chainOpen : Clause :=
  { h := bol (pun "#"), d := idt "if", c := [spc (ppn "0")], B := [bol (idt "a")] }

/-- The clause `#elif 1` with the body `b`. -/
def chainElif : Clause :=
  { h := bol (pun "#"), d := idt "elif", c := [spc (ppn "1")], B := [bol (idt "b")] }

/-- The clause `#else` with the body `c`. -/
def chainElse : Clause :=
  { h := bol (pun "#"), d := idt "else", c := [], B := [bol (idt "c")] }

/-- The line `#endif`. -/
def chainEnd : Clause :=
  { h := bol (pun "#"), d := idt "endif", c := [], B := [] }

/-- What a token adds to the parenthesis depth: `(` opens, `)` closes. -/
def parenStep (t : Token) : Int :=
  if equal t "(" then 1 else if equal t ")" then -1 else 0

/-- The parenthesis depth that a token sequence adds up to. -/
def parenDepth : List Token → Int
  | [] => 0
  | t :: a => parenStep t + parenDepth a

/-- The token ends a macro argument when it stands at depth 0: a `)`, or a `,`
unless the rest of the invocation is read as one argument. -/
def Delim (ReadRest : Bool) (t : Token) : Bool :=
  equal t ")" || (!ReadRest && equal t ",")

/-- The tokens `a`, entered at parenthesis depth `L`, hold no EOF and no token
that ends the argument: wherever the depth is 0, the token is not a delimiter. -/
def ArgBody (ReadRest : Bool) (L : Nat) (a : List Token) : Prop :=
  (∀ t ∈ a, t.Kind ≠ .TK_EOF) ∧
  ∀ p t s, a = p ++ t :: s → (L : Int) + parenDepth p = 0 → Delim ReadRest t = false

/-- A decision procedure for `ArgBody`, by one scan. -/
def argBodyB (ReadRest : Bool) : Int → List Token → Bool
  | _, [] => true
  | L, t :: a =>
    decide (t.Kind ≠ .TK_EOF) && !(L == 0 && Delim ReadRest t) &&
      argBodyB ReadRest (L + parenStep t) a

/-- Balanced parentheses: the depth ends at 0 and is negative after no prefix. -/
def BalancedParens (a : List Token) : Prop :=
  parenDepth a = 0 ∧ ∀ p s, a = p ++ s → 0 ≤ parenDepth p

/-- One argument of an invocation with the token that ends it: the tokens hold
no EOF and no `,` or `)` at depth 0, their parentheses are balanced, and the
ending token is a `,` or a `)`. -/
def Seg (s : List Token × Token) : Prop :=
  ArgBody false 0 s.1 ∧ parenDepth s.1 = 0 ∧ Delim false s.2 = true

/-- The token stream of the arguments `segs`, each followed by its ending
token, in front of `tail`. -/
def argStream : List (List Token × Token) → List Token → List Token
  | [], tail => tail
  | s :: segs, tail => s.1 ++ s.2 :: argStream segs tail

/-- Arguments that follow one another: every argument but the last is ended by
a `,`. -/
def Chained : List (List Token × Token) → Prop
  | [] => True
  | [s] => Seg s
  | s :: s1 :: segs => Seg s ∧ equal s.2 "," = true ∧ Chained (s1 :: segs)

/-- The stream from the token that ends the last of the arguments `segs`. -/
def lastRest : List (List Token × Token) → List Token → List Token
  | [], tail => tail
  | [s], tail => s.2 :: tail
  | _ :: s1 :: segs, tail => lastRest (s1 :: segs) tail

/-- The arguments that `readMacroArgs` builds: the tokens of each argument with
a new EOF, under the name of the parameter at the same position. -/
def zipArgs : List String → List (List Token × Token) → List MacroArg
  | p :: PP, s :: segs => { Name := p, Tok := s.1 ++ [newEOF s.2] } :: zipArgs PP segs
  | _, _ => []

/-- The tokens of `#define f(args...) __VA_OPT__(x)` and `f(1)`, followed by
the EOF. -/
def vaOptNamedInput : List Token :=
  [bol (pun "#"), idt "define", spc (idt "f"), pun "(", idt "args", pun "...", pun ")",
   spc (idt "__VA_OPT__"), pun "(", idt "x", pun ")",
   bol (idt "f"), pun "(", ppn "1", pun ")", eof]

/-- The tokens of `#define f(...) __VA_OPT__(x)` and `f(1)`, followed by the EOF. -/
def vaOptDotsInput : List Token :=
  [bol (pun "#"), idt "define", spc (idt "f"), pun "(", pun "...", pun ")",
   spc (idt "__VA_OPT__"), pun "(", idt "x", pun ")",
   bol (idt "f"), pun "(", ppn "1", pun ")", eof]

/-- The tokens of `#define f(x) x##` and `f()`, followed by the EOF. -/
def pasteEndEmptyInput : List Token :=
  [bol (pun "#"), idt "define", spc (idt "f"), pun "(", idt "x", pun ")", spc (idt "x"),
   pun "##",
   bol (idt "f"), pun "(", pun ")", eof]

/-- The tokens of `#define f(x) x##` and `f(1)`, followed by the EOF. -/
def pasteEndInput : List Token :=
  [bol (pun "#"), idt "define", spc (idt "f"), pun "(", idt "x", pun ")", spc (idt "x"),
   pun "##",
   bol (idt "f"), pun "(", ppn "1", pun ")", eof]

/-- The branch of `subst` for a parameter in an ordinary position, up to the
copy loop: `preprocess2(Arg->Tok)`, the stores of `AtBOL` and `HasSpace` of the
parameter token `P` into the first token, and the tokens before the EOF. -/
def emitExpanded (pp2 : List Token → State → Except Err (List Token × State))
    (P : Token) (Arg : MacroArg) (st : State) : Except Err (List Token × State) :=
  match pp2 Arg.Tok st with
  | .error e => .error e
  | .ok ([], _) => .error .crash
  | .ok (T :: Ts, st1) =>
    match copyUntilEOF ({ T with AtBOL := P.AtBOL, HasSpace := P.HasSpace } :: Ts) with
    | .error e => .error e
    | .ok more => .ok (more, st1)

/-- The arguments `a = 1` and `b =` (empty). -/
def pasteArgs : List MacroArg :=
  [{ Name := "a", Tok := [ppn "1", eof] }, { Name := "b", Tok := [eof] }]

/-- The variadic argument `args = X`. -/
def vaArgs : List MacroArg := [{ Name := "args", IsVaArg := true, Tok := [idt "X", eof] }]

/-- The empty variadic argument `args`. -/
def vaArgsEmpty : List MacroArg := [{ Name := "args", IsVaArg := true, Tok := [eof] }]

/-- The tokens of `#define A 1`, `#define f(args...) , ## args ## x` and `f(A)`,
followed by the EOF. -/
def commaPasteInput : List Token :=
  [bol (pun "#"), idt "define", spc (idt "A"), spc (ppn "1"),
   bol (pun "#"), idt "define", spc (idt "f"), pun "(", idt "args", pun "...", pun ")",
   spc (pun ","), spc (pun "##"), spc (idt "args"), spc (pun "##"), spc (idt "x"),
   bol (idt "f"), pun "(", idt "A", pun ")", eof]

/-- The first loop of `quoteString`: `BufSize` after the characters, starting
from the value `n`. -/
def quoteBufSizeLoop : List Char → Nat → Nat
  | [], n => n
  | c :: cs, n => quoteBufSizeLoop cs ((if c == '\\' || c == '"' then n + 1 else n) + 1)

/-- The value `BufSize` that `quoteString` computes before it allocates `Buf`. -/
def quoteBufSize (Str : String) : Nat := quoteBufSizeLoop Str.data 3

/-- Reading an escaped text back: a backslash stands for the character behind it. -/
def unescape : List Char → List Char
  | [] => []
  | [c] => [c]
  | c :: d :: cs => if c == '\\' then d :: unescape cs else c :: unescape (d :: cs)

/-- The token is one of the directive names that open a conditional. -/
def opensName (d : Token) : Bool := equal d "if" || equal d "ifdef" || equal d "ifndef"

/-- The token is one of the directive names at which `skipCondIncl` stops. -/
def stopsName (d : Token) : Bool := equal d "elif" || equal d "else" || equal d "endif"

/-- The tokens between the directive that opens a conditional and the `#endif`
that closes it: tokens that are no `#` at the beginning of a line, directives
other than an opening one and `#endif` (so `#elif` and `#else` of this
conditional too), and complete nested conditionals. -/
inductive Inside : List Token → Prop where
  | nil : Inside []
  | text (t : Token) (rest : List Token) :
      t.Kind ≠ .TK_EOF → isHash t = false → Inside rest → Inside (t :: rest)
  | hash (h n : Token) (rest : List Token) :
      h.Kind ≠ .TK_EOF → isHash h = true → opensName n = false → equal n "endif" = false →
      Inside (n :: rest) → Inside (h :: n :: rest)
  | block (h d : Token) (inner : List Token) (e1 d1 : Token) (rest : List Token) :
      h.Kind ≠ .TK_EOF → isHash h = true → opensName d = true → Inside inner →
      e1.Kind ≠ .TK_EOF → isHash e1 = true → equal d1 "endif" = true → Inside rest →
      Inside (h :: d :: (inner ++ e1 :: d1 :: rest))

/-- Tokens at the nesting level of the start position up to, not including,
the next `#elif`, `#else` or `#endif` of that level: tokens that are no `#` at
the beginning of a line, directives other than the conditional ones, and
complete nested conditionals. -/
inductive SameLevel : List Token → Prop where
  | nil : SameLevel []
  | text (t : Token) (rest : List Token) :
      t.Kind ≠ .TK_EOF → isHash t = false → SameLevel rest → SameLevel (t :: rest)
  | hash (h n : Token) (rest : List Token) :
      h.Kind ≠ .TK_EOF → isHash h = true → opensName n = false → stopsName n = false →
      SameLevel (n :: rest) → SameLevel (h :: n :: rest)
  | block (h d : Token) (inner : List Token) (e1 d1 : Token) (rest : List Token) :
      h.Kind ≠ .TK_EOF → isHash h = true → opensName d = true → Inside inner →
      e1.Kind ≠ .TK_EOF → isHash e1 = true → equal d1 "endif" = true → SameLevel rest →
      SameLevel (h :: d :: (inner ++ e1 :: d1 :: rest))

/-- A piece of the line of an `#if` or `#elif`: a token other than `defined`,
the form `defined N`, or the form `defined ( N )`. -/
inductive CondItem where
  | tok (t : Token)
  | name (d n : Token)
  | paren (d lp n rp : Token)

/-- The tokens of a piece. -/
def CondItem.toks : CondItem → List Token
  | .tok t => [t]
  | .name d n => [d, n]
  | .paren d lp n rp => [d, lp, n, rp]

/-- The piece is well-formed and stands on the directive's line: no token is
at the beginning of a line; an ordinary token is not the EOF and not `defined`;
in both `defined` forms `N` is an identifier. -/
def CondItem.OK : CondItem → Prop
  | .tok t => t.Kind ≠ .TK_EOF ∧ t.AtBOL = false ∧ equal t "defined" = false
  | .name d n =>
    d.Kind ≠ .TK_EOF ∧ d.AtBOL = false ∧ equal d "defined" = true ∧
      n.AtBOL = false ∧ n.Kind = .TK_IDENT ∧ equal n "(" = false
  | .paren d lp n rp =>
    d.Kind ≠ .TK_EOF ∧ d.AtBOL = false ∧ equal d "defined" = true ∧
      lp.AtBOL = false ∧ equal lp "(" = true ∧ n.AtBOL = false ∧ n.Kind = .TK_IDENT ∧
      rp.AtBOL = false ∧ equal rp ")" = true

/-- The tokens of the pieces, in order. -/
def itemsToks : List CondItem → List Token
  | [] => []
  | i :: items => i.toks ++ itemsToks items

/-- The value 1 if the name is a key of the macro table `Ms`, else 0. -/
def definedValue (Ms : List (String × Macro)) (n : Token) : Int :=
  if (hashmap_get Ms n.Loc).isSome then 1 else 0

/-- The line with every `defined` form replaced by the token that the lexer
returns for the numeral of `definedValue`, every other token kept; the state
records the `File` objects of the new tokens. -/
def replaceDefined (env : Env) (Ms : List (String × Macro)) :
    List CondItem → State → List Token × State
  | [], st => ([], st)
  | .tok t :: items, st =>
    (t :: (replaceDefined env Ms items st).1, (replaceDefined env Ms items st).2)
  | .name d n :: items, st =>
    ((newNumToken env st (definedValue Ms n) d.toTokenData).1.1 ::
        (replaceDefined env Ms items (newNumToken env st (definedValue Ms n) d.toTokenData).2).1,
      (replaceDefined env Ms items (newNumToken env st (definedValue Ms n) d.toTokenData).2).2)
  | .paren d _ n _ :: items, st =>
    ((newNumToken env st (definedValue Ms n) d.toTokenData).1.1 ::
        (replaceDefined env Ms items (newNumToken env st (definedValue Ms n) d.toTokenData).2).1,
      (replaceDefined env Ms items (newNumToken env st (definedValue Ms n) d.toTokenData).2).2)

/-- The pieces of the line `1 + defined X + defined(Y)`. -/
def definedLine : List CondItem :=
  [.tok (spc (ppn "1")), .tok (spc (pun "+")), .name (spc (idt "defined")) (spc (idt "X")),
   .tok (spc (pun "+")), .paren (spc (idt "defined")) (pun "(") (idt "Y") (pun ")")]

/-- A string-literal token with the given lexeme. -/
def strTok (s : String) : Token := { Kind := .TK_STR, Loc := s }

/-- The tokens of a header `a.h`: `#ifndef G`, `#define G`, `#endif`, `x`,
`#ifdef G`, `#endif`, followed by the EOF. -/
def guardFile : List Token :=
  [bol (pun "#"), idt "ifndef", spc (idt "G"),
   bol (pun "#"), idt "define", spc (idt "G"),
   bol (pun "#"), idt "endif",
   bol (idt "x"),
   bol (pun "#"), idt "ifdef", spc (idt "G"),
   bol (pun "#"), idt "endif",
   eof]

/-- The toy lexer, with the file `./a.h` holding `guardFile` and every file in
the directory `.`. -/
def guardEnv : Env :=
  { sampleEnv with
    tokenizeFile := fun p => if p == "./a.h" then some guardFile else none
    fileExists := fun p => p == "./a.h"
    dirname := fun _ => "." }

/-- The state in which the tokens of the main file `main.c` are read. -/
def mainState : State := { files := [{ Name := "main.c", FileNo := 1, DisplayName := "main.c" }] }

/-- The tokens of two lines `#include "a.h"`, followed by the EOF. -/
def includeTwice : List Token :=
  [bol (pun "#"), idt "include", spc (strTok "\"a.h\""),
   bol (pun "#"), idt "include", spc (strTok "\"a.h\""), eof]

/-- The state in which only `G` is defined, with an empty body. -/
def guardDefined : State := { Macros := [("G", { Name := "G", IsObjlike := true, Body := [eof] })] }

/-- The toy lexer, with the include paths `d0`, `d1` and the files `d0/a.h`,
`d1/b.h`. -/
def pathEnv : Env :=
  { sampleEnv with
    IncludePaths := ["d0", "d1"]
    fileExists := fun p => p == "d0/a.h" || p == "d1/b.h" }

/-- The state after the lookups of `a.h` and then `b.h`. -/
def afterLookups : State :=
  (searchIncludePaths pathEnv (searchIncludePaths pathEnv {} "a.h").2 "b.h").2

/-- The tokens of `#ifndef X`, `#line 10`, `#endif`, followed by the EOF. -/
def lineInCondInput : List Token :=
  [bol (pun "#"), idt "ifndef", spc (idt "X"),
   bol (pun "#"), idt "line", spc (ppn "10"),
   bol (pun "#"), idt "endif", eof]

/-- The token of the literal `u8"a"` in the buffer `u8"a" u"b"`. -/
def u8Lit : Token :=
  { Kind := .TK_STR, Loc := "u8\"a\"", After := " u\"b\"\n", AtBOL := true,
    Ty := some (arrayOf TyChar 2), Str := [97, 0] }

/-- The token of the literal `u"b"` in the same buffer; its elements are
unsigned 16-bit. -/
def u16Lit : Token :=
  { Kind := .TK_STR, Loc := "u\"b\"", After := "\n", HasSpace := true,
    Ty := some (arrayOf { Kind := .TY_SHORT, Size := 2, Align := 2, IsUnsigned := true } 2),
    Str := [98, 0, 0, 0] }

/-- The first loop of `joinTokens`: the value of `Len` after the loop, starting
from the value `n`.  `End` and `first` are as in `joinTokensLoop`. -/
def joinTokensLenLoop : List Token → Option Nat → Bool → Int → Except Err Int
  | [], none, _, n => .ok n
  | [], some _, _, _ => .error .crash
  | t :: rest, End, first, n =>
    if End = some 0 then .ok n
    else if t.Kind = .TK_EOF then .ok n
    else
      joinTokensLenLoop rest (End.map fun k => k - 1) false
        (wrapInt32 ((if !first && t.HasSpace then wrapInt32 (n + 1) else n) + t.Loc.length))

/-- The size `Len` that `joinTokens` passes to `calloc`. -/
def joinTokensLen (Tok : List Token) (End : Option Nat) : Except Err Int :=
  joinTokensLenLoop Tok End true 1

/-- The tokens from the first one up to, and not including, `End` or the first
EOF token. -/
def tokensUpTo (Tok : List Token) (End : Option Nat) : List Token :=
  (match End with
    | none => Tok
    | some k => Tok.take k).takeWhile fun t => decide (t.Kind ≠ .TK_EOF)

/-- The lexeme of a token, with one space in front when `HasSpace` is set. -/
def lexemeWithSpace (t : Token) : String := (if t.HasSpace then " " else "") ++ t.Loc

/-- The lexemes of the tokens, each but the first with its space. -/
def spacedLexemes : List Token → List String
  | [] => []
  | t :: ts => t.Loc :: ts.map lexemeWithSpace

/-- The concatenation of a list of strings. -/
def concatAll : List String → String
  | [] => ""
  | s :: r => s ++ concatAll r

/-- The macro table after `#define E` (an empty replacement list). -/
def emptyObjState : State :=
  { Macros := [("E", { Name := "E", IsObjlike := true, Body := [eof] })] }

/-- The macro table after `#define F()` (an empty replacement list). -/
def emptyFunState : State :=
  { Macros := [("F", { Name := "F", IsObjlike := false, Body := [eof] })] }

/-- The macro table after `#define E y`. -/
def oneObjState : State :=
  { Macros := [("E", { Name := "E", IsObjlike := true, Body := [spc (idt "y"), eof] })] }

/-- The tokens of the four lines `#define E`, `a E`, `#define X 1`, `X`,
followed by the EOF. -/
def emptyMacroInput : List Token :=
  [bol (pun "#"), idt "define", spc (idt "E"),
   bol (idt "a"), spc (idt "E"),
   bol (pun "#"), idt "define", spc (idt "X"), spc (ppn "1"),
   bol (idt "X"),
   eof]

/-- The fields `Loc`, `AtBOL`, `HasSpace` of the tokens of a stream. -/
def flagsOf (l : List Token) : List (String × Bool × Bool) :=
  l.map fun t => (t.Loc, t.AtBOL, t.HasSpace)

/-- The loops of `joinTokens` come to an end: `End`, when it is not `NULL`, is
a token of the list, or the list has an EOF token. -/
def EndOK (Tok : List Token) (End : Option Nat) : Prop :=
  ∀ k, End = some k → k < Tok.length ∨ ∃ t ∈ Tok, t.Kind = .TK_EOF

/-- The macro of `#define F(a, b) a / a ## b`. -/
def pasteAfterUseMacro : Macro :=
  { Name := "F", IsObjlike := false, Params := ["a", "b"],
    Body := [spc (idt "a"), spc (pun "/"), spc (idt "a"), spc (pun "##"), spc (idt "b"), eof] }

/-- The macro of `#define G(a, b) a ## b`. -/
def pasteOnlyMacro : Macro :=
  { Name := "G", IsObjlike := false, Params := ["a", "b"],
    Body := [spc (idt "a"), spc (pun "##"), spc (idt "b"), eof] }

/-- The built-in macro `__COUNTER__`. -/
def counterBuiltin : Macro :=
  { Name := "__COUNTER__", IsObjlike := true, Handler := some .counterMacro }

/-- The macro of `#define S(x) x #x`. -/
def strAfterUseMacro : Macro :=
  { Name := "S", IsObjlike := false, Params := ["x"],
    Body := [spc (idt "x"), spc (pun "#"), idt "x", eof] }

/-- The macro of `#define R(x) #x x`. -/
def strBeforeUseMacro : Macro :=
  { Name := "R", IsObjlike := false, Params := ["x"],
    Body := [spc (pun "#"), idt "x", spc (idt "x"), eof] }

/-- The state after `#define X 42`, `#define S(x) x #x` and `#define R(x) #x x`. -/
def strUseState : State :=
  { Macros := [("X", answerMacro), ("S", strAfterUseMacro), ("R", strBeforeUseMacro)] }

/-- The state after `#define X 42`, `#define F(a, b) a / a ## b` and
`#define G(a, b) a ## b`, with the built-in `__COUNTER__`. -/
def pasteAfterUseState : State :=
  { Macros := [("X", answerMacro), ("F", pasteAfterUseMacro), ("G", pasteOnlyMacro),
      ("__COUNTER__", counterBuiltin)] }

/-- The tokens of the invocation `F(p X,)`, followed by the EOF. -/
def pasteAfterUseCall : List Token :=
  [bol (idt "F"), pun "(", idt "p", spc (idt "X"), pun ",", pun ")", eof]

/-- The tokens of the invocation `G(p X,)`, followed by the EOF. -/
def pasteOnlyCall : List Token :=
  [bol (idt "G"), pun "(", idt "p", spc (idt "X"), pun ",", pun ")", eof]

/-- The tokens of the invocation `F(p __COUNTER__,)`, followed by the EOF. -/
def pasteCounterCall : List Token :=
  [bol (idt "F"), pun "(", idt "p", spc (idt "__COUNTER__"), pun ",", pun ")", eof]

/-- The lexemes of the stream that `expandMacro` returns. -/
def expandedLocs (r : Except Err (Option (List Token) × State)) : Option (List String) :=
  match r with
  | .ok (some R, _) => some (R.map fun t => t.Loc)
  | _ => none

/-- The stream `f ( 1 )` in which `f` carries the hideset `{a, b}` and the
closing parenthesis `{b, c}`. -/
def hidesetCall : List Token :=
  [hid (idt "f") ["a", "b"], pun "(", ppn "1", hid (pun ")") ["b", "c"], eof]

/-- The stream that `expandMacro` leaves for `hidesetCall` with
`#define f(x) f(x)+1`. -/
def hidesetCallResult : List Token :=
  match expandMacro sampleEnv (preprocess2 sampleEnv 5) (preprocess2View sampleEnv 5) hidesetCall
    selfRefState with
  | .ok (some R, _) => R
  | _ => []

/-- The stream and the state that `expandMacro` leaves for `pasteStream` with
`#define cat(a,b) a##b`. -/
def pasteResult : List Token × State :=
  match expandMacro sampleEnv (preprocess2 sampleEnv 5) (preprocess2View sampleEnv 5) pasteStream
    catState with
  | .ok (some R, s) => (R, s)
  | _ => ([], {})

/-! ## Runs of adjacent string literals -/

/-- The number of bytes of the contents of the literals together. -/
def strBytes (ts : List Token) : Nat := (ts.map fun T => T.Str.length).sum

/-- A piece of a token sequence: one token, or a run of two or more adjacent
string literals that are joined with the element type `b`. -/
inductive Piece where
  | one (t : Token)
  | run (b : BaseType) (T1 : Token) (rest : List Token)

/-- The tokens of a piece. -/
def Piece.toks : Piece → List Token
  | .one t => [t]
  | .run _ T1 rest => T1 :: rest

/-- The `#` that starts a directive: a punctuator `#` at the beginning of a line. -/
def HashTok (h : Token) : Prop :=
  h.AtBOL = true ∧ h.Loc = "#" ∧ h.Kind = .TK_PUNCT

theorem hidesetContains_iff_mem (Hs : Hideset) (n : String) :
    hidesetContains Hs n = true ↔ n ∈ Hs := by
  induction Hs with
  | nil => simp [hidesetContains]
  | cons a Hs ih =>
    unfold hidesetContains
    by_cases h : a = n
    · simp [h]
    · have h' : ¬ n = a := fun e => h e.symm
      simp [h, h', ih]

theorem hidesetUnion_eq_append (A B : Hideset) : hidesetUnion A B = A ++ B := by
  induction A with
  | nil => rfl
  | cons a A ih => simp [hidesetUnion, ih]

theorem hidesetContains_union (A B : Hideset) (n : String) :
    hidesetContains (hidesetUnion A B) n = (hidesetContains A n || hidesetContains B n) := by
  rw [Bool.eq_iff_iff]
  simp [hidesetContains_iff_mem, hidesetUnion_eq_append]

theorem hidesetIntersection_mem (A B : Hideset) (n : String) :
    n ∈ hidesetIntersection A B ↔ n ∈ A ∧ n ∈ B := by
  induction A with
  | nil => simp [hidesetIntersection]
  | cons a A ih =>
    unfold hidesetIntersection
    by_cases h : hidesetContains B a = true
    · have hb : a ∈ B := (hidesetContains_iff_mem B a).1 h
      rw [if_pos h]
      simp only [List.mem_cons, ih]
      constructor
      · rintro (rfl | ⟨h1, h2⟩)
        · exact ⟨Or.inl rfl, hb⟩
        · exact ⟨Or.inr h1, h2⟩
      · rintro ⟨rfl | h1, h2⟩
        · exact Or.inl rfl
        · exact Or.inr ⟨h1, h2⟩
    · have hb : a ∉ B := fun hm => h ((hidesetContains_iff_mem B a).2 hm)
      rw [if_neg h]
      simp only [List.mem_cons, ih]
      constructor
      · rintro ⟨h1, h2⟩
        exact ⟨Or.inr h1, h2⟩
      · rintro ⟨rfl | h1, h2⟩
        · exact absurd h2 hb
        · exact ⟨h1, h2⟩

theorem expandMacro_none_of (env : Env)
    (pp2 : List Token → State → Except Err (List Token × State)) (view : ArgView)
    (T : Token) (rest : List Token) (st : State)
    (h : T.Kind ≠ .TK_IDENT ∨ hidesetContains T.Hideset T.Loc = true ∨
      hashmap_get st.Macros T.Loc = none) :
    expandMacro env pp2 view (T :: rest) st = .ok (none, st) := by
  unfold expandMacro findMacro
  rcases h with h | h | h
  · by_cases hc : hidesetContains T.Hideset T.Loc = true <;> simp [hc, h]
  · simp [h]
  · by_cases hc : hidesetContains T.Hideset T.Loc = true
    · simp [hc]
    · by_cases hk : T.Kind = .TK_IDENT <;> simp [hc, hk, h]

/-- C2: `expandMacro` returns `false` and leaves stream and state as they were
whenever the token is not an identifier, or its name is in its own hideset, or
its name is not a key of the macro table; the hideset test alone decides, also
when a macro of that name is defined. -/
theorem expandMacro_not_eligible (env : Env)
    (pp2 : List Token → State → Except Err (List Token × State)) (view : ArgView)
    (T : Token) (rest : List Token) (st : State)
    (h : T.Kind ≠ .TK_IDENT ∨ hidesetContains T.Hideset T.Loc = true ∨
      hashmap_get st.Macros T.Loc = none) :
    expandMacro env pp2 view (T :: rest) st = .ok (none, st) :=
  expandMacro_none_of env pp2 view T rest st h

/-! ## Splicing a macro body -/

theorem append_eq_ok (B N R : List Token) :
    append B N = .ok R ↔ ∃ pre, copyUntilEOF B = .ok pre ∧ R = pre ++ N := by
  induction B generalizing R with
  | nil => simp [append, copyUntilEOF]
  | cons b B ih =>
    unfold append copyUntilEOF
    by_cases hb : b.Kind = .TK_EOF
    · simp [hb, eq_comm]
    · simp only [hb, if_false]
      cases hA : append B N with
      | error e =>
        cases hC : copyUntilEOF B with
        | error e2 => simp
        | ok pre =>
          have := (ih (pre ++ N)).2 ⟨pre, hC, rfl⟩
          rw [hA] at this
          cases this
      | ok r =>
        obtain ⟨pre, hpre, rfl⟩ := (ih r).1 hA
        simp [hpre, copyToken, eq_comm]

theorem copyUntilEOF_addHideset (B : List Token) (H : Hideset) :
    copyUntilEOF (addHideset B H) =
      match copyUntilEOF B with
      | .error e => .error e
      | .ok pre => .ok (addHideset pre H) := by
  induction B with
  | nil => simp [addHideset, copyUntilEOF]
  | cons b B ih =>
    unfold addHideset copyUntilEOF
    by_cases hb : b.Kind = .TK_EOF
    · simp [hb, copyToken, addHideset]
    · simp only [hb, copyToken, if_false]
      rw [ih]
      cases copyUntilEOF B <;> simp [addHideset, copyToken]

theorem copyUntilEOF_setOrigin (B B1 : List Token) (T : Token) (h : setOrigin B T = .ok B1) :
    copyUntilEOF B1 =
      match copyUntilEOF B with
      | .error e => .error e
      | .ok pre => .ok (pre.map (withOrigin T)) := by
  induction B generalizing B1 with
  | nil => simp [setOrigin] at h
  | cons b B ih =>
    unfold setOrigin at h
    by_cases hb : b.Kind = .TK_EOF
    · simp [hb] at h
      subst h
      simp [copyUntilEOF, hb]
    · simp only [hb, if_false] at h
      cases hS : setOrigin B T with
      | error e => simp [hS] at h
      | ok r =>
        simp [hS] at h
        subst h
        have := ih r hS
        simp only [copyUntilEOF, hb, if_false, this]
        cases copyUntilEOF B <;> simp [withOrigin, copyToken]

theorem setOrigin_ok_of_copy (B pre : List Token) (T : Token) (h : copyUntilEOF B = .ok pre) :
    ∃ B1, setOrigin B T = .ok B1 := by
  induction B generalizing pre with
  | nil => simp [copyUntilEOF] at h
  | cons b B ih =>
    unfold copyUntilEOF at h
    unfold setOrigin
    by_cases hb : b.Kind = .TK_EOF
    · simp [hb]
    · simp only [hb, if_false] at h ⊢
      cases hC : copyUntilEOF B with
      | error e => simp [hC] at h
      | ok p =>
        obtain ⟨B1, hB1⟩ := ih p hC
        simp [hB1]

theorem copy_ok_of_setOrigin (B B1 : List Token) (T : Token) (h : setOrigin B T = .ok B1) :
    ∃ pre, copyUntilEOF B = .ok pre := by
  induction B generalizing B1 with
  | nil => simp [setOrigin] at h
  | cons b B ih =>
    unfold setOrigin at h
    unfold copyUntilEOF
    by_cases hb : b.Kind = .TK_EOF
    · simp [hb]
    · simp only [hb, if_false] at h ⊢
      cases hS : setOrigin B T with
      | error e => simp [hS] at h
      | ok r =>
        obtain ⟨p, hp⟩ := ih r hS
        simp [hp]

theorem spliceBody_eq_ok (B N R : List Token) (T : Token) :
    spliceBody B T N = .ok R ↔
      ∃ pre, copyUntilEOF B = .ok pre ∧ pre.map (withOrigin T) ++ N ≠ [] ∧
        R = headFlags T (pre.map (withOrigin T) ++ N) := by
  unfold spliceBody
  cases hS : setOrigin B T with
  | error e =>
    constructor
    · intro h
      cases h
    · rintro ⟨pre, hpre, -, -⟩
      obtain ⟨B1, hB1⟩ := setOrigin_ok_of_copy B pre T hpre
      rw [hS] at hB1
      cases hB1
  | ok B1 =>
    obtain ⟨pre, hpre⟩ := copy_ok_of_setOrigin B B1 T hS
    have hc := copyUntilEOF_setOrigin B B1 T hS
    rw [hpre] at hc
    simp only at hc
    have hA : append B1 N = .ok (pre.map (withOrigin T) ++ N) :=
      (append_eq_ok B1 N _).2 ⟨_, hc, rfl⟩
    simp only [hA]
    constructor
    · intro h
      refine ⟨pre, hpre, ?_, ?_⟩
      · intro hnil
        rw [hnil] at h
        cases h
      · cases hL : pre.map (withOrigin T) ++ N with
        | nil =>
          rw [hL] at h
          cases h
        | cons r rs =>
          rw [hL] at h
          cases h
          rfl
    · rintro ⟨p, hp, hne, hR⟩
      rw [hpre] at hp
      cases hp
      cases hL : pre.map (withOrigin T) ++ N with
      | nil => exact absurd hL hne
      | cons r rs =>
        rw [hR, hL]
        rfl

theorem copyUntilEOF_front (pre : List Token) (e : Token) (post : List Token)
    (hpre : ∀ x ∈ pre, x.Kind ≠ .TK_EOF) (he : e.Kind = .TK_EOF) :
    copyUntilEOF (pre ++ e :: post) = .ok pre := by
  induction pre with
  | nil => simp [copyUntilEOF, he]
  | cons b pre ih =>
    have hb : b.Kind ≠ .TK_EOF := hpre b (List.mem_cons_self _ _)
    have := ih (fun x hx => hpre x (List.mem_cons_of_mem _ hx))
    simp [copyUntilEOF, hb, this, copyToken]

theorem addHideset_eq_map (B : List Token) (H : Hideset) :
    addHideset B H = B.map fun t => { t with Hideset := hidesetUnion t.Hideset H } := by
  induction B with
  | nil => rfl
  | cons b B ih => simp [addHideset, copyToken, ih]

/-- C5: an eligible invocation `T` of an object-like macro `M` whose body has the
tokens `b :: bs` before its EOF is replaced by these tokens in order, each
with hideset `union(own, union(T.hideset, {M.name}))` and origin `T`, the
first one with `T`'s `AtBOL` and `HasSpace`, followed by the tokens behind
`T`; `expandMacro` reports `true` and the state is unchanged. -/
theorem expandMacro_objlike (env : Env)
    (pp2 : List Token → State → Except Err (List Token × State)) (view : ArgView)
    (T : Token) (rest : List Token) (st : State) (M : Macro)
    (b : Token) (bs : List Token) (e : Token) (junk : List Token)
    (hT : hidesetContains T.Hideset T.Loc = false) (hM : findMacro st T = some M)
    (hH : M.Handler = none) (hO : M.IsObjlike = true)
    (hB : M.Body = b :: bs ++ e :: junk) (hb : ∀ x ∈ b :: bs, x.Kind ≠ .TK_EOF)
    (he : e.Kind = .TK_EOF) :
    expandMacro env pp2 view (T :: rest) st =
      .ok (some ({ objTok T M b with AtBOL := T.AtBOL, HasSpace := T.HasSpace } ::
        (bs.map (objTok T M) ++ rest)), st) := by
  have hc : copyUntilEOF (addHideset M.Body (hidesetUnion T.Hideset (newHideset M.Name))) =
      .ok (addHideset (b :: bs) (hidesetUnion T.Hideset (newHideset M.Name))) := by
    rw [copyUntilEOF_addHideset, hB]
    have := copyUntilEOF_front (b :: bs) e junk hb he
    simp only [List.cons_append] at this
    simp [this]
  have hs : spliceBody (addHideset M.Body (hidesetUnion T.Hideset (newHideset M.Name))) T rest =
      .ok ({ objTok T M b with AtBOL := T.AtBOL, HasSpace := T.HasSpace } ::
        (bs.map (objTok T M) ++ rest)) := by
    rw [spliceBody_eq_ok]
    refine ⟨_, hc, ?_, ?_⟩
    · simp [addHideset]
    · simp [addHideset_eq_map, headFlags, withOrigin, objTok]
  simp [expandMacro, hT, hM, hH, hO, hs]

/-- Witness for C5: the object-like macro `X` with body `42` at the start of
a line. -/
theorem expandMacro_objlike_witness :
    expandMacro sampleEnv (preprocess2 sampleEnv 0) (preprocess2View sampleEnv 0) [bol (idt "X"), eof] answerState =
      .ok (some ({ objTok (bol (idt "X")) answerMacro (spc (ppn "42")) with
                    AtBOL := (bol (idt "X")).AtBOL, HasSpace := (bol (idt "X")).HasSpace } ::
        (([] : List Token).map (objTok (bol (idt "X")) answerMacro) ++ [eof])), answerState) :=
  expandMacro_objlike sampleEnv (preprocess2 sampleEnv 0) (preprocess2View sampleEnv 0) (bol (idt "X")) [eof]
    answerState answerMacro (spc (ppn "42")) [] eof [] (by decide) (by decide) rfl rfl rfl
    (by decide) rfl

theorem headFlags_map_hideset (T : Token) (L : List Token) :
    (headFlags T L).map (fun x => x.Hideset) = L.map (fun x => x.Hideset) := by
  cases L <;> simp [headFlags]

theorem headFlags_length (T : Token) (L : List Token) : (headFlags T L).length = L.length := by
  cases L <;> simp [headFlags]

/-- Witness for C2: the identifier `f` whose hideset holds `f` is not expanded
although the macro `f` is defined. -/
theorem expandMacro_not_eligible_witness :
    expandMacro sampleEnv (preprocess2 sampleEnv 5) (preprocess2View sampleEnv 5)
        (hid (idt "f") ["f"] :: [pun "(", ppn "1", pun ")", eof]) selfRefState =
      .ok (none, selfRefState) :=
  expandMacro_not_eligible sampleEnv (preprocess2 sampleEnv 5) (preprocess2View sampleEnv 5) (hid (idt "f") ["f"])
    [pun "(", ppn "1", pun ")", eof] selfRefState (Or.inr (Or.inl (by decide)))

/-- C3 (counterexample): on the tokens of `#define f(x) f(x)+1` and `f(f(1))`
the run returns, and its lexemes are not `f ( f ( 1 ) ) + 1 + 1`. -/
theorem selfRef_claimed_sequence_wrong :
    (∃ r, preprocess2 sampleEnv 30 selfRefInput {} = .ok r) ∧
    locs (preprocess2 sampleEnv 30 selfRefInput {}) ≠
      some ["f", "(", "f", "(", "1", ")", ")", "+", "1", "+", "1", ""] := by
  constructor
  · exact ⟨_, rfl⟩
  · decide

/-- C3 (amended): whatever the lexer, preprocessing the tokens of
`#define f(x) f(x)+1` and `f(f(1))`, or the tokens of `f(f(1))` with that
macro in the table, returns the lexemes `f ( f ( 1 ) + 1 ) + 1` and the EOF. -/
theorem selfRef_expansion (env : Env) :
    locs (preprocess2 env 30 selfRefInput {}) =
      some ["f", "(", "f", "(", "1", ")", "+", "1", ")", "+", "1", ""] ∧
    locs (preprocess2 env 30 selfRefCall selfRefState) =
      some ["f", "(", "f", "(", "1", ")", "+", "1", ")", "+", "1", ""] :=
  ⟨rfl, rfl⟩

/-! ## The directive loop -/

theorem preprocess2F_plain (env : Env) (st : State) (e : Token) (post : List Token)
    (he : e.Kind = .TK_EOF) (pre : List Token)
    (hpre : ∀ t ∈ pre, t.Kind ≠ .TK_EOF ∧ isHash t = false ∧
      (t.Kind = .TK_IDENT → hashmap_get st.Macros t.Loc = none))
    (fuel : Nat) (hf : pre.length < fuel) :
    preprocess2F env fuel (pre ++ e :: post) st = .ok (pre.map (stamp st) ++ e :: post, st) := by
  induction pre generalizing fuel with
  | nil =>
    cases fuel with
    | zero => simp at hf
    | succ f => simp [preprocess2F, he]
  | cons t pre ih =>
    cases fuel with
    | zero => simp at hf
    | succ f =>
      obtain ⟨h1, h2, h3⟩ := hpre t (List.mem_cons_self _ _)
      have hx : expandMacro env (preprocess2F env f) (argViewF env f 0 false) (t :: (pre ++ e :: post)) st = .ok (none, st) := by
        apply expandMacro_none_of
        by_cases hk : t.Kind = .TK_IDENT
        · exact Or.inr (Or.inr (h3 hk))
        · exact Or.inl hk
      have hr := ih (fun x hx => hpre x (List.mem_cons_of_mem _ hx)) f
        (by simp at hf; omega)
      simp [preprocess2F, h1, hx, h2, hr, stamp]

/-- C8: on an input whose tokens before the EOF are neither `#` at the beginning of a line
nor identifiers that are keys of the macro table, `preprocess2` returns (any step
budget above the number of tokens suffices), the state is unchanged, and the
output is the input with `LineDelta` and `Filename` stamped on each token
before the EOF: kind, lexeme, `AtBOL`, `HasSpace` and hideset are the same, in
the same order. -/
theorem preprocess2_plain_input (env : Env) (st : State) (pre : List Token) (e : Token)
    (post : List Token) (fuel : Nat)
    (hpre : ∀ t ∈ pre, t.Kind ≠ .TK_EOF ∧ isHash t = false ∧
      (t.Kind = .TK_IDENT → hashmap_get st.Macros t.Loc = none))
    (he : e.Kind = .TK_EOF) (hf : pre.length < fuel) :
    ∃ out, preprocess2 env fuel (pre ++ e :: post) st = .ok (out, st) ∧
      out = pre.map (stamp st) ++ e :: post ∧
      out.map (fun t => (t.Kind, t.Loc, t.AtBOL, t.HasSpace, t.Hideset)) =
        (pre ++ e :: post).map (fun t => (t.Kind, t.Loc, t.AtBOL, t.HasSpace, t.Hideset)) := by
  refine ⟨_, preprocess2F_plain env st e post he pre hpre fuel hf, rfl, ?_⟩
  simp [stamp, Function.comp_def]

/-- Witness for C8: the line `a + 1` with the macro `f` defined. -/
theorem preprocess2_plain_input_witness :
    ∃ out, preprocess2 sampleEnv 4 ([bol (idt "a"), spc (pun "+"), spc (ppn "1")] ++ eof :: [])
        selfRefState = .ok (out, selfRefState) ∧
      out = [bol (idt "a"), spc (pun "+"), spc (ppn "1")].map (stamp selfRefState) ++ eof :: [] ∧
      out.map (fun t => (t.Kind, t.Loc, t.AtBOL, t.HasSpace, t.Hideset)) =
        ([bol (idt "a"), spc (pun "+"), spc (ppn "1")] ++ eof :: []).map
          (fun t => (t.Kind, t.Loc, t.AtBOL, t.HasSpace, t.Hideset)) :=
  preprocess2_plain_input sampleEnv selfRefState [bol (idt "a"), spc (pun "+"), spc (ppn "1")]
    eof [] 4 (by decide) rfl (by decide)

/-- C7: whenever `preprocess2` returns, the returned sequence holds an EOF token,
and no token in front of that EOF is an EOF or a `#` with `AtBOL` set. -/
theorem preprocess2_output_no_directive (env : Env) (fuel : Nat) (Tok : List Token)
    (st st' : State) (out : List Token)
    (h : preprocess2 env fuel Tok st = .ok (out, st')) :
    ∃ pre e post, out = pre ++ e :: post ∧ e.Kind = .TK_EOF ∧
      ∀ t ∈ pre, t.Kind ≠ .TK_EOF ∧ isHash t = false := by
  unfold preprocess2 at h
  induction fuel generalizing Tok st st' out with
  | zero => simp [preprocess2F] at h
  | succ f ih =>
    cases Tok with
    | nil => simp [preprocess2F] at h
    | cons t rest =>
      unfold preprocess2F at h
      by_cases ht : t.Kind = .TK_EOF
      · simp [ht] at h
        obtain ⟨rfl, -⟩ := h
        exact ⟨[], t, rest, rfl, ht, by simp⟩
      · simp only [ht, if_false] at h
        cases hx : expandMacro env (preprocess2F env f) (argViewF env f 0 false) (t :: rest) st with
        | error e => simp [hx] at h
        | ok res =>
          obtain ⟨o, st1⟩ := res
          cases o with
          | some Tok1 =>
            simp only [hx] at h
            exact ih _ _ _ _ h
          | none =>
            simp only [hx] at h
            by_cases hh : isHash t = true
            · simp only [hh, Bool.not_true, Bool.false_eq_true, if_false] at h
              cases hd : directive env (preprocess2F env f) f t rest st1 with
              | error e => simp [hd] at h
              | ok res2 =>
                obtain ⟨Tok2, st2⟩ := res2
                simp only [hd] at h
                exact ih _ _ _ _ h
            · simp only [hh, Bool.not_false, if_true] at h
              cases hr : preprocess2F env f rest st1 with
              | error e => simp [hr] at h
              | ok res2 =>
                obtain ⟨r, st2⟩ := res2
                simp only [hr] at h
                obtain ⟨pre, e, post, rfl, he, hpre⟩ := ih _ _ _ _ hr
                simp at h
                obtain ⟨rfl, -⟩ := h
                refine ⟨_ :: pre, e, post, rfl, he, ?_⟩
                intro x hx'
                rcases List.mem_cons.1 hx' with rfl | hx'
                · refine ⟨ht, ?_⟩
                  simpa [isHash, equal] using hh
                · exact hpre x hx'

/-- Witness for C7: the run on `#define f(x) f(x)+1` and `f(f(1))`. -/
theorem preprocess2_output_no_directive_witness :
    ∃ pre e post, selfRefOutput.1 = pre ++ e :: post ∧ e.Kind = .TK_EOF ∧
      ∀ t ∈ pre, t.Kind ≠ .TK_EOF ∧ isHash t = false :=
  preprocess2_output_no_directive sampleEnv 30 selfRefInput {} selfRefOutput.2 selfRefOutput.1
    (by rfl)

/-! ## `#include` with an identifier that is not a macro -/

theorem readIncludeFilenameF_ident_loop
    (pp2 : List Token → State → Except Err (List Token × State)) (st : State)
    (hpp : ∀ t e, t.Kind = .TK_IDENT → e.Kind = .TK_EOF → e.AtBOL = true → t.AtBOL = false →
      pp2 [t, e] st = .error .outOfFuel ∨
      ∃ t' e', t'.Kind = .TK_IDENT ∧ e'.Kind = .TK_EOF ∧ e'.AtBOL = true ∧ t'.AtBOL = false ∧
        t'.Loc = t.Loc ∧ pp2 [t, e] st = .ok ([t', e'], st))
    (f : Nat) (t e : Token) (rest : List Token)
    (ht : t.Kind = .TK_IDENT) (he : e.Kind = .TK_EOF) (hb : e.AtBOL = true) (htb : t.AtBOL = false)
    (hlt : t.Loc ≠ "<") :
    readIncludeFilenameF pp2 f (t :: e :: rest) st = .error .outOfFuel := by
  induction f generalizing t e rest with
  | zero => simp [readIncludeFilenameF]
  | succ f ih =>
    have hc : copyLine (t :: e :: rest) = .ok ([t, newEOF e], e :: rest) := by
      simp [copyLine, htb, hb, copyToken]
    have hne : (newEOF e).Kind = .TK_EOF := rfl
    have hnb : (newEOF e).AtBOL = true := by simp [newEOF, copyToken, hb]
    rcases hpp t (newEOF e) ht hne hnb htb with h | ⟨t', e', h1, h2, h3, h4, hl, h5⟩
    · simp [readIncludeFilenameF, ht, equal, hlt, hc, h]
    · have := ih t' e' [] h1 h2 h3 h4 (by rw [hl]; exact hlt)
      simp [readIncludeFilenameF, ht, equal, hlt, hc, h5, this]

theorem preprocess2F_ident_line (env : Env) (f : Nat) (st : State) (t e : Token)
    (hM : st.Macros = []) (ht : t.Kind = .TK_IDENT) (he : e.Kind = .TK_EOF)
    (hb : e.AtBOL = true) (htb : t.AtBOL = false) :
    preprocess2F env f [t, e] st = .error .outOfFuel ∨
      ∃ t' e', t'.Kind = .TK_IDENT ∧ e'.Kind = .TK_EOF ∧ e'.AtBOL = true ∧ t'.AtBOL = false ∧
        t'.Loc = t.Loc ∧ preprocess2F env f [t, e] st = .ok ([t', e'], st) := by
  have hpl : ∀ x ∈ [t], x.Kind ≠ .TK_EOF ∧ isHash x = false ∧
      (x.Kind = .TK_IDENT → hashmap_get st.Macros x.Loc = none) := by
    intro x hx
    simp at hx
    subst hx
    refine ⟨by simp [ht], by simp [isHash, htb], fun _ => by simp [hM, hashmap_get]⟩
  by_cases hf : 1 < f
  · right
    have := preprocess2F_plain env st e [] he [t] hpl f (by simpa using hf)
    exact ⟨stamp st t, e, ht, he, hb, htb, rfl, by simpa using this⟩
  · left
    have hf' : f = 0 ∨ f = 1 := by omega
    rcases hf' with rfl | rfl
    · simp [preprocess2F]
    · have hx := fun pp2 view =>
        expandMacro_none_of env pp2 view t [e] st (Or.inr (Or.inr (by simp [hM, hashmap_get])))
      simp [preprocess2F, ht, hx, isHash, htb]

/-- C1: on the tokens of `#include FOO`, with `FOO` not a macro, no file is ever
opened, yet `preprocess2` does not return for any step budget:
`readIncludeFilename` expands the line, finds the identifier again and calls
itself on it without end. -/
theorem include_identifier_never_returns (env : Env) (fuel : Nat) :
    preprocess2 env fuel includeIdentInput {} = .error .outOfFuel := by
  cases fuel with
  | zero => rfl
  | succ f =>
    have hx : expandMacro env (preprocess2F env f) (argViewF env f 0 false) includeIdentInput {} = .ok (none, {}) :=
      expandMacro_none_of env _ _ _ _ _ (Or.inl (by decide))
    have hr := readIncludeFilenameF_ident_loop (preprocess2F env f) {}
      (fun t e ht he hb htb => preprocess2F_ident_line env f {} t e rfl ht he hb htb)
      f (spc (idt "FOO")) eof [] rfl rfl rfl rfl (by decide)
    have hd : directive env (preprocess2F env f) f (bol (pun "#"))
        [idt "include", spc (idt "FOO"), eof] {} = .error .outOfFuel := by
      unfold directive
      have h1 : equal (idt "include") "include" = true := by decide
      simp only [h1, if_true, hr]
    unfold preprocess2 preprocess2F
    simp only [includeIdentInput] at hx ⊢
    have hk : (bol (pun "#")).Kind ≠ .TK_EOF := by decide
    have hh : isHash (bol (pun "#")) = true := by decide
    simp [hk, hx, hh, hd]

/-! ## Where substituted tokens come from -/

theorem copyUntilEOF_mem (l m : List Token) (h : copyUntilEOF l = .ok m) :
    ∀ x ∈ m, x ∈ l ∧ x.Kind ≠ .TK_EOF := by
  induction l generalizing m with
  | nil => simp [copyUntilEOF] at h
  | cons a l ih =>
    unfold copyUntilEOF at h
    by_cases ha : a.Kind = .TK_EOF
    · simp [ha] at h
      subst h
      simp
    · simp only [ha, if_false] at h
      cases hc : copyUntilEOF l with
      | error e => simp [hc] at h
      | ok m' =>
        simp [hc, copyToken] at h
        subst h
        intro x hx
        rcases List.mem_cons.1 hx with rfl | hx
        · exact ⟨List.mem_cons_self _ _, ha⟩
        · exact ⟨List.mem_cons_of_mem _ (ih m' hc x hx).1, (ih m' hc x hx).2⟩

theorem readMacroArgOneL_mem (toks : List Token) (rr : Bool) (lvl : Nat) (A : MacroArg)
    (r : List Token) (h : readMacroArgOneL toks rr lvl = .ok (A, r)) :
    (∀ x ∈ r, x ∈ toks) ∧ (∀ x ∈ A.Tok, x ∈ toks ∨ x.Kind = .TK_EOF) ∧ r.length ≤ toks.length := by
  induction toks generalizing lvl A r with
  | nil => simp [readMacroArgOneL] at h
  | cons t toks ih =>
    unfold readMacroArgOneL at h
    split at h
    · simp at h
      obtain ⟨rfl, rfl⟩ := h
      exact ⟨fun x hx => hx, by simp [newEOF], le_refl _⟩
    · split at h
      · simp at h
        obtain ⟨rfl, rfl⟩ := h
        exact ⟨fun x hx => hx, by simp [newEOF], le_refl _⟩
      · split at h
        · simp at h
        · split at h
          · simp at h
          · rename_i A' r' hrec
            simp at h
            obtain ⟨rfl, rfl⟩ := h
            obtain ⟨h1, h2, h3⟩ := ih _ _ _ hrec
            refine ⟨fun x hx => List.mem_cons_of_mem _ (h1 x hx), ?_, by simp; omega⟩
            intro x hx
            simp [copyToken] at hx
            rcases hx with rfl | hx
            · exact Or.inl (List.mem_cons_self _ _)
            · rcases h2 x hx with h | h
              · exact Or.inl (List.mem_cons_of_mem _ h)
              · exact Or.inr h

theorem skip_eq_ok (toks r : List Token) (s : String) (h : skip toks s = .ok r) :
    ∃ t, toks = t :: r ∧ equal t s = true := by
  cases toks with
  | nil => simp [skip] at h
  | cons t rest =>
    by_cases heq : equal t s = true
    · simp [skip, heq] at h
      subst h
      exact ⟨t, rfl, heq⟩
    · simp [skip, heq] at h

theorem paste_hideset (env : Env) (st st1 : State) (a b p : Token)
    (h : paste env st a b = .ok (p, st1)) : p.Hideset = [] := by
  unfold paste at h
  dsimp only at h
  split at h
  · simp at h
  · split at h
    · simp at h
    · simp at h
      rw [← h.1]
      rfl

theorem stringize_hideset (env : Env) (st st1 : State) (a : Token) (l : List Token)
    (s : Token × List Token) (h : stringize env st a l = .ok (s, st1)) : s.1.Hideset = [] := by
  unfold stringize at h
  split at h
  · simp at h
  · simp at h
    have := congrArg Prod.fst h
    simp at this
    rw [← this]
    rfl

theorem vaOptTokens_mem (Args : List MacroArg) (RHS more Tok2 : List Token)
    (h : vaOptTokens Args RHS = .ok (more, Tok2)) :
    (∀ x ∈ more, x ∈ RHS) ∧ (∀ x ∈ Tok2, x ∈ RHS) ∧ Tok2.length < RHS.length := by
  unfold vaOptTokens at h
  split at h
  · simp at h
  · rename_i Arg1 Tok1 hA
    obtain ⟨h1, h2, h3⟩ := readMacroArgOneL_mem _ _ _ _ _ hA
    split at h
    · simp at h
    · rename_i hv hhv
      split at h
      · simp at h
      · rename_i more' hmore
        split at h
        · simp at h
        · rename_i Tok2' hsk
          simp at h
          obtain ⟨rfl, rfl⟩ := h
          obtain ⟨t, rfl, -⟩ := skip_eq_ok _ _ _ hsk
          refine ⟨?_, fun x hx => h1 x (List.mem_cons_of_mem _ hx), by simp at h3; omega⟩
          intro x hx
          by_cases hb : hv = true
          · simp [hb] at hmore
            obtain ⟨hm, hk⟩ := copyUntilEOF_mem _ _ hmore x hx
            rcases h2 x hm with h | h
            · exact h
            · exact absurd h hk
          · simp [hb] at hmore
            subst hmore
            simp at hx

theorem findArg_mem (Args : List MacroArg) (t : Token) (A : MacroArg)
    (h : findArg Args t = some A) : A ∈ Args := by
  induction Args with
  | nil => simp [findArg] at h
  | cons a Args ih =>
    unfold findArg at h
    split at h
    · simp at h
      subst h
      exact List.mem_cons_self _ _
    · exact List.mem_cons_of_mem _ (ih h)

theorem spliceBody_addHideset (B N R : List Token) (Hs : Hideset) (T : Token)
    (h : spliceBody (addHideset B Hs) T N = .ok R) :
    ∃ pre, copyUntilEOF B = .ok pre ∧
      R = headFlags T
        ((pre.map fun y => withOrigin T { y with Hideset := hidesetUnion y.Hideset Hs }) ++ N) := by
  obtain ⟨pre, hpre, -, hR⟩ := (spliceBody_eq_ok _ _ _ _).1 h
  rw [copyUntilEOF_addHideset] at hpre
  cases hC : copyUntilEOF B with
  | error e => simp [hC] at hpre
  | ok repl =>
    simp [hC] at hpre
    subst hpre
    refine ⟨repl, rfl, ?_⟩
    rw [hR, addHideset_eq_map, List.map_map]
    rfl

/-- C6 (counterexample): in the expansion of `cat(u,v)` with `#define cat(a,b) a##b`
the operands `u` and `v` carry the hideset `{h}`, and the token `uv` emitted for
`a##b` carries `{cat}` only; the same token comes out of the run on the source
lines `#define cat(a,b) a##b`, `#define h cat(u,v` and `h )`. -/
theorem paste_drops_operand_hideset :
    (∃ R st', expandMacro sampleEnv (preprocess2 sampleEnv 5) (preprocess2View sampleEnv 5) pasteStream catState =
        .ok (some R, st') ∧
      R.map (fun x => (x.Loc, x.Hideset)) = [("uv", ["cat"]), ("", [])]) ∧
    pasteStream.map (fun x => (x.Loc, hidesetContains x.Hideset "h")) =
      [("cat", true), ("(", true), ("u", true), (",", true), ("v", true), (")", false),
       ("", false)] ∧
    hidesetContains ["cat"] "h" = false ∧
    (match preprocess2 sampleEnv 30 pasteInput {} with
      | .ok (out, _) => some (out.map fun x => (x.Loc, x.Hideset))
      | .error _ => none) = some [("uv", ["cat"]), ("", [])] := by
  refine ⟨⟨_, _, rfl, ?_⟩, ?_, ?_, ?_⟩ <;> decide

/-! ## Conditional inclusion -/

theorem skipLine_line (c : List Token) (x : Token) (xs : List Token)
    (hc : ∀ t ∈ c, t.AtBOL = false) (hx : x.AtBOL = true) :
    skipLine (c ++ x :: xs) = .ok (x :: xs) := by
  induction c with
  | nil => simp [skipLine, hx]
  | cons a c ih =>
    have ha := hc a (List.mem_cons_self _ _)
    simp [skipLine, ha, ih (fun t ht => hc t (List.mem_cons_of_mem _ ht))]

theorem copyLine_line (c : List Token) (x : Token) (xs : List Token)
    (hc : ∀ t ∈ c, t.AtBOL = false) (hx : x.AtBOL = true) :
    copyLine (c ++ x :: xs) = .ok (c ++ [newEOF x], x :: xs) := by
  induction c with
  | nil => simp [copyLine, hx]
  | cons a c ih =>
    have ha := hc a (List.mem_cons_self _ _)
    simp [copyLine, ha, ih (fun t ht => hc t (List.mem_cons_of_mem _ ht)), copyToken]

theorem skipCondInclF_plain (S : List Token) (h d : Token) (Y : List Token) (f : Nat)
    (hS : ∀ t ∈ S, t.Kind ≠ .TK_EOF ∧ isHash t = false)
    (hh : isHash h = true) (hk : h.Kind ≠ .TK_EOF)
    (hd : d.Loc = "elif" ∨ d.Loc = "else" ∨ d.Loc = "endif") (hf : S.length < f) :
    skipCondInclF f (S ++ h :: d :: Y) = .ok (h :: d :: Y) := by
  induction S generalizing f with
  | nil =>
    cases f with
    | zero => simp at hf
    | succ f =>
      rcases hd with hd | hd | hd <;> simp [skipCondInclF, hk, hh, equal, hd]
  | cons a S ih =>
    cases f with
    | zero => simp at hf
    | succ f =>
      obtain ⟨h1, h2⟩ := hS a (List.mem_cons_self _ _)
      have := ih f (fun t ht => hS t (List.mem_cons_of_mem _ ht)) (by simp at hf; omega)
      simp [skipCondInclF, h1, h2, this]

theorem skipCondIncl_plain (S : List Token) (h d : Token) (Y : List Token)
    (hS : ∀ t ∈ S, t.Kind ≠ .TK_EOF ∧ isHash t = false)
    (hh : isHash h = true) (hk : h.Kind ≠ .TK_EOF)
    (hd : d.Loc = "elif" ∨ d.Loc = "else" ∨ d.Loc = "endif") :
    skipCondIncl (S ++ h :: d :: Y) = .ok (h :: d :: Y) :=
  skipCondInclF_plain S h d Y _ hS hh hk hd (by simp; omega)

theorem preprocess2F_plain_front (env : Env) (st : State) (rest : List Token) (f : Nat)
    (B : List Token)
    (hB : ∀ t ∈ B, t.Kind ≠ .TK_EOF ∧ isHash t = false ∧
      (t.Kind = .TK_IDENT → hashmap_get st.Macros t.Loc = none)) :
    preprocess2F env (B.length + f) (B ++ rest) st =
      match preprocess2F env f rest st with
      | .error e => .error e
      | .ok (r, s) => .ok (B.map (stamp st) ++ r, s) := by
  induction B with
  | nil =>
    simp
    cases preprocess2F env f rest st with
    | error e => rfl
    | ok r => rfl
  | cons t B ih =>
    obtain ⟨h1, h2, h3⟩ := hB t (List.mem_cons_self _ _)
    have hx := fun pp2 view => expandMacro_none_of env pp2 view t (B ++ rest) st
      (by
        by_cases hk : t.Kind = .TK_IDENT
        · exact Or.inr (Or.inr (h3 hk))
        · exact Or.inl hk)
    have hr := ih (fun x hx => hB x (List.mem_cons_of_mem _ hx))
    have hl : (t :: B).length + f = (B.length + f) + 1 := by simp; omega
    rw [hl]
    show preprocess2F env (B.length + f + 1) (t :: (B ++ rest)) st = _
    rw [preprocess2F]
    simp only [h1, if_false, hx, h2, Bool.not_false, if_true, hr]
    cases preprocess2F env f rest st with
    | error e => rfl
    | ok r => simp [stamp]

theorem preprocess2F_directive (env : Env) (st : State) (h : Token) (rest : List Token) (f : Nat)
    (hb : h.AtBOL = true) (hl : h.Loc = "#") (hk : h.Kind = .TK_PUNCT) :
    preprocess2F env (f + 1) (h :: rest) st =
      match directive env (preprocess2F env f) f h rest st with
      | .error e => .error e
      | .ok (Tok2, st2) => preprocess2F env f Tok2 st2 := by
  have hx := fun pp2 view => expandMacro_none_of env pp2 view h rest st (Or.inl (by simp [hk]))
  simp [preprocess2F, hk, hx, isHash, hb, equal, hl]

theorem chainRest_head (Ms : List (String × Macro)) (cls : List Clause) (els : Option Clause)
    (fin : Clause) (tail : List Token)
    (hcls : ∀ cl ∈ cls, cl.WellFormed Ms "elif") (hels : ∀ ec ∈ els, ec.WellFormed Ms "else")
    (hfin : fin.WellFormed Ms "endif") :
    ∃ h d Y, chainRest cls els fin tail = h :: d :: Y ∧ h.AtBOL = true ∧ isHash h = true ∧
      h.Kind ≠ .TK_EOF ∧ (d.Loc = "elif" ∨ d.Loc = "else" ∨ d.Loc = "endif") := by
  have hw : ∀ (cl : Clause) (name : String), cl.WellFormed Ms name →
      cl.h.AtBOL = true ∧ isHash cl.h = true ∧ cl.h.Kind ≠ .TK_EOF ∧ cl.d.Loc = name := by
    intro cl name ⟨h1, h2, h3, h4, _⟩
    exact ⟨h1, by simp [isHash, equal, h1, h2], by simp [h3], h4⟩
  cases cls with
  | cons cl cls' =>
    obtain ⟨h1, h2, h3, h4⟩ := hw cl _ (hcls cl (List.mem_cons_self _ _))
    exact ⟨cl.h, cl.d, _, rfl, h1, h2, h3, Or.inl h4⟩
  | nil =>
    cases els with
    | some ec =>
      obtain ⟨h1, h2, h3, h4⟩ := hw ec _ (hels ec rfl)
      exact ⟨ec.h, ec.d, _, rfl, h1, h2, h3, Or.inr (Or.inl h4)⟩
    | none =>
      obtain ⟨h1, h2, h3, h4⟩ := hw fin _ hfin
      exact ⟨fin.h, fin.d, _, rfl, h1, h2, h3, Or.inr (Or.inr h4)⟩

theorem clause_skippable (Ms : List (String × Macro)) (name : String) (cl : Clause)
    (hn : name ≠ "#") (hw : cl.WellFormed Ms name) :
    ∀ t ∈ cl.d :: (cl.c ++ cl.B), t.Kind ≠ .TK_EOF ∧ isHash t = false := by
  obtain ⟨-, -, -, h4, h5, h6, h7, -⟩ := hw
  intro t ht
  rcases List.mem_cons.1 ht with rfl | ht
  · refine ⟨h5, ?_⟩
    have : ¬ cl.d.Loc = "#" := by rw [h4]; exact hn
    simp [isHash, equal, this]
  · rcases List.mem_append.1 ht with ht | ht
    · exact ⟨(h6 t ht).2, by simp [isHash, (h6 t ht).1]⟩
    · exact ⟨(h7 t ht).1, (h7 t ht).2.1⟩

theorem endif_step (env : Env) (Ms : List (String × Macro)) (fin : Clause) (e : Token)
    (post : List Token) (he : e.Kind = .TK_EOF) (hb : e.AtBOL = true)
    (hfin : fin.WellFormed Ms "endif") (hfB : fin.B = [])
    (s : State) (c : CondIncl) (cs : List CondIncl) (hs : s.CondIncls = c :: cs)
    (f : Nat) (hf : 2 ≤ f) :
    preprocess2F env f (fin.toks ++ e :: post) s = .ok (e :: post, { s with CondIncls := cs }) := by
  obtain ⟨h1, h2, h3, h4, h5, h6, -, -⟩ := hfin
  obtain ⟨f', rfl⟩ : ∃ f', f = f' + 2 := ⟨f - 2, by omega⟩
  have hsl : skipLine (fin.c ++ e :: post) = .ok (e :: post) :=
    skipLine_line fin.c e post (fun t ht => (h6 t ht).1) hb
  have hd : directive env (preprocess2F env (f' + 1)) (f' + 1) fin.h (fin.d :: (fin.c ++ e :: post)) s =
      .ok (e :: post, { s with CondIncls := cs }) := by
    simp [directive, equal, h4, hs, hsl]
  have := preprocess2F_directive env s fin.h (fin.d :: (fin.c ++ e :: post)) (f' + 1) h1 h2 h3
  simp only [Clause.toks, hfB, List.append_nil, List.cons_append, List.append_assoc]
  rw [this, hd]
  simp [preprocess2F, he]

theorem chainRest_cons (cl : Clause) (cls : List Clause) (els : Option Clause) (fin : Clause)
    (tail : List Token) :
    chainRest (cl :: cls) els fin tail =
      cl.h :: cl.d :: (cl.c ++ (cl.B ++ chainRest cls els fin tail)) := by
  simp [chainRest, clausesToks, Clause.toks, List.append_assoc]

theorem chainRest_else (ec : Clause) (fin : Clause) (tail : List Token) :
    chainRest [] (some ec) fin tail = ec.h :: ec.d :: (ec.c ++ (ec.B ++ (fin.toks ++ tail))) := by
  simp [chainRest, clausesToks, elseToks, Clause.toks, List.append_assoc]

theorem chainRest_none (fin : Clause) (tail : List Token) :
    chainRest [] none fin tail = fin.toks ++ tail := by
  simp [chainRest, clausesToks, elseToks]

theorem body_starts_line (Ms : List (String × Macro)) (name : String) (cl : Clause)
    (hw : cl.WellFormed Ms name) (h : Token) (Y : List Token) (hh : h.AtBOL = true) :
    ∃ x xs, cl.B ++ h :: Y = x :: xs ∧ x.AtBOL = true := by
  obtain ⟨-, -, -, -, -, -, -, h8⟩ := hw
  cases hB : cl.B with
  | nil => exact ⟨h, Y, rfl, hh⟩
  | cons b B' =>
    refine ⟨b, B' ++ h :: Y, rfl, ?_⟩
    exact h8 b (by simp [hB])

theorem chain_included (env : Env) (Ms : List (String × Macro)) (fin : Clause) (e : Token)
    (post : List Token) (he : e.Kind = .TK_EOF) (hb : e.AtBOL = true)
    (hfin : fin.WellFormed Ms "endif") (hfB : fin.B = [])
    (els : Option Clause) (hels : ∀ ec ∈ els, ec.WellFormed Ms "else")
    (cls : List Clause) (hcls : ∀ cl ∈ cls, cl.WellFormed Ms "elif") :
    ∀ (s : State) (c : CondIncl) (cs : List CondIncl) (f : Nat),
      s.CondIncls = c :: cs → c.Included = true → c.Ctx ≠ .IN_ELSE → cls.length + 4 ≤ f →
      preprocess2F env f (chainRest cls els fin (e :: post)) s =
        .ok (e :: post, { s with CondIncls := cs }) := by
  induction cls with
  | nil =>
    intro s c cs f hs hinc hctx hf
    cases els with
    | none =>
      rw [chainRest_none]
      exact endif_step env Ms fin e post he hb hfin hfB s c cs hs f (by omega)
    | some ec =>
      have hec := hels ec rfl
      obtain ⟨f', rfl⟩ : ∃ f', f = f' + 1 := ⟨f - 1, by omega⟩
      rw [chainRest_else]
      have ⟨h1, h2, h3, h4, h5, h6, h7, h8⟩ := hec
      have ⟨g1, g2, g3, g4, _⟩ := hfin
      obtain ⟨x, xs, hX, hx⟩ := body_starts_line Ms "else" ec hec fin.h
        (fin.d :: (fin.c ++ (fin.B ++ e :: post))) g1
      have hXe : ec.B ++ (fin.toks ++ e :: post) = x :: xs := by
        rw [← hX]
        simp [Clause.toks]
      have hsl : skipLine (ec.c ++ (ec.B ++ (fin.toks ++ e :: post))) = .ok (x :: xs) := by
        rw [hXe]
        exact skipLine_line ec.c x xs (fun t ht => (h6 t ht).1) hx
      have hsk : skipCondIncl (x :: xs) = .ok (fin.toks ++ e :: post) := by
        rw [← hXe]
        exact skipCondIncl_plain ec.B fin.h fin.d _ (fun t ht => ⟨(h7 t ht).1, (h7 t ht).2.1⟩)
          (by simp [isHash, equal, g1, g2]) (by simp [g3]) (Or.inr (Or.inr g4))
      have hd : directive env (preprocess2F env f') f' ec.h
          (ec.d :: (ec.c ++ (ec.B ++ (fin.toks ++ e :: post)))) s =
          .ok (fin.toks ++ e :: post, setTopCtx s .IN_ELSE) := by
        simp [directive, equal, h4, hs, hctx, hsl, hinc, hsk]
      rw [preprocess2F_directive env s ec.h _ f' h1 h2 h3, hd]
      have := endif_step env Ms fin e post he hb hfin hfB (setTopCtx s .IN_ELSE)
        { c with Ctx := .IN_ELSE } cs (by simp [setTopCtx, hs]) f' (by omega)
      simp only [this]
      simp [setTopCtx, hs]
  | cons cl cls' ih =>
    intro s c cs f hs hinc hctx hf
    have hcl := hcls cl (List.mem_cons_self _ _)
    have hcls' : ∀ x ∈ cls', x.WellFormed Ms "elif" :=
      fun x hx => hcls x (List.mem_cons_of_mem _ hx)
    obtain ⟨f', rfl⟩ : ∃ f', f = f' + 1 := ⟨f - 1, by omega⟩
    rw [chainRest_cons]
    obtain ⟨h', d', Y, hR, -, hh', hk', hd'⟩ :=
      chainRest_head Ms cls' els fin (e :: post) hcls' hels hfin
    have ⟨h1, h2, h3, h4, _⟩ := hcl
    have hsk : skipCondIncl (cl.d :: (cl.c ++ (cl.B ++ chainRest cls' els fin (e :: post)))) =
        .ok (chainRest cls' els fin (e :: post)) := by
      have := skipCondIncl_plain (cl.d :: (cl.c ++ cl.B)) h' d' Y
        (clause_skippable Ms "elif" cl (by decide) (hcls cl (List.mem_cons_self _ _))) hh' hk' hd'
      rw [hR]
      simpa [List.append_assoc] using this
    have hd : directive env (preprocess2F env f') f' cl.h
        (cl.d :: (cl.c ++ (cl.B ++ chainRest cls' els fin (e :: post)))) s =
        .ok (chainRest cls' els fin (e :: post), setTopCtx s .IN_ELIF) := by
      simp [directive, equal, h4, hs, hctx, hinc, hsk]
    rw [preprocess2F_directive env s cl.h _ f' h1 h2 h3, hd]
    have := ih hcls' (setTopCtx s .IN_ELIF) { c with Ctx := .IN_ELIF } cs f'
      (by simp [setTopCtx, hs]) hinc (by simp) (by simp at hf; omega)
    simp only [this]
    simp [setTopCtx, hs]

theorem findMacro_congr (s s' : State) (h : s.Macros = s'.Macros) (t : Token) :
    findMacro s t = findMacro s' t := by
  simp [findMacro, h]

theorem elif_step (env : Env) (Ms : List (String × Macro)) (cl : Clause)
    (hcl : cl.WellFormed Ms "elif") (b : Bool) (hv : cl.Holds env Ms b)
    (h' d' : Token) (Y : List Token) (hb' : h'.AtBOL = true) (hh' : isHash h' = true)
    (hk' : h'.Kind ≠ .TK_EOF) (hd' : d'.Loc = "elif" ∨ d'.Loc = "else" ∨ d'.Loc = "endif") :
    ∃ f0, ∀ f, f0 ≤ f → ∀ (s : State) (c : CondIncl) (cs : List CondIncl),
      s.CondIncls = c :: cs → c.Included = false → c.Ctx ≠ .IN_ELSE → s.Macros = Ms →
      ∃ s2, directive env (preprocess2F env f) f cl.h (cl.d :: (cl.c ++ (cl.B ++ h' :: d' :: Y))) s =
          .ok (if b then cl.B ++ h' :: d' :: Y else h' :: d' :: Y, s2) ∧
        s2.Macros = Ms ∧ s2.CondIncls = { c with Ctx := .IN_ELIF, Included := b } :: cs := by
  have ⟨h1, h2, h3, h4, h5, h6, h7, h8⟩ := hcl
  unfold Clause.Holds at hv
  simp only [h4] at hv
  have e1 : ¬ ("elif" = "ifdef") := by decide
  have e2 : ¬ ("elif" = "ifndef") := by decide
  simp only [e1, e2, if_false] at hv
  obtain ⟨v, ⟨f0, hcv⟩, hbv⟩ := hv
  refine ⟨f0, ?_⟩
  intro f hf s c cs hs hinc hctx hM
  obtain ⟨x, xs, hX, hx⟩ := body_starts_line Ms "elif" cl hcl h' (d' :: Y) hb'
  obtain ⟨s', hev, hM', hC'⟩ := hcv f (setTopCtx s .IN_ELIF) (cl.B ++ h' :: d' :: Y) hf
    (by simp [setTopCtx, hs, hM]) (by rw [hX]; simpa using hx) (by rw [hX]; simp)
  have hC2 : s'.CondIncls = { c with Ctx := .IN_ELIF } :: cs := by
    rw [hC']
    simp [setTopCtx, hs]
  have hM2 : s'.Macros = Ms := by
    rw [hM']
    simp [setTopCtx, hs, hM]
  by_cases hv0 : v = 0
  · have hbf : b = false := by simp [hbv, hv0]
    subst hbf
    have hsk : skipCondIncl (cl.B ++ h' :: d' :: Y) = .ok (h' :: d' :: Y) :=
      skipCondIncl_plain cl.B h' d' Y (fun t ht => ⟨(h7 t ht).1, (h7 t ht).2.1⟩) hh' hk' hd'
    refine ⟨s', ?_, hM2, ?_⟩
    · simp [directive, equal, h4, hs, hctx, hinc, hev, hv0, hsk]
    · rw [hC2]
      obtain ⟨ctx, tok, inc⟩ := c
      simp only at hinc
      subst hinc
      rfl
  · have hbt : b = true := by simp [hbv, hv0]
    subst hbt
    refine ⟨setTopIncluded s', ?_, ?_, ?_⟩
    · simp [directive, equal, h4, hs, hctx, hinc, hev, hv0, hC2]
    · simp [setTopIncluded, hC2, hM2]
    · simp [setTopIncluded, hC2]

theorem opening_step (env : Env) (Ms : List (String × Macro)) (op : Clause)
    (hop : op.WellFormed Ms op.d.Loc)
    (hname : op.d.Loc = "if" ∨ op.d.Loc = "ifdef" ∨ op.d.Loc = "ifndef")
    (b : Bool) (hv : op.Holds env Ms b)
    (h' d' : Token) (Y : List Token) (hb' : h'.AtBOL = true) (hh' : isHash h' = true)
    (hk' : h'.Kind ≠ .TK_EOF) (hd' : d'.Loc = "elif" ∨ d'.Loc = "else" ∨ d'.Loc = "endif") :
    ∃ f0, ∀ f, f0 ≤ f → ∀ (s : State), s.Macros = Ms →
      ∃ s2 tok, directive env (preprocess2F env f) f op.h (op.d :: (op.c ++ (op.B ++ h' :: d' :: Y))) s =
          .ok (if b then op.B ++ h' :: d' :: Y else h' :: d' :: Y, s2) ∧
        s2.Macros = Ms ∧
        s2.CondIncls = { Ctx := .IN_THEN, Tok := tok, Included := b } :: s.CondIncls := by
  have ⟨h1, h2, h3, h4, h5, h6, h7, h8⟩ := hop
  obtain ⟨x, xs, hX, hx⟩ := body_starts_line Ms _ op hop h' (d' :: Y) hb'
  have hsk : skipCondIncl (op.B ++ h' :: d' :: Y) = .ok (h' :: d' :: Y) :=
    skipCondIncl_plain op.B h' d' Y (fun t ht => ⟨(h7 t ht).1, (h7 t ht).2.1⟩) hh' hk' hd'
  unfold Clause.Holds at hv
  rcases hname with hn | hn | hn
  · -- `#if`
    simp only [hn] at hv
    have e1 : ¬ ("if" = "ifdef") := by decide
    have e2 : ¬ ("if" = "ifndef") := by decide
    simp only [e1, e2, if_false] at hv
    obtain ⟨v, ⟨f0, hcv⟩, hbv⟩ := hv
    refine ⟨f0, ?_⟩
    intro f hf s hM
    obtain ⟨s', hev, hM', hC'⟩ := hcv f s (op.B ++ h' :: d' :: Y) hf hM
      (by rw [hX]; simpa using hx) (by rw [hX]; simp)
    by_cases hv0 : v = 0
    · have hbf : b = false := by simp [hbv, hv0]
      subst hbf
      refine ⟨pushCondIncl s' op.h false, op.h, ?_, ?_, ?_⟩
      · simp [directive, equal, hn, hev, hv0, hsk]
      · simp [pushCondIncl, hM', hM]
      · simp [pushCondIncl, hC']
    · have hbt : b = true := by simp [hbv, hv0]
      subst hbt
      refine ⟨pushCondIncl s' op.h true, op.h, ?_, ?_, ?_⟩
      · simp [directive, equal, hn, hev, hv0]
      · simp [pushCondIncl, hM', hM]
      · simp [pushCondIncl, hC']
  · -- `#ifdef`
    simp only [hn, if_true] at hv
    obtain ⟨n, junk, hc, hbv⟩ := hv
    refine ⟨0, ?_⟩
    intro f _ s hM
    have hsl : skipLine (junk ++ (op.B ++ h' :: d' :: Y)) = .ok (op.B ++ h' :: d' :: Y) := by
      rw [hX]
      exact skipLine_line junk x xs (fun t ht => (h6 t (by rw [hc]; exact List.mem_cons_of_mem _ ht)).1) hx
    have hfm : findMacro s n = findMacro { Macros := Ms } n := findMacro_congr _ _ (by simp [hM]) n
    by_cases hdef : (findMacro { Macros := Ms } n).isSome = true
    · have hbt : b = true := by simp [hbv, hdef]
      subst hbt
      refine ⟨pushCondIncl s op.d true, op.d, ?_, by simp [pushCondIncl, hM], by simp [pushCondIncl]⟩
      simp [directive, equal, hn, hc, hsl, hfm, hdef]
    · have hbf : b = false := by simp [hbv, hdef]
      subst hbf
      refine ⟨pushCondIncl s op.d false, op.d, ?_, by simp [pushCondIncl, hM], by simp [pushCondIncl]⟩
      simp [directive, equal, hn, hc, hsl, hfm, hdef, hsk]
  · -- `#ifndef`
    simp only [hn] at hv
    have e1 : ¬ ("ifndef" = "ifdef") := by decide
    simp only [e1, if_false, if_true] at hv
    obtain ⟨n, junk, hc, hbv⟩ := hv
    refine ⟨0, ?_⟩
    intro f _ s hM
    have hsl : skipLine (junk ++ (op.B ++ h' :: d' :: Y)) = .ok (op.B ++ h' :: d' :: Y) := by
      rw [hX]
      exact skipLine_line junk x xs (fun t ht => (h6 t (by rw [hc]; exact List.mem_cons_of_mem _ ht)).1) hx
    have hfm : findMacro s n = findMacro { Macros := Ms } n := findMacro_congr _ _ (by simp [hM]) n
    by_cases hdef : (findMacro { Macros := Ms } n).isSome = true
    · have hbf : b = false := by simp [hbv, hdef]
      subst hbf
      refine ⟨pushCondIncl s op.d false, op.d, ?_, by simp [pushCondIncl, hM], by simp [pushCondIncl]⟩
      simp [directive, equal, hn, hc, hsl, hfm, hdef, hsk]
    · have hbt : b = true := by simp [hbv, hdef]
      subst hbt
      refine ⟨pushCondIncl s op.d true, op.d, ?_, by simp [pushCondIncl, hM], by simp [pushCondIncl]⟩
      simp [directive, equal, hn, hc, hsl, hfm, hdef]

theorem chain_searching (env : Env) (Ms : List (String × Macro)) (fin : Clause) (e : Token)
    (post : List Token) (he : e.Kind = .TK_EOF) (hb : e.AtBOL = true)
    (hfin : fin.WellFormed Ms "endif") (hfB : fin.B = [])
    (cls : List Clause) (els : Option Clause) (sel : List Token)
    (hsel : Selects env Ms cls els sel)
    (hcls : ∀ cl ∈ cls, cl.WellFormed Ms "elif") (hels : ∀ ec ∈ els, ec.WellFormed Ms "else") :
    ∃ f0, ∀ f, f0 ≤ f → ∀ (s : State) (c : CondIncl) (cs : List CondIncl),
      s.CondIncls = c :: cs → c.Included = false → c.Ctx ≠ .IN_ELSE → s.Macros = Ms →
      ∃ s1 s', preprocess2F env f (chainRest cls els fin (e :: post)) s =
          .ok (sel.map (stamp s1) ++ e :: post, s') ∧
        s'.CondIncls = cs ∧ s'.Macros = Ms := by
  induction hsel with
  | take cl cls els hv =>
    have hcl := hcls cl (List.mem_cons_self _ _)
    have hcls' : ∀ x ∈ cls, x.WellFormed Ms "elif" :=
      fun x hx => hcls x (List.mem_cons_of_mem _ hx)
    obtain ⟨h', d', Y, hR, hb', hh', hk', hd'⟩ :=
      chainRest_head Ms cls els fin (e :: post) hcls' hels hfin
    obtain ⟨f1, hstep⟩ := elif_step env Ms cl hcl true hv h' d' Y hb' hh' hk' hd'
    have ⟨h1, h2, h3, _, _, _, h7, _⟩ := hcl
    refine ⟨f1 + cl.B.length + cls.length + 5, ?_⟩
    intro f hf s c cs hs hinc hctx hM
    obtain ⟨f', rfl⟩ : ∃ f', f = f' + 1 := ⟨f - 1, by omega⟩
    obtain ⟨s2, hd, hM2, hC2⟩ := hstep f' (by omega) s c cs hs hinc hctx hM
    rw [chainRest_cons, hR, preprocess2F_directive env s cl.h _ f' h1 h2 h3, hd]
    simp only [if_true]
    obtain ⟨f'', rfl⟩ : ∃ f'', f' = cl.B.length + f'' := ⟨f' - cl.B.length, by omega⟩
    rw [preprocess2F_plain_front env s2 _ f'' cl.B (by rw [hM2]; exact h7), ← hR,
      chain_included env Ms fin e post he hb hfin hfB els hels cls hcls' s2 _ cs f'' hC2 rfl
        (by simp) (by omega)]
    exact ⟨s2, _, rfl, rfl, hM2⟩
  | skip cl cls els sel hv _ ih =>
    have hcl := hcls cl (List.mem_cons_self _ _)
    have hcls' : ∀ x ∈ cls, x.WellFormed Ms "elif" :=
      fun x hx => hcls x (List.mem_cons_of_mem _ hx)
    obtain ⟨h', d', Y, hR, hb', hh', hk', hd'⟩ :=
      chainRest_head Ms cls els fin (e :: post) hcls' hels hfin
    obtain ⟨f1, hstep⟩ := elif_step env Ms cl hcl false hv h' d' Y hb' hh' hk' hd'
    obtain ⟨f2, hrec⟩ := ih hcls' hels
    have ⟨h1, h2, h3, _, _, _, _, _⟩ := hcl
    refine ⟨f1 + f2 + 1, ?_⟩
    intro f hf s c cs hs hinc hctx hM
    obtain ⟨f', rfl⟩ : ∃ f', f = f' + 1 := ⟨f - 1, by omega⟩
    obtain ⟨s2, hd, hM2, hC2⟩ := hstep f' (by omega) s c cs hs hinc hctx hM
    rw [chainRest_cons, hR, preprocess2F_directive env s cl.h _ f' h1 h2 h3, hd]
    simp only [Bool.false_eq_true, if_false]
    rw [← hR]
    exact hrec f' (by omega) s2 _ cs hC2 rfl (by simp) hM2
  | orElse ec =>
    have hec := hels ec rfl
    have ⟨h1, h2, h3, h4, h5, h6, h7, h8⟩ := hec
    have ⟨g1, g2, g3, g4, _⟩ := hfin
    refine ⟨ec.B.length + 3, ?_⟩
    intro f hf s c cs hs hinc hctx hM
    obtain ⟨f', rfl⟩ : ∃ f', f = f' + 1 := ⟨f - 1, by omega⟩
    rw [chainRest_else]
    obtain ⟨x, xs, hX, hx⟩ := body_starts_line Ms "else" ec hec fin.h
      (fin.d :: (fin.c ++ (fin.B ++ e :: post))) g1
    have hXe : ec.B ++ (fin.toks ++ e :: post) = x :: xs := by
      rw [← hX]
      simp [Clause.toks]
    have hsl : skipLine (ec.c ++ (ec.B ++ (fin.toks ++ e :: post))) =
        .ok (ec.B ++ (fin.toks ++ e :: post)) := by
      rw [hXe]
      exact skipLine_line ec.c x xs (fun t ht => (h6 t ht).1) hx
    have hd : directive env (preprocess2F env f') f' ec.h
        (ec.d :: (ec.c ++ (ec.B ++ (fin.toks ++ e :: post)))) s =
        .ok (ec.B ++ (fin.toks ++ e :: post), setTopCtx s .IN_ELSE) := by
      simp [directive, equal, h4, hs, hctx, hsl, hinc]
    rw [preprocess2F_directive env s ec.h _ f' h1 h2 h3, hd]
    dsimp only
    obtain ⟨f'', rfl⟩ : ∃ f'', f' = ec.B.length + f'' := ⟨f' - ec.B.length, by omega⟩
    have hM2 : (setTopCtx s .IN_ELSE).Macros = Ms := by simp [setTopCtx, hs, hM]
    rw [preprocess2F_plain_front env _ _ f'' ec.B (by rw [hM2]; exact h7),
      endif_step env Ms fin e post he hb hfin hfB (setTopCtx s .IN_ELSE)
        { c with Ctx := .IN_ELSE } cs (by simp [setTopCtx, hs]) f'' (by omega)]
    exact ⟨_, _, rfl, rfl, by simp [setTopCtx, hs, hM]⟩
  | nothing =>
    refine ⟨2, ?_⟩
    intro f hf s c cs hs hinc hctx hM
    rw [chainRest_none, endif_step env Ms fin e post he hb hfin hfB s c cs hs f hf]
    exact ⟨s, _, rfl, rfl, hM⟩

/-- C9: for a well-formed chain (opening `#if`, `#ifdef` or `#ifndef` clause,
`#elif` clauses, optional `#else` clause, `#endif` line, then the EOF) whose
bodies are directive-free and macro-free, `preprocess2` returns for every
sufficient step budget, and its output is the body selected by `Selects` (the
body of the first clause whose condition holds, else the `#else` body, else
nothing) followed by the EOF; conditions behind the taken clause are not
evaluated, and macro table and conditional stack are as before. -/
theorem conditional_chain (env : Env) (st : State) (op : Clause) (cls : List Clause)
    (els : Option Clause) (fin : Clause) (e : Token) (post sel : List Token)
    (hop : op.WellFormed st.Macros op.d.Loc)
    (hname : op.d.Loc = "if" ∨ op.d.Loc = "ifdef" ∨ op.d.Loc = "ifndef")
    (hcls : ∀ cl ∈ cls, cl.WellFormed st.Macros "elif")
    (hels : ∀ ec ∈ els, ec.WellFormed st.Macros "else")
    (hfin : fin.WellFormed st.Macros "endif") (hfB : fin.B = [])
    (he : e.Kind = .TK_EOF) (hb : e.AtBOL = true)
    (hsel : Selects env st.Macros (op :: cls) els sel) :
    ∃ fuel0, ∀ fuel, fuel0 ≤ fuel → ∃ s1 s',
      preprocess2 env fuel (op.toks ++ chainRest cls els fin (e :: post)) st =
        .ok (sel.map (stamp s1) ++ e :: post, s') ∧
      s'.CondIncls = st.CondIncls ∧ s'.Macros = st.Macros := by
  obtain ⟨h', d', Y, hR, hb', hh', hk', hd'⟩ :=
    chainRest_head st.Macros cls els fin (e :: post) hcls hels hfin
  have ⟨h1, h2, h3, _, _, _, h7, _⟩ := hop
  have htoks : op.toks ++ chainRest cls els fin (e :: post) =
      op.h :: op.d :: (op.c ++ (op.B ++ h' :: d' :: Y)) := by
    rw [hR]
    simp [Clause.toks, List.append_assoc]
  unfold preprocess2
  cases hsel with
  | take _ _ _ hv =>
    obtain ⟨f1, hstep⟩ := opening_step env st.Macros op hop hname true hv h' d' Y hb' hh' hk' hd'
    refine ⟨f1 + op.B.length + cls.length + 5, ?_⟩
    intro f hf
    obtain ⟨f', rfl⟩ : ∃ f', f = f' + 1 := ⟨f - 1, by omega⟩
    obtain ⟨s2, tok, hd, hM2, hC2⟩ := hstep f' (by omega) st rfl
    rw [htoks, preprocess2F_directive env st op.h _ f' h1 h2 h3, hd]
    simp only [if_true]
    obtain ⟨f'', rfl⟩ : ∃ f'', f' = op.B.length + f'' := ⟨f' - op.B.length, by omega⟩
    rw [preprocess2F_plain_front env s2 _ f'' op.B (by rw [hM2]; exact h7), ← hR,
      chain_included env st.Macros fin e post he hb hfin hfB els hels cls hcls s2 _ st.CondIncls
        f'' hC2 rfl (by simp) (by omega)]
    exact ⟨s2, _, rfl, rfl, hM2⟩
  | skip _ _ _ _ hv hrest =>
    obtain ⟨f1, hstep⟩ := opening_step env st.Macros op hop hname false hv h' d' Y hb' hh' hk' hd'
    obtain ⟨f2, hrec⟩ := chain_searching env st.Macros fin e post he hb hfin hfB cls els sel hrest
      hcls hels
    refine ⟨f1 + f2 + 1, ?_⟩
    intro f hf
    obtain ⟨f', rfl⟩ : ∃ f', f = f' + 1 := ⟨f - 1, by omega⟩
    obtain ⟨s2, tok, hd, hM2, hC2⟩ := hstep f' (by omega) st rfl
    rw [htoks, preprocess2F_directive env st op.h _ f' h1 h2 h3, hd]
    simp only [Bool.false_eq_true, if_false]
    rw [← hR]
    exact hrec f' (by omega) s2 _ st.CondIncls hC2 rfl (by simp) hM2

theorem sample_condValue (d : Token) (n : String) (hn : n ≠ "defined") :
    CondValue sampleEnv [] d [spc (ppn n)] (if n = "0" then 0 else 1) := by
  refine ⟨3, ?_⟩
  intro f s X hf hM hX hne
  obtain ⟨x, xs, rfl⟩ : ∃ x xs, X = x :: xs := by
    cases X with
    | nil => exact absurd rfl hne
    | cons x xs => exact ⟨x, xs, rfl⟩
  have hx : x.AtBOL = true := hX x (by simp)
  have hpp := preprocess2F_plain sampleEnv s (newEOF x) [] (by simp [newEOF]) [copyToken (spc (ppn n))]
    (by simp [copyToken, spc, ppn, isHash, equal]) f (by simp; omega)
  refine ⟨s, ?_, rfl, rfl⟩
  unfold evalConstExpr readConstExpr
  dsimp only
  rw [copyLine_line [spc (ppn n)] x xs (by simp [spc, ppn]) hx]
  simp only [List.singleton_append] at hpp ⊢
  simp [readConstExprF, equal, copyToken, spc, ppn, newEOF, hn] at hpp ⊢
  rw [hpp]
  simp [stamp, identsToZero, sampleEnv]

/-- Witness for C9: `#if 0`, `a`, `#elif 1`, `b`, `#else`, `c`, `#endif` yields `b`. -/
theorem conditional_chain_witness :
    ∃ fuel0, ∀ fuel, fuel0 ≤ fuel → ∃ s1 s',
      preprocess2 sampleEnv fuel
        (chainOpen.toks ++ chainRest [chainElif] (some chainElse) chainEnd (eof :: [])) {} =
        .ok ([bol (idt "b")].map (stamp s1) ++ eof :: [], s') ∧
      s'.CondIncls = [] ∧ s'.Macros = [] :=
  conditional_chain sampleEnv {} chainOpen [chainElif] (some chainElse) chainEnd eof []
    [bol (idt "b")]
    (by simp [Clause.WellFormed, chainOpen, bol, pun, idt, spc, ppn, isHash, equal, hashmap_get])
    (Or.inl rfl)
    (by simp [Clause.WellFormed, chainElif, bol, pun, idt, spc, ppn, isHash, equal, hashmap_get])
    (by simp [Clause.WellFormed, chainElse, bol, pun, idt, spc, ppn, isHash, equal, hashmap_get])
    (by simp [Clause.WellFormed, chainEnd, bol, pun, idt, spc, ppn, isHash, equal, hashmap_get])
    rfl rfl rfl
    (Selects.skip chainOpen [chainElif] (some chainElse) _
      (by
        unfold Clause.Holds
        simp only [chainOpen, idt]
        exact ⟨0, sample_condValue _ "0" (by decide), by decide⟩)
      (Selects.take chainElif [] (some chainElse)
        (by
          unfold Clause.Holds
          simp only [chainElif, idt]
          exact ⟨1, sample_condValue _ "1" (by decide), by decide⟩)))

/-! ## Stray conditional directives -/

theorem skipLine_not_fatal (T : List Token) (msg : String) :
    skipLine T ≠ .error (.fatal msg) := by
  induction T with
  | nil => simp [skipLine]
  | cons t rest ih =>
    unfold skipLine
    by_cases hb : t.AtBOL = true
    · simp [hb]
    · simpa [hb] using ih

theorem skipCondIncl2F_not_fatal (f : Nat) (T : List Token) (msg : String) :
    skipCondIncl2F f T ≠ .error (.fatal msg) := by
  induction f generalizing T with
  | zero => simp [skipCondIncl2F]
  | succ f ih =>
    cases T with
    | nil => simp [skipCondIncl2F]
    | cons t rest =>
      intro h
      simp only [skipCondIncl2F] at h
      by_cases he : t.Kind = .TK_EOF
      · simp [he] at h
      · simp only [he, if_false] at h
        by_cases hH : isHash t = true
        · simp only [hH, if_true] at h
          cases rest with
          | nil => simp at h
          | cons n rest2 =>
            simp only at h
            by_cases h1 : (equal n "if" || equal n "ifdef" || equal n "ifndef") = true
            · simp only [h1, if_true] at h
              cases hr : skipCondIncl2F f rest2 with
              | error e =>
                simp only [hr] at h
                exact ih rest2 (by rw [hr, h])
              | ok r =>
                simp only [hr] at h
                exact ih r h
            · simp only [h1, if_false] at h
              by_cases h2 : equal n "endif" = true
              · simp [h2] at h
              · simp only [h2, if_false] at h
                exact ih _ h
        · simp only [hH, if_false] at h
          exact ih _ h

theorem skipCondInclF_not_fatal (f : Nat) (T : List Token) (msg : String) :
    skipCondInclF f T ≠ .error (.fatal msg) := by
  induction f generalizing T with
  | zero => simp [skipCondInclF]
  | succ f ih =>
    cases T with
    | nil => simp [skipCondInclF]
    | cons t rest =>
      intro h
      simp only [skipCondInclF] at h
      by_cases he : t.Kind = .TK_EOF
      · simp [he] at h
      · simp only [he, if_false] at h
        by_cases hH : isHash t = true
        · simp only [hH, if_true] at h
          cases rest with
          | nil => simp at h
          | cons n rest2 =>
            simp only at h
            by_cases h1 : (equal n "if" || equal n "ifdef" || equal n "ifndef") = true
            · simp only [h1, if_true] at h
              cases hr : skipCondIncl2 rest2 with
              | error e =>
                simp only [hr] at h
                exact skipCondIncl2F_not_fatal _ rest2 msg (by
                  unfold skipCondIncl2 at hr
                  rw [hr, h])
              | ok r =>
                simp only [hr] at h
                exact ih r h
            · simp only [h1, if_false] at h
              by_cases h2 : (equal n "elif" || equal n "else" || equal n "endif") = true
              · simp [h2] at h
              · simp only [h2, if_false] at h
                exact ih _ h
        · simp only [hH, if_false] at h
          exact ih _ h

theorem skipCondIncl_not_fatal (T : List Token) (msg : String) :
    skipCondIncl T ≠ .error (.fatal msg) :=
  skipCondInclF_not_fatal _ T msg

/-- C11: at a directive `#elif` or `#else`, `preprocess2` fails with the fatal
error `stray #elif` (`stray #else`) when the conditional stack is empty or its
top frame is `IN_ELSE`, and at `#endif` with `stray #endif` when the stack is
empty.  In every other stack situation `#else` and `#endif` raise no fatal
error, and `#elif` raises one only out of the evaluation of its condition
(and only when no earlier branch was included).  The test reads the stack of
the state in which the directive is met, before any store to it. -/
theorem stray_directive (env : Env) (f : Nat) (h d : Token) (rest : List Token) (st : State)
    (hh : HashTok h) :
    (d.Loc = "elif" →
      ((st.CondIncls = [] ∨ ∃ c cs, st.CondIncls = c :: cs ∧ c.Ctx = .IN_ELSE) →
        preprocess2 env (f + 1) (h :: d :: rest) st = .error (.fatal "stray #elif")) ∧
      (∀ c cs, st.CondIncls = c :: cs → c.Ctx ≠ .IN_ELSE → ∀ msg,
        directive env (preprocess2F env f) f h (d :: rest) st = .error (.fatal msg) →
        c.Included = false ∧
          evalConstExpr env (preprocess2F env f) (d :: rest) (setTopCtx st .IN_ELIF) =
            .error (.fatal msg))) ∧
    (d.Loc = "else" →
      ((st.CondIncls = [] ∨ ∃ c cs, st.CondIncls = c :: cs ∧ c.Ctx = .IN_ELSE) →
        preprocess2 env (f + 1) (h :: d :: rest) st = .error (.fatal "stray #else")) ∧
      (∀ c cs, st.CondIncls = c :: cs → c.Ctx ≠ .IN_ELSE → ∀ msg,
        directive env (preprocess2F env f) f h (d :: rest) st ≠ .error (.fatal msg))) ∧
    (d.Loc = "endif" →
      (st.CondIncls = [] →
        preprocess2 env (f + 1) (h :: d :: rest) st = .error (.fatal "stray #endif")) ∧
      (st.CondIncls ≠ [] → ∀ msg,
        directive env (preprocess2F env f) f h (d :: rest) st ≠ .error (.fatal msg))) := by
  have hp := preprocess2F_directive env st h (d :: rest) f hh.1 hh.2.1 hh.2.2
  refine ⟨?_, ?_, ?_⟩
  · intro hd
    have hdir : directive env (preprocess2F env f) f h (d :: rest) st =
        (match st.CondIncls with
          | [] => .error (.fatal "stray #elif")
          | c :: _ =>
            if c.Ctx = .IN_ELSE then .error (.fatal "stray #elif")
            else if c.Included then
              match skipCondIncl (d :: rest) with
              | .error e => .error e
              | .ok Tok2 => .ok (Tok2, setTopCtx st .IN_ELIF)
            else
              match evalConstExpr env (preprocess2F env f) (d :: rest) (setTopCtx st .IN_ELIF) with
              | .error e => .error e
              | .ok (Val, Tok1, st1) =>
                if Val ≠ 0 then
                  match st1.CondIncls with
                  | [] => .error .crash
                  | _ :: _ => .ok (Tok1, setTopIncluded st1)
                else
                  match skipCondIncl Tok1 with
                  | .error e => .error e
                  | .ok Tok2 => .ok (Tok2, st1)) := by
      simp only [directive, equal, hd]
      simp only [String.reduceBEq, Bool.false_eq_true, if_false, beq_self_eq_true, if_true]
    constructor
    · intro hs
      unfold preprocess2
      rw [hp, hdir]
      rcases hs with hs | ⟨c, cs, hs, hc⟩
      · simp [hs]
      · simp [hs, hc]
    · intro c cs hs hc msg hm
      rw [hdir] at hm
      simp only [hs, hc, if_false] at hm
      by_cases hinc : c.Included = true
      · simp only [hinc, if_true] at hm
        cases hk : skipCondIncl (d :: rest) with
        | error e =>
          simp only [hk] at hm
          exact absurd (by rw [hk, Except.error.inj hm]) (skipCondIncl_not_fatal (d :: rest) msg)
        | ok r => simp [hk] at hm
      · simp only [hinc, Bool.false_eq_true, if_false] at hm
        refine ⟨by simpa using hinc, ?_⟩
        cases he : evalConstExpr env (preprocess2F env f) (d :: rest) (setTopCtx st .IN_ELIF) with
        | error e =>
          simp only [he] at hm
          rw [Except.error.inj hm]
        | ok p =>
          obtain ⟨Val, Tok1, st1⟩ := p
          simp only [he] at hm
          by_cases hv : Val = 0
          · simp only [hv, ne_eq, not_true_eq_false, if_false] at hm
            cases hk : skipCondIncl Tok1 with
            | error e =>
              simp only [hk] at hm
              exact absurd (by rw [hk, Except.error.inj hm]) (skipCondIncl_not_fatal Tok1 msg)
            | ok r => simp [hk] at hm
          · simp only [ne_eq, hv, not_false_eq_true, if_true] at hm
            cases hc1 : st1.CondIncls with
            | nil => simp [hc1] at hm
            | cons c1 cs1 => simp [hc1] at hm
  · intro hd
    have hdir : directive env (preprocess2F env f) f h (d :: rest) st =
        (match st.CondIncls with
          | [] => .error (.fatal "stray #else")
          | c :: _ =>
            if c.Ctx = .IN_ELSE then .error (.fatal "stray #else")
            else
              match skipLine rest with
              | .error e => .error e
              | .ok Tok1 =>
                if c.Included then
                  match skipCondIncl Tok1 with
                  | .error e => .error e
                  | .ok Tok2 => .ok (Tok2, setTopCtx st .IN_ELSE)
                else .ok (Tok1, setTopCtx st .IN_ELSE)) := by
      simp only [directive, equal, hd]
      simp only [String.reduceBEq, Bool.false_eq_true, if_false, beq_self_eq_true, if_true]
    constructor
    · intro hs
      unfold preprocess2
      rw [hp, hdir]
      rcases hs with hs | ⟨c, cs, hs, hc⟩
      · simp [hs]
      · simp [hs, hc]
    · intro c cs hs hc msg hm
      rw [hdir] at hm
      simp only [hs, hc, if_false] at hm
      cases hl : skipLine rest with
      | error e =>
        simp only [hl] at hm
        exact absurd (by rw [hl, Except.error.inj hm]) (skipLine_not_fatal rest msg)
      | ok Tok1 =>
        simp only [hl] at hm
        by_cases hinc : c.Included = true
        · simp only [hinc, if_true] at hm
          cases hk : skipCondIncl Tok1 with
          | error e =>
            simp only [hk] at hm
            exact absurd (by rw [hk, Except.error.inj hm]) (skipCondIncl_not_fatal Tok1 msg)
          | ok r => simp [hk] at hm
        · simp [hinc] at hm
  · intro hd
    have hdir : directive env (preprocess2F env f) f h (d :: rest) st =
        (match st.CondIncls with
          | [] => .error (.fatal "stray #endif")
          | _ :: cs =>
            match skipLine rest with
            | .error e => .error e
            | .ok Tok1 => .ok (Tok1, { st with CondIncls := cs })) := by
      simp only [directive, equal, hd]
      simp only [String.reduceBEq, Bool.false_eq_true, if_false, beq_self_eq_true, if_true]
    constructor
    · intro hs
      unfold preprocess2
      rw [hp, hdir]
      simp [hs]
    · intro hs msg hm
      rw [hdir] at hm
      cases hc : st.CondIncls with
      | nil => exact hs hc
      | cons c cs =>
        simp only [hc] at hm
        cases hl : skipLine rest with
        | error e =>
          simp only [hl] at hm
          exact absurd (by rw [hl, Except.error.inj hm]) (skipLine_not_fatal rest msg)
        | ok Tok1 => simp [hl] at hm

/-- Witness for C11: the line `#endif` met with the empty stack. -/
theorem stray_directive_witness :
    preprocess2 sampleEnv 1 [bol (pun "#"), idt "endif", eof] {} =
      .error (.fatal "stray #endif") :=
  ((stray_directive sampleEnv 0 (bol (pun "#")) (idt "endif") [eof] {} ⟨rfl, rfl, rfl⟩).2.2
    rfl).1 rfl

/-! ## Reading macro arguments -/

theorem parenDepth_append (p q : List Token) :
    parenDepth (p ++ q) = parenDepth p + parenDepth q := by
  induction p with
  | nil => simp [parenDepth]
  | cons t p ih =>
    show parenDepth (t :: (p ++ q)) = parenDepth (t :: p) + parenDepth q
    simp only [parenDepth, ih]
    omega

theorem argBodyB_sound (ReadRest : Bool) (L : Nat) (a : List Token)
    (h : argBodyB ReadRest (L : Int) a = true) : ArgBody ReadRest L a := by
  suffices H : ∀ (a : List Token) (L : Int), argBodyB ReadRest L a = true →
      (∀ t ∈ a, t.Kind ≠ .TK_EOF) ∧
      ∀ p t s, a = p ++ t :: s → L + parenDepth p = 0 → Delim ReadRest t = false from H a L h
  intro a
  induction a with
  | nil =>
    intro L _
    refine ⟨by simp, ?_⟩
    intro p t s hp
    simp at hp
  | cons x a ih =>
    intro L hL
    simp only [argBodyB, Bool.and_eq_true, decide_eq_true_eq, Bool.not_eq_true'] at hL
    obtain ⟨⟨hx, hd⟩, hrest⟩ := hL
    obtain ⟨i1, i2⟩ := ih _ hrest
    refine ⟨?_, ?_⟩
    · intro t ht
      rcases List.mem_cons.1 ht with rfl | ht
      · exact hx
      · exact i1 t ht
    · intro p t s hp hz
      cases p with
      | nil =>
        simp only [List.nil_append, List.cons.injEq] at hp
        obtain ⟨rfl, _⟩ := hp
        simp only [parenDepth, add_zero] at hz
        simpa [hz] using hd
      | cons y p =>
        simp only [List.cons_append, List.cons.injEq] at hp
        obtain ⟨rfl, hp⟩ := hp
        refine i2 p t s hp ?_
        simp only [parenDepth] at hz
        omega

theorem argBody_step (ReadRest : Bool) (L : Nat) (x : Token) (a : List Token)
    (h : ArgBody ReadRest L (x :: a)) :
    x.Kind ≠ .TK_EOF ∧ (L = 0 → Delim ReadRest x = false) ∧
      ((if equal x "(" then L + 1 else if equal x ")" then L - 1 else L : Nat) : Int) =
        (L : Int) + parenStep x ∧
      ArgBody ReadRest (if equal x "(" then L + 1 else if equal x ")" then L - 1 else L) a := by
  obtain ⟨h1, h2⟩ := h
  have hx : L = 0 → Delim ReadRest x = false := by
    intro hL
    exact h2 [] x a rfl (by simp [parenDepth, hL])
  have hlev : ((if equal x "(" then L + 1 else if equal x ")" then L - 1 else L : Nat) : Int) =
      (L : Int) + parenStep x := by
    unfold parenStep
    by_cases ho : equal x "(" = true
    · simp [ho]
    · by_cases hc : equal x ")" = true
      · have hL : L ≠ 0 := by
          intro hL
          have := hx hL
          simp [Delim, hc] at this
        simp only [ho, hc, Bool.false_eq_true, if_false, if_true]
        omega
      · simp [ho, hc]
  refine ⟨h1 x (List.mem_cons_self _ _), hx, hlev, ?_, ?_⟩
  · exact fun t ht => h1 t (List.mem_cons_of_mem _ ht)
  · intro p t s hp hz
    refine h2 (x :: p) t s (by simp [hp]) ?_
    simp only [parenDepth]
    rw [hlev] at hz
    omega

theorem readMacroArgOneL_body (ReadRest : Bool) (a : List Token) (d : Token)
    (rest : List Token) (L : Nat) (ha : ArgBody ReadRest L a)
    (hz : (L : Int) + parenDepth a = 0) (hd : Delim ReadRest d = true) :
    readMacroArgOneL (a ++ d :: rest) ReadRest L =
      .ok ({ Name := "", Tok := a ++ [newEOF d] }, d :: rest) := by
  induction a generalizing L with
  | nil =>
    have hL : L = 0 := by
      simp only [parenDepth, add_zero] at hz
      omega
    subst hL
    simp only [Delim, Bool.or_eq_true, Bool.and_eq_true, Bool.not_eq_true'] at hd
    rcases hd with hd | ⟨h1, h2⟩
    · simp [readMacroArgOneL, hd]
    · by_cases hc : equal d ")" = true
      · simp [readMacroArgOneL, hc]
      · simp [readMacroArgOneL, hc, h1, h2]
  | cons x a ih =>
    obtain ⟨k1, k2, k3, k4⟩ := argBody_step ReadRest L x a ha
    have hz2 : ((if equal x "(" then L + 1 else if equal x ")" then L - 1 else L : Nat) : Int)
        + parenDepth a = 0 := by
      rw [k3]
      simp only [parenDepth] at hz
      omega
    have b1 : (L == 0 && equal x ")") = false := by
      by_cases hL : L = 0
      · have := k2 hL
        simp only [Delim, Bool.or_eq_false_iff] at this
        simp [this.1]
      · simp [hL]
    have b2 : (L == 0 && !ReadRest && equal x ",") = false := by
      by_cases hL : L = 0
      · have := k2 hL
        simp only [Delim, Bool.or_eq_false_iff] at this
        cases ReadRest <;> simp_all
      · simp [hL]
    show readMacroArgOneL (x :: (a ++ d :: rest)) ReadRest L = _
    rw [readMacroArgOneL]
    simp only [b1, b2, Bool.false_eq_true, if_false, k1, ih _ k4 hz2, copyToken,
      List.cons_append]

theorem readMacroArgOneL_eof (ReadRest : Bool) (a : List Token) (e : Token)
    (rest : List Token) (L : Nat) (ha : ArgBody ReadRest L a) (he : e.Kind = .TK_EOF)
    (hd : (L : Int) + parenDepth a = 0 → Delim ReadRest e = false) :
    readMacroArgOneL (a ++ e :: rest) ReadRest L = .error (.fatal "premature end of input") := by
  induction a generalizing L with
  | nil =>
    by_cases hL : L = 0
    · have := hd (by simp [parenDepth, hL])
      simp only [Delim, Bool.or_eq_false_iff] at this
      subst hL
      cases ReadRest <;> simp_all [readMacroArgOneL]
    · simp [readMacroArgOneL, hL, he]
  | cons x a ih =>
    obtain ⟨k1, k2, k3, k4⟩ := argBody_step ReadRest L x a ha
    have hd2 : ((if equal x "(" then L + 1 else if equal x ")" then L - 1 else L : Nat) : Int)
        + parenDepth a = 0 → Delim ReadRest e = false := by
      intro hz
      apply hd
      rw [k3] at hz
      simp only [parenDepth]
      omega
    have b1 : (L == 0 && equal x ")") = false := by
      by_cases hL : L = 0
      · have := k2 hL
        simp only [Delim, Bool.or_eq_false_iff] at this
        simp [this.1]
      · simp [hL]
    have b2 : (L == 0 && !ReadRest && equal x ",") = false := by
      by_cases hL : L = 0
      · have := k2 hL
        simp only [Delim, Bool.or_eq_false_iff] at this
        cases ReadRest <;> simp_all
      · simp [hL]
    show readMacroArgOneL (x :: (a ++ e :: rest)) ReadRest L = _
    rw [readMacroArgOneL]
    simp only [b1, b2, Bool.false_eq_true, if_false, k1, ih _ k4 hd2]

theorem argBody_balanced (ReadRest : Bool) (a : List Token) (L : Nat)
    (ha : ArgBody ReadRest L a) : ∀ p s, a = p ++ s → 0 ≤ (L : Int) + parenDepth p := by
  induction a generalizing L with
  | nil =>
    intro p s hp
    have : p = [] := by
      cases p with
      | nil => rfl
      | cons y p => simp at hp
    subst this
    simp [parenDepth]
  | cons x a ih =>
    intro p s hp
    obtain ⟨_, _, k3, k4⟩ := argBody_step ReadRest L x a ha
    cases p with
    | nil => simp [parenDepth]
    | cons y p =>
      simp only [List.cons_append, List.cons.injEq] at hp
      obtain ⟨rfl, hp⟩ := hp
      have := ih _ k4 p s hp
      rw [k3] at this
      simp only [parenDepth]
      omega

/-- C13: with `ReadRest = false`, when `d` is the first `,` or `)` at
parenthesis depth 0 behind the tokens `a` (no token of `a` is an EOF, a `,` or
`)` at depth 0), `readMacroArgOne` returns the tokens `a` followed by a new EOF
and leaves `*Rest` at `d`, and `a` has balanced parentheses; when instead an
EOF token stands behind `a`, it fails with `premature end of input`. -/
theorem readMacroArgOne_first_delimiter (a : List Token) (d : Token) (rest : List Token)
    (ha : ArgBody false 0 a) :
    (parenDepth a = 0 → Delim false d = true →
      readMacroArgOne (a ++ d :: rest) false =
        .ok ({ Name := "", Tok := a ++ [newEOF d] }, d :: rest) ∧
      (newEOF d).Kind = .TK_EOF ∧ BalancedParens a) ∧
    (d.Kind = .TK_EOF → (parenDepth a = 0 → Delim false d = false) →
      readMacroArgOne (a ++ d :: rest) false = .error (.fatal "premature end of input")) := by
  constructor
  · intro hz hd
    refine ⟨readMacroArgOneL_body false a d rest 0 ha (by simpa using hz) hd, rfl, hz, ?_⟩
    intro p s hp
    simpa using argBody_balanced false a 0 ha p s hp
  · intro he hd
    exact readMacroArgOneL_eof false a d rest 0 ha he (by simpa using hd)

/-- Witness for C13: the argument `1 ( , )` of `f(1 ( , ), 2)`, and the
unterminated `f(1`. -/
theorem readMacroArgOne_first_delimiter_witness :
    readMacroArgOne ([ppn "1", pun "(", pun ",", pun ")"] ++ pun "," :: [ppn "2", pun ")", eof])
        false =
      .ok ({ Name := "", Tok := [ppn "1", pun "(", pun ",", pun ")"] ++ [newEOF (pun ",")] },
        pun "," :: [ppn "2", pun ")", eof]) ∧
    readMacroArgOne ([ppn "1"] ++ eof :: []) false = .error (.fatal "premature end of input") :=
  ⟨((readMacroArgOne_first_delimiter [ppn "1", pun "(", pun ",", pun ")"] (pun ",")
      [ppn "2", pun ")", eof] (argBodyB_sound false 0 _ (by decide))).1 (by decide)
      (by decide)).1,
   (readMacroArgOne_first_delimiter [ppn "1"] eof [] (argBodyB_sound false 0 _ (by decide))).2
      (by decide) (fun _ => by decide)⟩

theorem chained_tail (s : List Token × Token) (segs : List (List Token × Token))
    (h : Chained (s :: segs)) : Seg s ∧ Chained segs ∧ (segs ≠ [] → equal s.2 "," = true) := by
  cases segs with
  | nil => exact ⟨h, trivial, fun hn => absurd rfl hn⟩
  | cons s1 segs => exact ⟨h.1, h.2.2, fun _ => h.2.1⟩

theorem readMacroArgOne_seg (s : List Token × Token) (X : List Token) (hs : Seg s) :
    readMacroArgOne (s.1 ++ s.2 :: X) false =
      .ok ({ Name := "", Tok := s.1 ++ [newEOF s.2] }, s.2 :: X) :=
  readMacroArgOneL_body false s.1 s.2 X 0 hs.1 (by simpa using hs.2.1) hs.2.2

theorem readMacroArgsLoop_comma (p : String) (PP : List String) (c : Token) (Y : List Token)
    (hc : equal c "," = true) :
    readMacroArgsLoop (p :: PP) false (c :: Y) = readMacroArgsLoop (p :: PP) true Y := by
  simp [readMacroArgsLoop, skip, hc]

theorem readMacroArgsLoop_ok (tail : List Token) (PP : List String)
    (segs : List (List Token × Token)) (hlen : PP.length = segs.length) (hch : Chained segs) :
    readMacroArgsLoop PP true (argStream segs tail) =
      .ok (zipArgs PP segs, lastRest segs tail) := by
  induction segs generalizing PP with
  | nil =>
    cases PP with
    | nil => simp [readMacroArgsLoop, argStream, zipArgs, lastRest]
    | cons p PP => simp at hlen
  | cons s segs ih =>
    cases PP with
    | nil => simp at hlen
    | cons p PP =>
      obtain ⟨h1, h2, h3⟩ := chained_tail s segs hch
      have hlen2 : PP.length = segs.length := by simpa using hlen
      rw [readMacroArgsLoop]
      simp only [if_true, argStream, readMacroArgOne_seg s _ h1]
      cases segs with
      | nil =>
        cases PP with
        | nil => simp [readMacroArgsLoop, argStream, zipArgs, lastRest]
        | cons p1 PP => simp at hlen2
      | cons s1 segs =>
        cases PP with
        | nil => simp at hlen2
        | cons p1 PP =>
          rw [readMacroArgsLoop_comma p1 PP s.2 _ (h3 (by simp)), ih (p1 :: PP) hlen2 h2]
          simp [zipArgs, lastRest]

theorem readMacroArgsLoop_few (tail : List Token) (PP : List String)
    (segs : List (List Token × Token)) (hne : segs ≠ []) (hlen : segs.length < PP.length)
    (hch : Chained segs) (hlast : ∀ s ∈ segs.getLast?, equal s.2 ")" = true) :
    ∃ msg, readMacroArgsLoop PP true (argStream segs tail) = .error (.fatal msg) := by
  induction segs generalizing PP with
  | nil => exact absurd rfl hne
  | cons s segs ih =>
    cases PP with
    | nil => simp at hlen
    | cons p PP =>
      obtain ⟨h1, h2, h3⟩ := chained_tail s segs hch
      have hlen2 : segs.length < PP.length := by simpa using hlen
      rw [readMacroArgsLoop]
      simp only [if_true, argStream, readMacroArgOne_seg s _ h1]
      cases PP with
      | nil => simp at hlen2
      | cons p1 PP =>
        cases segs with
        | nil =>
          have hc : equal s.2 ")" = true := hlast s (by simp)
          have hc2 : equal s.2 "," = false := by
            simp only [equal, beq_iff_eq] at hc
            simp [equal, hc]
          exact ⟨"expected ','", by simp [readMacroArgsLoop, argStream, skip, hc2]⟩
        | cons s1 segs =>
          obtain ⟨msg, hm⟩ := ih (p1 :: PP) (by simp) hlen2 h2
            (fun x hx => hlast x (by simpa [List.getLast?_cons_cons] using hx))
          rw [readMacroArgsLoop_comma p1 PP s.2 _ (h3 (by simp)), hm]
          exact ⟨msg, rfl⟩

theorem argStream_append (s1 s2 : List (List Token × Token)) (tail : List Token) :
    argStream (s1 ++ s2) tail = argStream s1 (argStream s2 tail) := by
  induction s1 with
  | nil => rfl
  | cons s s1 ih => simp [argStream, ih]

theorem chained_append_left (s1 s2 : List (List Token × Token)) (h : Chained (s1 ++ s2)) :
    Chained s1 := by
  induction s1 with
  | nil => trivial
  | cons s s1 ih =>
    obtain ⟨h1, h2, h3⟩ := chained_tail s (s1 ++ s2) h
    cases s1 with
    | nil => exact h1
    | cons x s1 => exact ⟨h1, h3 (by simp), ih h2⟩

theorem lastRest_comma (s1 s2 : List (List Token × Token)) (tail : List Token)
    (h1 : s1 ≠ []) (h2 : s2 ≠ []) (h : Chained (s1 ++ s2)) :
    ∃ c Y, lastRest s1 tail = c :: Y ∧ equal c "," = true := by
  induction s1 with
  | nil => exact absurd rfl h1
  | cons s s1 ih =>
    obtain ⟨k1, k2, k3⟩ := chained_tail s (s1 ++ s2) h
    cases s1 with
    | nil => exact ⟨s.2, tail, rfl, k3 (by simpa using h2)⟩
    | cons x s1 => exact ih (by simp) k2

theorem lastRest_getLast (segs : List (List Token × Token)) (tail : List Token)
    (s : List Token × Token) (h : segs.getLast? = some s) : lastRest segs tail = s.2 :: tail := by
  induction segs with
  | nil => simp at h
  | cons x segs ih =>
    cases segs with
    | nil =>
      simp at h
      subst h
      rfl
    | cons y segs =>
      rw [List.getLast?_cons_cons] at h
      exact ih h

theorem zipArgs_names (PP : List String) (segs : List (List Token × Token))
    (hlen : PP.length = segs.length) : (zipArgs PP segs).map (fun A => A.Name) = PP := by
  induction segs generalizing PP with
  | nil =>
    cases PP with
    | nil => rfl
    | cons p PP => simp at hlen
  | cons s segs ih =>
    cases PP with
    | nil => simp at hlen
    | cons p PP => simp [zipArgs, ih PP (by simpa using hlen)]

theorem skip_not (c : Token) (Y : List Token) (str : String) (h : equal c str = false) :
    skip (c :: Y) str = .error (.fatal ("expected '" ++ str ++ "'")) := by
  simp [skip, h]

theorem argStream_head_not_close (segs : List (List Token × Token)) (rest : List Token)
    (last : List Token × Token) (hch : Chained segs) (hlast : segs.getLast? = some last)
    (hne : segs ≠ [([], last.2)]) :
    ∃ c Y, argStream segs rest = c :: Y ∧ equal c ")" = false := by
  cases segs with
  | nil => simp at hlast
  | cons s segs =>
    obtain ⟨h1, h2, h3⟩ := chained_tail s segs hch
    cases hs : s.1 with
    | nil =>
      cases segs with
      | nil =>
        simp at hlast
        subst hlast
        exact absurd (by rw [← hs]) hne
      | cons s1 segs =>
        have hc := h3 (by simp)
        refine ⟨s.2, argStream (s1 :: segs) rest, by simp [argStream, hs], ?_⟩
        simp only [equal, beq_iff_eq] at hc
        simp [equal, hc]
    | cons x a =>
      refine ⟨x, a ++ s.2 :: argStream segs rest, by simp [argStream, hs], ?_⟩
      have := h1.1.2 [] x a (by simp [hs]) (by simp [parenDepth])
      simp only [Delim, Bool.or_eq_false_iff] at this
      exact this.1

/-- C12: for a non-variadic macro with the parameters `Params` and an invocation
whose parentheses hold the arguments `segs` (at least one, separated by commas
at depth 0, the last one ended by the closing parenthesis): `readMacroArgs`
returns one argument per parameter, named after the parameters in order, when
the numbers agree; it accepts the empty parentheses for a macro without
parameters; in every other case it fails with a fatal error. -/
theorem readMacroArgs_arity (name lp : Token) (segs : List (List Token × Token))
    (rest : List Token) (Params : List String) (last : List Token × Token)
    (hch : Chained segs) (hlast : segs.getLast? = some last) (hrp : equal last.2 ")" = true) :
    (Params.length = segs.length →
      readMacroArgs (name :: lp :: argStream segs rest) Params none =
        .ok (zipArgs Params segs, last.2 :: rest) ∧
      (zipArgs Params segs).map (fun A => A.Name) = Params) ∧
    (Params = [] → segs = [([], last.2)] →
      readMacroArgs (name :: lp :: argStream segs rest) Params none =
        .ok ([], last.2 :: rest)) ∧
    (Params.length ≠ segs.length → ¬ (Params = [] ∧ segs = [([], last.2)]) →
      ∃ msg, readMacroArgs (name :: lp :: argStream segs rest) Params none =
        .error (.fatal msg)) := by
  have hne : segs ≠ [] := by
    intro h
    simp [h] at hlast
  refine ⟨?_, ?_, ?_⟩
  · intro hlen
    refine ⟨?_, zipArgs_names Params segs hlen⟩
    simp [readMacroArgs, readMacroArgsLoop_ok rest Params segs hlen hch,
      lastRest_getLast segs rest last hlast, skip, hrp]
  · intro hp hs
    subst hp
    rw [hs]
    simp [readMacroArgs, readMacroArgsLoop, argStream, skip, hrp]
  · intro hlen hnot
    rcases Nat.lt_or_gt_of_ne hlen with hlt | hgt
    · cases Params with
      | nil =>
        obtain ⟨c, Y, hs, hc⟩ := argStream_head_not_close segs rest last hch hlast
          (fun h => hnot ⟨rfl, h⟩)
        exact ⟨"expected ')'", by simp [readMacroArgs, readMacroArgsLoop, hs, skip, hc]⟩
      | cons p PP =>
        have hsplit : segs = segs.take (p :: PP).length ++ segs.drop (p :: PP).length :=
          (List.take_append_drop _ _).symm
        have ht : (p :: PP).length = (segs.take (p :: PP).length).length := by
          rw [List.length_take]
          omega
        have hch2 : Chained (segs.take (p :: PP).length ++ segs.drop (p :: PP).length) := by
          rw [← hsplit]
          exact hch
        have hch1 := chained_append_left _ _ hch2
        obtain ⟨c, Y, hl, hc⟩ := lastRest_comma (segs.take (p :: PP).length)
          (segs.drop (p :: PP).length) (argStream (segs.drop (p :: PP).length) rest)
          (by
            intro h
            rw [h] at ht
            simp at ht)
          (by
            intro h
            have := congrArg List.length h
            rw [List.length_drop] at this
            simp at this
            simp at hlt
            omega)
          hch2
        have hc2 : equal c ")" = false := by
          simp only [equal, beq_iff_eq] at hc
          simp [equal, hc]
        have hstream : argStream segs rest =
            argStream (segs.take (p :: PP).length)
              (argStream (segs.drop (p :: PP).length) rest) := by
          rw [← argStream_append, ← hsplit]
        refine ⟨"expected ')'", ?_⟩
        simp only [readMacroArgs]
        rw [hstream, readMacroArgsLoop_ok _ (p :: PP) _ ht hch1, hl]
        simp [skip, hc2]
    · obtain ⟨msg, hm⟩ := readMacroArgsLoop_few rest Params segs hne hgt hch
        (fun x hx => by
          rw [hlast] at hx
          simp at hx
          subst hx
          exact hrp)
      exact ⟨msg, by simp [readMacroArgs, hm]⟩

/-- Witness for C12: `f(1, 2)` for the parameters `x, y` and for the parameter `x`. -/
theorem readMacroArgs_arity_witness :
    readMacroArgs (idt "f" :: pun "(" ::
        argStream [([ppn "1"], pun ","), ([ppn "2"], pun ")")] [eof]) ["x", "y"] none =
      .ok (zipArgs ["x", "y"] [([ppn "1"], pun ","), ([ppn "2"], pun ")")], pun ")" :: [eof]) ∧
    ∃ msg, readMacroArgs (idt "f" :: pun "(" ::
        argStream [([ppn "1"], pun ","), ([ppn "2"], pun ")")] [eof]) ["x"] none =
      .error (.fatal msg) :=
  have hch : Chained [([ppn "1"], pun ","), ([ppn "2"], pun ")")] :=
    ⟨⟨argBodyB_sound false 0 _ (by decide), by decide, by decide⟩, by decide,
      ⟨argBodyB_sound false 0 _ (by decide), by decide, by decide⟩⟩
  ⟨((readMacroArgs_arity (idt "f") (pun "(") [([ppn "1"], pun ","), ([ppn "2"], pun ")")] [eof]
      ["x", "y"] ([ppn "2"], pun ")") hch rfl (by decide)).1 rfl).1,
   (readMacroArgs_arity (idt "f") (pun "(") [([ppn "1"], pun ","), ([ppn "2"], pun ")")] [eof]
      ["x"] ([ppn "2"], pun ")") hch rfl (by decide)).2.2 (by decide) (by simp)⟩

/-- C14: for a variadic macro with the named parameters `Params` and the name
`va` of the variadic tail, on an invocation that gives every named parameter
its argument: `readMacroArgs` returns the named arguments and, last, an
argument named `va` with `IsVaArg` set.  When each named argument is followed
by a comma, the last argument holds all tokens `v` up to the closing
parenthesis, commas at depth 0 included (for `v` empty it is the EOF alone);
when the closing parenthesis follows the last named argument, it is the EOF
alone. -/
theorem readMacroArgs_variadic (name lp : Token) (segs : List (List Token × Token))
    (rest : List Token) (Params : List String) (va : String)
    (hlen : Params.length = segs.length) (hch : Chained segs) :
    (∀ (v : List Token) (rp : Token), (∀ s ∈ segs, equal s.2 "," = true) →
      ArgBody true 0 v → parenDepth v = 0 → equal rp ")" = true →
      readMacroArgs (name :: lp :: argStream segs (v ++ rp :: rest)) Params (some va) =
        .ok (zipArgs Params segs ++ [{ Name := va, IsVaArg := true, Tok := v ++ [newEOF rp] }],
          rp :: rest)) ∧
    (∀ last, segs.getLast? = some last → equal last.2 ")" = true →
      readMacroArgs (name :: lp :: argStream segs rest) Params (some va) =
        .ok (zipArgs Params segs ++ [{ Name := va, IsVaArg := true, Tok := [newEOF last.2] }],
          last.2 :: rest)) := by
  constructor
  · intro v rp hcomma hv hvz hrp
    have hloop := readMacroArgsLoop_ok (v ++ rp :: rest) Params segs hlen hch
    have hread : readMacroArgOne (v ++ rp :: rest) true =
        .ok ({ Name := "", Tok := v ++ [newEOF rp] }, rp :: rest) :=
      readMacroArgOneL_body true v rp rest 0 hv (by simpa using hvz) (by simp [Delim, hrp])
    simp only [readMacroArgs, hloop]
    cases hs : segs.getLast? with
    | none =>
      have hsegs : segs = [] := List.getLast?_eq_none_iff.1 hs
      subst hsegs
      have hP : Params = [] := List.length_eq_zero.1 (by simpa using hlen)
      subst hP
      cases v with
      | nil => simp [lastRest, zipArgs, hrp]
      | cons x v =>
        have hx : equal x ")" = false := by
          have := hv.2 [] x v rfl (by simp [parenDepth])
          simpa [Delim] using this
        have hread2 : readMacroArgOne (x :: (v ++ rp :: rest)) true =
            .ok ({ Name := "", Tok := x :: (v ++ [newEOF rp]) }, rp :: rest) := by
          simpa using hread
        simp [lastRest, zipArgs, hx, hread2, skip, hrp]
    | some last =>
      have hmem : last ∈ segs := List.mem_of_getLast?_eq_some hs
      have hc := hcomma last hmem
      have hc2 : equal last.2 ")" = false := by
        simp only [equal, beq_iff_eq] at hc
        simp [equal, hc]
      have hP : Params ≠ [] := by
        intro h
        rw [h] at hlen
        have : segs = [] := List.length_eq_zero.1 (by simpa using hlen.symm)
        rw [this] at hs
        simp at hs
      rw [lastRest_getLast segs _ last hs]
      simp [hc2, hP, skip, hc, hread, hrp]
  · intro last hlast hrp
    have hloop := readMacroArgsLoop_ok rest Params segs hlen hch
    simp [readMacroArgs, hloop, lastRest_getLast segs rest last hlast, hrp]

/-- Witness for C14: `f(1, 2, 3)` and `f(1)` for `#define f(x, ...)`. -/
theorem readMacroArgs_variadic_witness :
    readMacroArgs (idt "f" :: pun "(" ::
        argStream [([ppn "1"], pun ",")] ([ppn "2", pun ",", ppn "3"] ++ pun ")" :: [eof]))
        ["x"] (some "__VA_ARGS__") =
      .ok (zipArgs ["x"] [([ppn "1"], pun ",")] ++
          [{ Name := "__VA_ARGS__", IsVaArg := true,
             Tok := [ppn "2", pun ",", ppn "3"] ++ [newEOF (pun ")")] }], pun ")" :: [eof]) ∧
    readMacroArgs (idt "f" :: pun "(" :: argStream [([ppn "1"], pun ")")] [eof])
        ["x"] (some "__VA_ARGS__") =
      .ok (zipArgs ["x"] [([ppn "1"], pun ")")] ++
          [{ Name := "__VA_ARGS__", IsVaArg := true, Tok := [newEOF (pun ")")] }],
        pun ")" :: [eof]) :=
  ⟨(readMacroArgs_variadic (idt "f") (pun "(") [([ppn "1"], pun ",")] [eof] ["x"] "__VA_ARGS__"
      rfl ⟨argBodyB_sound false 0 _ (by decide), by decide, by decide⟩).1
      [ppn "2", pun ",", ppn "3"] (pun ")") (by decide) (argBodyB_sound true 0 _ (by decide))
      (by decide) (by decide),
   (readMacroArgs_variadic (idt "f") (pun "(") [([ppn "1"], pun ")")] [eof] ["x"] "__VA_ARGS__"
      rfl ⟨argBodyB_sound false 0 _ (by decide), by decide, by decide⟩).2
      ([ppn "1"], pun ")") rfl (by decide)⟩

/-! ## `__VA_OPT__` and `##` at the end of a body -/

/-- C15: with the variadic tail declared as `args...`, `__VA_OPT__(x)` expands
to nothing although the variadic argument `1` is not empty: for every lexer, the run on
`#define f(args...) __VA_OPT__(x)` and `f(1)` returns the EOF alone.  With the
tail declared as `...` the same invocation yields `x`. -/
theorem vaOpt_named_tail_dropped (env : Env) :
    locs (preprocess2 env 30 vaOptNamedInput {}) = some [""] ∧
    locs (preprocess2 env 30 vaOptDotsInput {}) = some ["x", ""] := by
  constructor <;> rfl

/-- C17: on `#define f(x) x##` and `f()` the `##` is the last token of the body,
and `subst` runs into the `NULL` pointer behind the body's EOF instead of
reporting the error; with a non-empty argument (`f(1)`) the error is reported. -/
theorem paste_at_end_empty_operand (env : Env) :
    preprocess2 env 30 pasteEndEmptyInput {} = .error .crash ∧
    preprocess2 env 30 pasteEndInput {} =
      .error (.fatal "'##' cannot appear at end of macro expansion") := by
  constructor <;> rfl

/-! ## The steps of `subst` at a parameter -/

theorem commaVaArg_not_comma (Args : List MacroArg) (t : Token) (rest : List Token)
    (h : equal t "," = false) : commaVaArg Args t rest = .ok none := by
  simp [commaVaArg, h]

theorem substF_succ (env : Env)
    (pp2 : List Token → State → Except Err (List Token × State)) (view : ArgView)
    (Args : List MacroArg) (f : Nat) (Tok Out : List Token) (st : State) :
    substF env pp2 view Args (f + 1) Tok Out st =
      match substStep env pp2 view Args Tok Out st with
      | .error e => .error e
      | .ok (.done r) => .ok r
      | .ok (.next Args1 Tok1 Out1 st1) => substF env pp2 view Args1 f Tok1 Out1 st1 := by
  rfl

theorem substStep_left_operand (env : Env)
    (pp2 : List Token → State → Except Err (List Token × State)) (view : ArgView)
    (Args : List MacroArg) (P hh : Token) (rest Out : List Token) (st : State) (Arg : MacroArg)
    (tp : List Token) (ep : Token)
    (hPk : P.Kind ≠ .TK_EOF) (h1 : equal P "#" = false) (h2 : equal P "," = false)
    (h3 : equal P "##" = false) (hP : findArg Args P = some Arg) (hh2 : equal hh "##" = true)
    (hT : Arg.Tok = tp ++ [ep]) (hne : tp ≠ []) (htp : ∀ t ∈ tp, t.Kind ≠ .TK_EOF)
    (hep : ep.Kind = .TK_EOF) :
    substStep env pp2 view Args (P :: hh :: rest) Out st =
      .ok (.next Args (hh :: rest) (Out ++ tp) st) := by
  obtain ⟨x, tp1, rfl⟩ : ∃ x tp1, tp = x :: tp1 := by
    cases tp with
    | nil => exact absurd rfl hne
    | cons x tp1 => exact ⟨x, tp1, rfl⟩
  have hx : x.Kind ≠ .TK_EOF := htp x (List.mem_cons_self _ _)
  have hcopy : copyUntilEOF Arg.Tok = .ok (x :: tp1) := by
    rw [hT]
    exact copyUntilEOF_front (x :: tp1) ep [] htp hep
  have hT2 : Arg.Tok = x :: (tp1 ++ [ep]) := by simpa using hT
  simp only [substStep, hPk, if_false, h1, Bool.false_eq_true, commaVaArg_not_comma Args P _ h2,
    h3, hP, leftOfPaste, hh2]
  rw [hT2] at hcopy ⊢
  simp only [hx, if_false, hcopy]

theorem substStep_left_empty (env : Env)
    (pp2 : List Token → State → Except Err (List Token × State)) (view : ArgView)
    (Args : List MacroArg) (P hh Q : Token) (rest Out : List Token) (st : State)
    (ArgP ArgQ : MacroArg) (tq : List Token) (ep eq : Token)
    (hPk : P.Kind ≠ .TK_EOF) (h1 : equal P "#" = false) (h2 : equal P "," = false)
    (h3 : equal P "##" = false) (hP : findArg Args P = some ArgP)
    (hh2 : equal hh "##" = true) (hQ : findArg Args Q = some ArgQ)
    (hTp : ArgP.Tok = [ep]) (hep : ep.Kind = .TK_EOF)
    (hTq : ArgQ.Tok = tq ++ [eq]) (htq : ∀ t ∈ tq, t.Kind ≠ .TK_EOF) (heq : eq.Kind = .TK_EOF) :
    substStep env pp2 view Args (P :: hh :: Q :: rest) Out st =
      .ok (.next Args rest (Out ++ tq) st) := by
  have hcopy : copyUntilEOF ArgQ.Tok = .ok tq := by
    rw [hTq]
    exact copyUntilEOF_front tq eq [] htq heq
  simp only [substStep, hPk, if_false, h1, Bool.false_eq_true, commaVaArg_not_comma Args P _ h2,
    h3, hP, leftOfPaste, hh2, hTp, hep, if_true, List.drop_succ_cons, List.drop_zero, hQ, hcopy]

theorem substStep_right_empty (env : Env)
    (pp2 : List Token → State → Except Err (List Token × State)) (view : ArgView)
    (Args : List MacroArg) (hh Q : Token) (rest Out : List Token) (st : State) (ArgQ : MacroArg)
    (eq : Token)
    (hhk : hh.Kind ≠ .TK_EOF) (hh2 : equal hh "##" = true) (hOut : Out ≠ [])
    (hQk : Q.Kind ≠ .TK_EOF) (hQ : findArg Args Q = some ArgQ)
    (hTq : ArgQ.Tok = [eq]) (heq : eq.Kind = .TK_EOF) :
    substStep env pp2 view Args (hh :: Q :: rest) Out st = .ok (.next Args rest Out st) := by
  have h1 : equal hh "#" = false := by
    simp only [equal, beq_iff_eq] at hh2
    simp [equal, hh2]
  have h2 : equal hh "," = false := by
    simp only [equal, beq_iff_eq] at hh2
    simp [equal, hh2]
  obtain ⟨Cur, hCur⟩ : ∃ Cur, Out.getLast? = some Cur := by
    cases hg : Out.getLast? with
    | none => exact absurd (List.getLast?_eq_none_iff.1 hg) hOut
    | some c => exact ⟨c, rfl⟩
  simp only [substStep, hhk, if_false, h1, Bool.false_eq_true, commaVaArg_not_comma Args hh _ h2,
    hh2, if_true, hCur, hQk, hQ, hTq, heq, ne_eq, not_true_eq_false]

theorem substStep_plain_param (env : Env)
    (pp2 : List Token → State → Except Err (List Token × State)) (view : ArgView)
    (Args : List MacroArg) (P n : Token) (rest Out : List Token) (st : State) (Arg : MacroArg)
    (hPk : P.Kind ≠ .TK_EOF) (h1 : equal P "#" = false) (h2 : equal P "," = false)
    (h3 : equal P "##" = false) (hP : findArg Args P = some Arg)
    (hn : equal n "##" = false) (hvo : (equal P "__VA_OPT__" && equal n "(") = false) :
    substStep env pp2 view Args (P :: n :: rest) Out st =
      match emitExpanded pp2 P Arg st with
      | .error e => .error e
      | .ok (more, st1) =>
        match view Arg.Tok st P.AtBOL P.HasSpace with
        | .error e => .error e
        | .ok V => .ok (.next (setArgTok Args P V) (n :: rest) (Out ++ more) st1) := by
  have hv : isVaOpt P (n :: rest) = .ok false := by
    unfold isVaOpt
    by_cases hq : equal P "__VA_OPT__" = true
    · simp only [hq, Bool.true_and] at hvo
      simp [hq, hvo]
    · simp [hq]
  simp only [substStep, hPk, if_false, h1, Bool.false_eq_true, commaVaArg_not_comma Args P _ h2,
    h3, hP, leftOfPaste, hn, hv, emitExpanded]
  cases hpp : pp2 Arg.Tok st with
  | error e => rfl
  | ok r =>
    obtain ⟨l, st1⟩ := r
    cases l with
    | nil => rfl
    | cons T Ts =>
      simp only
      cases hc : copyUntilEOF ({ T with AtBOL := P.AtBOL, HasSpace := P.HasSpace } :: Ts) with
      | error e => rfl
      | ok more => rfl

theorem substStep_comma_va (env : Env)
    (pp2 : List Token → State → Except Err (List Token × State)) (view : ArgView)
    (Args : List MacroArg) (c hh V : Token) (rest Out : List Token) (st : State)
    (Arg : MacroArg) (a : Token) (as : List Token)
    (hck : c.Kind ≠ .TK_EOF) (hc : equal c "," = true) (hh2 : equal hh "##" = true)
    (hV : findArg Args V = some Arg) (hva : Arg.IsVaArg = true) (hT : Arg.Tok = a :: as) :
    substStep env pp2 view Args (c :: hh :: V :: rest) Out st =
      if a.Kind = .TK_EOF then .ok (.next Args rest Out st)
      else .ok (.next Args (V :: rest) (Out ++ [c]) st) := by
  have h1 : equal c "#" = false := by
    simp only [equal, beq_iff_eq] at hc
    simp [equal, hc]
  simp only [substStep, hck, if_false, h1, Bool.false_eq_true, commaVaArg, hc, if_true, hh2, hV,
    hva, hT, List.drop_succ_cons, List.drop_zero, copyToken]

theorem substF_plain_param (env : Env)
    (pp2 : List Token → State → Except Err (List Token × State)) (view : ArgView)
    (Args : List MacroArg)
    (f : Nat) (P n : Token) (rest Out : List Token) (st : State) (Arg : MacroArg)
    (hPk : P.Kind ≠ .TK_EOF) (h1 : equal P "#" = false) (h2 : equal P "," = false)
    (h3 : equal P "##" = false) (hP : findArg Args P = some Arg)
    (hn : equal n "##" = false) (hvo : (equal P "__VA_OPT__" && equal n "(") = false) :
    substF env pp2 view Args (f + 1) (P :: n :: rest) Out st =
      match emitExpanded pp2 P Arg st with
      | .error e => .error e
      | .ok (more, st1) =>
        match view Arg.Tok st P.AtBOL P.HasSpace with
        | .error e => .error e
        | .ok V => substF env pp2 view (setArgTok Args P V) f (n :: rest) (Out ++ more) st1 := by
  rw [substF_succ, substStep_plain_param env pp2 view Args P n rest Out st Arg hPk h1 h2 h3 hP hn
    hvo]
  cases emitExpanded pp2 P Arg st with
  | error e => rfl
  | ok r =>
    obtain ⟨more, st1⟩ := r
    simp only
    cases view Arg.Tok st P.AtBOL P.HasSpace with
    | error e => rfl
    | ok V => rfl

theorem substF_comma_va (env : Env)
    (pp2 : List Token → State → Except Err (List Token × State)) (view : ArgView)
    (Args : List MacroArg)
    (f : Nat) (c hh V : Token) (rest Out : List Token) (st : State) (Arg : MacroArg)
    (a : Token) (as : List Token)
    (hck : c.Kind ≠ .TK_EOF) (hc : equal c "," = true) (hh2 : equal hh "##" = true)
    (hV : findArg Args V = some Arg) (hva : Arg.IsVaArg = true) (hT : Arg.Tok = a :: as) :
    substF env pp2 view Args (f + 1) (c :: hh :: V :: rest) Out st =
      if a.Kind = .TK_EOF then substF env pp2 view Args f rest Out st
      else substF env pp2 view Args f (V :: rest) (Out ++ [c]) st := by
  rw [substF_succ, substStep_comma_va env pp2 view Args c hh V rest Out st Arg a as hck hc hh2 hV
    hva hT]
  by_cases ha : a.Kind = .TK_EOF
  · simp only [ha, if_true]
  · simp only [ha, if_false]

/-- C16 (counterexample): on `#define A 1`, `#define f(args...) , ## args ## x`
and `f(A)` the comma is followed by the variadic argument unexpanded (`A`, not
`1`), pasted to `x`. -/
theorem comma_paste_operand_unexpanded :
    locs (preprocess2 sampleEnv 30 commaPasteInput {}) = some [",", "Ax", ""] := by
  rfl

/-- C16 (amended): at a body fragment `, ## V` with `V` the variadic parameter:
when the variadic argument is empty, the loop of `subst` goes on behind the
fragment with the output as it was; when it is not empty, the comma is appended
to the output unpasted and the loop goes on at `V`; when in addition `V` is not
itself followed by `##`, what follows the comma is the result of `preprocess2`
on the variadic argument (`emitExpanded`). -/
theorem comma_paste_variadic (env : Env)
    (pp2 : List Token → State → Except Err (List Token × State)) (view : ArgView)
    (Args : List MacroArg)
    (f : Nat) (c hh V : Token) (rest Out : List Token) (st : State) (Arg : MacroArg)
    (a : Token) (as : List Token)
    (hck : c.Kind ≠ .TK_EOF) (hc : equal c "," = true) (hh2 : equal hh "##" = true)
    (hV : findArg Args V = some Arg) (hva : Arg.IsVaArg = true) (hT : Arg.Tok = a :: as) :
    (a.Kind = .TK_EOF →
      substF env pp2 view Args (f + 1) (c :: hh :: V :: rest) Out st =
        substF env pp2 view Args f rest Out st) ∧
    (a.Kind ≠ .TK_EOF →
      substF env pp2 view Args (f + 1) (c :: hh :: V :: rest) Out st =
        substF env pp2 view Args f (V :: rest) (Out ++ [c]) st) ∧
    (a.Kind ≠ .TK_EOF → ∀ n rest1, rest = n :: rest1 → V.Kind ≠ .TK_EOF →
      equal V "#" = false → equal V "," = false → equal V "##" = false →
      equal n "##" = false → (equal V "__VA_OPT__" && equal n "(") = false →
      substF env pp2 view Args (f + 2) (c :: hh :: V :: rest) Out st =
        match emitExpanded pp2 V Arg st with
        | .error e => .error e
        | .ok (more, st1) =>
          match view Arg.Tok st V.AtBOL V.HasSpace with
          | .error e => .error e
          | .ok W => substF env pp2 view (setArgTok Args V W) f rest (Out ++ c :: more) st1) := by
  have hstep := fun g => substF_comma_va env pp2 view Args g c hh V rest Out st Arg a as hck hc hh2
    hV hva hT
  refine ⟨?_, ?_, ?_⟩
  · intro ha
    rw [hstep f, if_pos ha]
  · intro ha
    rw [hstep f, if_neg ha]
  · intro ha n rest1 hr hVk h1 h2 h3 hn hvo
    subst hr
    rw [hstep (f + 1), if_neg ha,
      substF_plain_param env pp2 view Args f V n rest1 (Out ++ [c]) st Arg hVk h1 h2 h3 hV hn hvo]
    simp

/-- Witness for C16: `, ## args` with `args = X` (`#define X 42`) and with
`args` empty. -/
theorem comma_paste_variadic_witness :
    locs (substF sampleEnv (preprocess2 sampleEnv 5) (preprocess2View sampleEnv 5) vaArgs 3
        (pun "," :: pun "##" :: idt "args" :: [eof]) [] answerState) = some [",", "42", ""] ∧
    locs (substF sampleEnv (preprocess2 sampleEnv 5) (preprocess2View sampleEnv 5) vaArgsEmpty 2
        (pun "," :: pun "##" :: idt "args" :: [eof]) [] answerState) = some [""] :=
  ⟨(congrArg locs ((comma_paste_variadic sampleEnv (preprocess2 sampleEnv 5)
      (preprocess2View sampleEnv 5) vaArgs 1 (pun ",")
      (pun "##") (idt "args") [eof] [] answerState
      { Name := "args", IsVaArg := true, Tok := [idt "X", eof] } (idt "X") [eof] (by decide)
      (by decide) (by decide) rfl rfl rfl).2.2 (by decide) eof [] rfl (by decide) (by decide)
      (by decide) (by decide) (by decide) (by decide))).trans rfl,
   (congrArg locs ((comma_paste_variadic sampleEnv (preprocess2 sampleEnv 5)
      (preprocess2View sampleEnv 5) vaArgsEmpty 1
      (pun ",") (pun "##") (idt "args") [eof] [] answerState
      { Name := "args", IsVaArg := true, Tok := [eof] } eof [] (by decide)
      (by decide) (by decide) rfl rfl rfl).1 (by decide))).trans rfl⟩

theorem substF_paste_empty_operand (env : Env)
    (pp2 : List Token → State → Except Err (List Token × State)) (view : ArgView)
    (Args : List MacroArg)
    (f : Nat) (P hh Q : Token) (rest Out : List Token) (st : State) (ArgP ArgQ : MacroArg)
    (tp tq : List Token) (ep eq : Token)
    (hPk : P.Kind ≠ .TK_EOF) (h1 : equal P "#" = false) (h2 : equal P "," = false)
    (h3 : equal P "##" = false) (hP : findArg Args P = some ArgP)
    (hhk : hh.Kind ≠ .TK_EOF) (hh2 : equal hh "##" = true)
    (hQk : Q.Kind ≠ .TK_EOF) (hQ : findArg Args Q = some ArgQ)
    (hTp : ArgP.Tok = tp ++ [ep]) (htp : ∀ t ∈ tp, t.Kind ≠ .TK_EOF) (hep : ep.Kind = .TK_EOF)
    (hTq : ArgQ.Tok = tq ++ [eq]) (htq : ∀ t ∈ tq, t.Kind ≠ .TK_EOF) (heq : eq.Kind = .TK_EOF) :
    (tq = [] → tp ≠ [] →
      substF env pp2 view Args (f + 2) (P :: hh :: Q :: rest) Out st =
        substF env pp2 view Args f rest (Out ++ tp) st) ∧
    (tp = [] →
      substF env pp2 view Args (f + 1) (P :: hh :: Q :: rest) Out st =
        substF env pp2 view Args f rest (Out ++ tq) st) := by
  constructor
  · intro hq hp
    subst hq
    rw [substF_succ, substStep_left_operand env pp2 view Args P hh (Q :: rest) Out st ArgP tp ep
        hPk h1 h2 h3 hP hh2 hTp hp htp hep]
    simp only
    rw [substF_succ, substStep_right_empty env pp2 view Args hh Q rest (Out ++ tp) st ArgQ eq hhk
        hh2 (by simp [hp]) hQk hQ (by simpa using hTq) heq]
  · intro hp
    subst hp
    rw [substF_succ, substStep_left_empty env pp2 view Args P hh Q rest Out st ArgP ArgQ tq ep eq
        hPk h1 h2 h3 hP hh2 hQ (by simpa using hTp) hep hTq htq heq]

/-- C18: after a use of the parameter `a` in an ordinary place, the fragment
`a ## b` with `b` empty does not emit the tokens of `a`'s argument.  For
`#define F(a, b) a / a ## b` and `#define X 42`, whatever the lexer:
`subst` turns `F(p X,)` into `p 42 / p 42`, the tokens behind `/` being the
expanded ones, while `#define G(a, b) a ## b` turns `G(p X,)` into `p X`; and
`F(p __COUNTER__,)` comes out as `p 0 / p 0`, where the argument's tokens
`p __COUNTER__` behind `/` would come out as `p 1` (the sample lexer returns
its buffer, the numeral and a newline, as the lexeme). -/
theorem paste_operand_after_plain_use (env : Env) :
    expandedLocs (expandMacro env (preprocess2 env 10) (preprocess2View env 10)
      pasteAfterUseCall pasteAfterUseState) = some ["p", "42", "/", "p", "42", ""] ∧
    expandedLocs (expandMacro env (preprocess2 env 10) (preprocess2View env 10)
      pasteOnlyCall pasteAfterUseState) = some ["p", "X", ""] ∧
    locs (preprocess2 sampleEnv 30 pasteCounterCall pasteAfterUseState) =
      some ["p", "0\n", "/", "p", "0\n", ""] := by
  refine ⟨by rfl, by rfl, by rfl⟩

/-! ## The hidesets of the replacement tokens -/

theorem setArgTok_mem (Args : List MacroArg) (t : Token) (V : List Token) (a : MacroArg)
    (h : a ∈ setArgTok Args t V) : a ∈ Args ∨ (a.Tok = V ∧ ∃ A, findArg Args t = some A) := by
  induction Args with
  | nil => simp [setArgTok] at h
  | cons AP Args ih =>
    by_cases ht : (t.Loc == AP.Name) = true
    · simp only [setArgTok, ht, if_true, List.mem_cons] at h
      rcases h with rfl | h
      · exact Or.inr ⟨rfl, AP, by simp [findArg, ht]⟩
      · exact Or.inl (List.mem_cons_of_mem _ h)
    · simp only [setArgTok, ht, Bool.false_eq_true, if_false, List.mem_cons] at h
      rcases h with rfl | h
      · exact Or.inl (List.mem_cons_self _ _)
      · rcases ih h with h1 | ⟨h1, A, hA⟩
        · exact Or.inl (List.mem_cons_of_mem _ h1)
        · exact Or.inr ⟨h1, A, by simp [findArg, ht, hA]⟩

theorem sameButFlags_refl (y : Token) : SameButFlags y y := rfl

theorem substStep_source (env : Env)
    (pp2 : List Token → State → Except Err (List Token × State)) (view : ArgView)
    (Args0 : List MacroArg) (Body : List Token) (Args : List MacroArg) (Tok Out : List Token)
    (st : State) (nx : SubstNext)
    (h : substStep env pp2 view Args Tok Out st = .ok nx)
    (hA : ∀ a ∈ Args, ArgList view Args0 a.Tok) (hb : ∀ x ∈ Tok, x ∈ Body)
    (hO : ∀ x ∈ Out, ∃ y, SubstSource env pp2 view Body Args0 y ∧ SameButFlags x y) :
    match nx with
    | .done r => ∀ x ∈ r.1, ∃ y, SubstSource env pp2 view Body Args0 y ∧ SameButFlags x y
    | .next Args2 Tok2 Out2 _ =>
      (∀ a ∈ Args2, ArgList view Args0 a.Tok) ∧ (∀ x ∈ Tok2, x ∈ Body) ∧
        ∀ x ∈ Out2, ∃ y, SubstSource env pp2 view Body Args0 y ∧ SameButFlags x y := by
  cases Tok with
  | nil => simp [substStep] at h
  | cons t rest =>
    have ht : t ∈ Body := hb t (List.mem_cons_self _ _)
    have hrest : ∀ x ∈ rest, x ∈ Body := fun x hx => hb x (List.mem_cons_of_mem _ hx)
    have hSelf : ∀ y, SubstSource env pp2 view Body Args0 y →
        ∃ z, SubstSource env pp2 view Body Args0 z ∧ SameButFlags y z :=
      fun y hy => ⟨y, hy, sameButFlags_refl y⟩
    have hOne : ∀ (y : Token), SubstSource env pp2 view Body Args0 y →
        ∀ x ∈ Out ++ [y], ∃ z, SubstSource env pp2 view Body Args0 z ∧ SameButFlags x z := by
      intro y hy x hx
      rcases List.mem_append.1 hx with hx | hx
      · exact hO x hx
      · simp at hx
        subst hx
        exact hSelf _ hy
    have hMore : ∀ (more : List Token),
        (∀ y ∈ more, ∃ z, SubstSource env pp2 view Body Args0 z ∧ SameButFlags y z) →
        ∀ x ∈ Out ++ more, ∃ z, SubstSource env pp2 view Body Args0 z ∧ SameButFlags x z := by
      intro more hm x hx
      rcases List.mem_append.1 hx with hx | hx
      · exact hO x hx
      · exact hm x hx
    have hDL : ∀ x ∈ Out.dropLast,
        ∃ z, SubstSource env pp2 view Body Args0 z ∧ SameButFlags x z :=
      fun x hx => hO x (List.mem_of_mem_dropLast hx)
    have hArg : ∀ (q : Token) (A : MacroArg), findArg Args q = some A →
        ArgList view Args0 A.Tok := fun q A hq => hA A (findArg_mem _ _ _ hq)
    simp only [substStep] at h
    repeat' split at h
    all_goals try (simp at h; done)
    all_goals simp only [Except.ok.injEq] at h
    all_goals subst h
    all_goals simp only
    · -- EOF: the rest of the body is linked behind the output
      intro x hx
      rcases List.mem_append.1 hx with hx | hx
      · exact hO x hx
      · exact hSelf _ (Or.inl (hb x hx))
    · -- `#`
      rename_i n rest2 _ Arg hfa _ s st1 hs
      exact ⟨hA, fun x hx => hrest x (List.mem_cons_of_mem _ hx),
        hOne _ (Or.inr (Or.inr (Or.inr (Or.inr ⟨_, _, _, s.2, _, hs⟩))))⟩
    · -- `,` `##` with an empty variadic argument
      exact ⟨hA, fun x hx => hrest x (List.mem_of_mem_drop hx), hO⟩
    · -- `,` `##` with a variadic argument
      exact ⟨hA, fun x hx => hrest x (List.mem_of_mem_drop hx), hOne _ (Or.inl ht)⟩
    · -- `##` with an argument on the right
      rename_i Arg hfa _ a as hAt _ _ p st1 hp _ more hmore
      refine ⟨hA, fun x hx => hrest x (List.mem_cons_of_mem _ hx), ?_⟩
      intro x hx
      rcases List.mem_append.1 hx with hx | hx
      · rcases List.mem_append.1 hx with hx | hx
        · exact hDL x hx
        · simp at hx
          subst hx
          exact hSelf _ (Or.inr (Or.inr (Or.inr (Or.inl ⟨_, _, _, _, hp⟩))))
      · refine hSelf _ (Or.inr (Or.inl ⟨Arg.Tok, hArg _ _ hfa, ?_⟩))
        rw [hAt]
        exact List.mem_cons_of_mem _ (copyUntilEOF_mem _ _ hmore x hx).1
    · -- `##` with an empty argument on the right
      exact ⟨hA, fun x hx => hrest x (List.mem_cons_of_mem _ hx), hO⟩
    · -- `##` with a body token on the right
      rename_i _ p st1 hp
      refine ⟨hA, fun x hx => hrest x (List.mem_cons_of_mem _ hx), ?_⟩
      intro x hx
      rcases List.mem_append.1 hx with hx | hx
      · exact hDL x hx
      · simp at hx
        subst hx
        exact hSelf _ (Or.inr (Or.inr (Or.inr (Or.inl ⟨_, _, _, _, hp⟩))))
    · -- empty argument left of `##`, argument on the right
      rename_i _ RHS rest3 hdrop _ Arg2 hfa2 _ more hmore
      refine ⟨hA, ?_, hMore _ ?_⟩
      · intro x hx
        exact hrest x (List.mem_of_mem_drop (by rw [hdrop]; exact List.mem_cons_of_mem _ hx))
      · intro y hy
        exact hSelf _ (Or.inr (Or.inl ⟨Arg2.Tok, hArg _ _ hfa2,
          (copyUntilEOF_mem _ _ hmore y hy).1⟩))
    · -- empty argument left of `##`, body token on the right
      rename_i _ RHS rest3 hdrop _ _
      refine ⟨hA, ?_, hOne _ (Or.inl ?_)⟩
      · intro x hx
        exact hrest x (List.mem_of_mem_drop (by rw [hdrop]; exact List.mem_cons_of_mem _ hx))
      · exact hrest _ (List.mem_of_mem_drop (by rw [hdrop]; exact List.mem_cons_self _ _))
    · -- argument left of `##`
      rename_i Arg _ hfa _ _ _ _ _ _ more hmore
      refine ⟨hA, hrest, hMore _ ?_⟩
      intro y hy
      exact hSelf _ (Or.inr (Or.inl ⟨Arg.Tok, hArg _ _ hfa, (copyUntilEOF_mem _ _ hmore y hy).1⟩))
    · -- `__VA_OPT__`
      rename_i _ more Tok2 hva
      obtain ⟨h1, h2, -⟩ := vaOptTokens_mem _ _ _ _ hva
      refine ⟨hA, fun x hx => hrest x (List.mem_of_mem_drop (h2 x hx)), hMore _ ?_⟩
      intro y hy
      exact hSelf _ (Or.inl (hrest y (List.mem_of_mem_drop (h1 y hy))))
    · -- a parameter: the argument is preprocessed
      rename_i Arg hfa _ T Ts st1 hpp _ more hmore _ V hV
      refine ⟨?_, hrest, hMore _ ?_⟩
      · intro a ha
        rcases setArgTok_mem _ _ _ _ ha with h1 | ⟨h1, -⟩
        · exact hA a h1
        · rw [h1]
          exact ArgList.viewed _ _ _ _ _ (hArg _ _ hfa) hV
      · intro y hy
        rcases List.mem_cons.1 (copyUntilEOF_mem _ _ hmore y hy).1 with rfl | hm
        · exact ⟨T, Or.inr (Or.inr (Or.inl ⟨_, _, _, _, hArg _ _ hfa, hpp,
            List.mem_cons_self _ _⟩)), rfl⟩
        · exact hSelf _ (Or.inr (Or.inr (Or.inl ⟨_, _, _, _, hArg _ _ hfa, hpp,
            List.mem_cons_of_mem _ hm⟩)))
    · -- any other body token
      exact ⟨hA, hrest, hOne _ (Or.inl ht)⟩

theorem substF_source (env : Env)
    (pp2 : List Token → State → Except Err (List Token × State)) (view : ArgView)
    (Args0 : List MacroArg) (Body : List Token) (f : Nat) :
    ∀ (Args : List MacroArg) (Tok Out : List Token) (st : State) (r : List Token) (st' : State),
      substF env pp2 view Args f Tok Out st = .ok (r, st') →
      (∀ a ∈ Args, ArgList view Args0 a.Tok) → (∀ x ∈ Tok, x ∈ Body) →
      (∀ x ∈ Out, ∃ y, SubstSource env pp2 view Body Args0 y ∧ SameButFlags x y) →
      ∀ x ∈ r, ∃ y, SubstSource env pp2 view Body Args0 y ∧ SameButFlags x y := by
  induction f with
  | zero =>
    intro Args Tok Out st r st' h
    simp [substF] at h
  | succ f ih =>
    intro Args Tok Out st r st' h hA hb hO
    rw [substF_succ] at h
    cases hs : substStep env pp2 view Args Tok Out st with
    | error e => simp [hs] at h
    | ok nx =>
      have hsrc := substStep_source env pp2 view Args0 Body Args Tok Out st nx hs hA hb hO
      cases nx with
      | done r1 =>
        simp only [hs, Except.ok.injEq] at h
        subst h
        exact hsrc
      | next Args2 Tok2 Out2 st2 =>
        simp only [hs] at h
        exact ih _ _ _ _ _ _ h hsrc.1 hsrc.2.1 hsrc.2.2

theorem lexed_hideset (env : Env) (y : Token) (h : Lexed env y) : y.Hideset = [] := by
  rcases h with ⟨s, a, b, s', h⟩ | ⟨s, a, L, tl, s', h⟩
  · exact paste_hideset _ _ _ _ _ _ h
  · exact stringize_hideset _ _ _ _ _ _ h

theorem mem_funcHideset (T RParen : Token) (M : Macro) (n : String) :
    n ∈ funcHideset T RParen M ↔ (n ∈ T.Hideset ∧ n ∈ RParen.Hideset) ∨ n = M.Name := by
  simp only [funcHideset, hidesetUnion_eq_append, newHideset, List.mem_append,
    List.mem_singleton, hidesetIntersection_mem]

theorem spliceBody_tied (B N R : List Token) (Hs : Hideset) (T : Token)
    (P : Token → Prop)
    (h : spliceBody (addHideset B Hs) T N = .ok R)
    (hB : ∀ b ∈ B, ∃ y, P y ∧ SameButFlags b y) :
    ∃ repl, R = headFlags T (repl ++ N) ∧
      ∀ x ∈ repl, ∃ y, P y ∧ CopyOf x y ∧ x.Origin = T.toTokenData :: T.Origin ∧
        ∀ n, n ∈ x.Hideset ↔ n ∈ y.Hideset ∨ n ∈ Hs := by
  obtain ⟨pre, hpre, hR⟩ := spliceBody_addHideset _ _ _ _ _ h
  refine ⟨_, hR, ?_⟩
  intro x hx
  obtain ⟨b, hb, rfl⟩ := List.mem_map.1 hx
  obtain ⟨y, hy, hby⟩ := hB b (copyUntilEOF_mem _ _ hpre b hb).1
  have hhs : b.Hideset = y.Hideset := by
    have := congrArg (fun t : Token => t.Hideset) hby
    simpa using this
  refine ⟨y, hy, ?_, rfl, ?_⟩
  · unfold CopyOf withOrigin
    unfold SameButFlags at hby
    rw [hby]
  · intro n
    simp only [withOrigin, hidesetUnion_eq_append, List.mem_append, hhs]

/-- C4: when `expandMacro` expands the function-like macro `M` invoked by
`T` and closed by `RParen`, the replacement tokens `repl` stand in front of the
tokens behind `RParen`, one for each token `b` that `subst` returned (before
its EOF), and the hideset of each holds exactly the names of `b`'s hideset,
the names that are both in `T`'s and in `RParen`'s hideset, and `M.Name`.  So
each holds `M.Name`, and a name that is in `T`'s hideset but not in
`RParen`'s is in it only when `b` had it or it is `M.Name`. -/
theorem expandMacro_funclike_hideset (env : Env)
    (pp2 : List Token → State → Except Err (List Token × State)) (view : ArgView)
    (T : Token) (rest : List Token) (st st' : State) (M : Macro) (R : List Token)
    (hM : findMacro st T = some M) (hH : M.Handler = none) (hF : M.IsObjlike = false)
    (h : expandMacro env pp2 view (T :: rest) st = .ok (some R, st')) :
    ∃ Args RParen after Body repl0 repl,
      readMacroArgs (T :: rest) M.Params M.VaArgsName = .ok (Args, RParen :: after) ∧
      subst env pp2 view M.Body Args st = .ok (Body, st') ∧
      copyUntilEOF Body = .ok repl0 ∧
      R = headFlags T (repl ++ after) ∧
      List.Forall₂ (fun x b => CopyOf x b ∧
        ∀ n, n ∈ x.Hideset ↔
          n ∈ b.Hideset ∨ (n ∈ T.Hideset ∧ n ∈ RParen.Hideset) ∨ n = M.Name) repl repl0 ∧
      (∀ x ∈ repl, M.Name ∈ x.Hideset) ∧
      List.Forall₂ (fun x b => ∀ n, n ∈ T.Hideset → n ∉ RParen.Hideset → n ≠ M.Name →
        n ∉ b.Hideset → n ∉ x.Hideset) repl repl0 := by
  unfold expandMacro at h
  by_cases hc : hidesetContains T.Hideset T.Loc = true
  · simp [hc] at h
  simp only [hc, hM, hH, hF] at h
  cases rest with
  | nil => simp at h
  | cons n rest1 =>
    by_cases hn : equal n "(" = true
    swap
    · simp [hn] at h
    simp only [hn] at h
    cases hA : readMacroArgs (T :: n :: rest1) M.Params M.VaArgsName with
    | error e => simp [hA] at h
    | ok res =>
      obtain ⟨Args, Tok1⟩ := res
      cases Tok1 with
      | nil => simp [hA] at h
      | cons RParen after =>
        cases hS : subst env pp2 view M.Body Args st with
        | error e => simp [hA, hS] at h
        | ok res2 =>
          obtain ⟨Body, st1⟩ := res2
          cases hP : spliceBody (addHideset Body (funcHideset T RParen M)) T after with
          | error e =>
            unfold funcHideset at hP
            simp [hA, hS, hP] at h
          | ok r =>
            have hP1 := hP
            unfold funcHideset at hP1
            simp [hA, hS, hP1] at h
            obtain ⟨rfl, rfl⟩ := h
            obtain ⟨pre, hpre, hR⟩ := spliceBody_addHideset _ _ _ _ _ hP
            have hkey : ∀ b : Token,
                CopyOf (withOrigin T
                  { b with Hideset := hidesetUnion b.Hideset (funcHideset T RParen M) }) b ∧
                ∀ m, m ∈ (withOrigin T
                  { b with Hideset := hidesetUnion b.Hideset (funcHideset T RParen M) }).Hideset ↔
                  m ∈ b.Hideset ∨ (m ∈ T.Hideset ∧ m ∈ RParen.Hideset) ∨ m = M.Name := by
              intro b
              refine ⟨rfl, fun m => ?_⟩
              simp only [withOrigin, hidesetUnion_eq_append, List.mem_append, mem_funcHideset]
            refine ⟨Args, RParen, after, Body, pre, _, rfl, hS, hpre, hR, ?_, ?_, ?_⟩
            · rw [List.forall₂_map_left_iff, List.forall₂_same]
              exact fun b _ => hkey b
            · intro x hx
              obtain ⟨b, -, rfl⟩ := List.mem_map.1 hx
              exact ((hkey b).2 M.Name).2 (Or.inr (Or.inr rfl))
            · rw [List.forall₂_map_left_iff, List.forall₂_same]
              intro b _ m h1 h2 h3 h4 hm
              rcases ((hkey b).2 m).1 hm with h5 | ⟨-, h5⟩ | h5
              · exact h4 h5
              · exact h2 h5
              · exact h3 h5

/-- Witness for C4: the invocation `f(1)` of `#define f(x) f(x)+1` in which
`f` carries the hideset `{a, b}` and the closing parenthesis `{b, c}`: the
replacement tokens carry `{b, f}`. -/
theorem expandMacro_funclike_hideset_witness :
    (∃ Args RParen after Body repl0 repl,
      readMacroArgs hidesetCall selfRefMacro.Params selfRefMacro.VaArgsName =
        .ok (Args, RParen :: after) ∧
      subst sampleEnv (preprocess2 sampleEnv 5) (preprocess2View sampleEnv 5) selfRefMacro.Body
        Args selfRefState = .ok (Body, selfRefState) ∧
      copyUntilEOF Body = .ok repl0 ∧
      hidesetCallResult = headFlags (hid (idt "f") ["a", "b"]) (repl ++ after) ∧
      List.Forall₂ (fun x b => CopyOf x b ∧
        ∀ n, n ∈ x.Hideset ↔
          n ∈ b.Hideset ∨ (n ∈ (hid (idt "f") ["a", "b"]).Hideset ∧ n ∈ RParen.Hideset) ∨
            n = selfRefMacro.Name) repl repl0 ∧
      (∀ x ∈ repl, selfRefMacro.Name ∈ x.Hideset) ∧
      List.Forall₂ (fun x b => ∀ n, n ∈ (hid (idt "f") ["a", "b"]).Hideset →
        n ∉ RParen.Hideset → n ≠ selfRefMacro.Name → n ∉ b.Hideset → n ∉ x.Hideset) repl repl0) ∧
    hidesetCallResult.map (fun x => (x.Loc, x.Hideset)) =
      [("f", ["b", "f"]), ("(", ["b", "f"]), ("1", ["b", "f"]), (")", ["b", "f"]),
       ("+", ["b", "f"]), ("1", ["b", "f"]), ("", [])] :=
  ⟨expandMacro_funclike_hideset sampleEnv (preprocess2 sampleEnv 5) (preprocess2View sampleEnv 5)
    (hid (idt "f") ["a", "b"]) [pun "(", ppn "1", hid (pun ")") ["b", "c"], eof] selfRefState
    selfRefState selfRefMacro hidesetCallResult (by decide) rfl rfl (by rfl), by decide⟩

/-- C6 (amended): every token `x` that a macro expansion emits is made from a
source token `y`: a body token, a token of an argument, a token that
`preprocess2` returned for an argument, or a new token of the lexer for `#` or
`##`.  It is `y` but for the hideset, `Origin`, `AtBOL` and `HasSpace`, and its
hideset holds exactly the names of `y`'s hideset and of `H`; when `y` is a new
token of the lexer, exactly those of `H`.  `H` holds the names of `T`'s
hideset and `M.Name` for an object-like macro, and the names that are in
`T`'s and in `RParen`'s hideset and `M.Name` for a function-like one.  The
operands of `##` and `#` are not among the sources. -/
theorem expandMacro_hideset_monotone (env : Env)
    (pp2 : List Token → State → Except Err (List Token × State)) (view : ArgView)
    (T : Token) (rest : List Token) (st st' : State) (M : Macro) (R : List Token)
    (hM : findMacro st T = some M) (hH : M.Handler = none)
    (h : expandMacro env pp2 view (T :: rest) st = .ok (some R, st')) :
    ∃ (repl after : List Token) (H : Hideset) (Args : List MacroArg),
      R = headFlags T (repl ++ after) ∧
      (∀ x ∈ repl, ∃ y, ExpansionSource env pp2 view M Args y ∧ CopyOf x y ∧
        x.Origin = T.toTokenData :: T.Origin ∧
        (∀ n, n ∈ x.Hideset ↔ n ∈ y.Hideset ∨ n ∈ H) ∧
        (Lexed env y → ∀ n, n ∈ x.Hideset ↔ n ∈ H)) ∧
      (M.IsObjlike = true → after = rest ∧ ∀ n, n ∈ H ↔ n ∈ T.Hideset ∨ n = M.Name) ∧
      (M.IsObjlike = false → ∃ RParen,
        readMacroArgs (T :: rest) M.Params M.VaArgsName = .ok (Args, RParen :: after) ∧
        ∀ n, n ∈ H ↔ (n ∈ T.Hideset ∧ n ∈ RParen.Hideset) ∨ n = M.Name) := by
  have key : ∀ (B N : List Token) (Hs : Hideset) (P : Token → Prop),
      spliceBody (addHideset B Hs) T N = .ok R → (∀ b ∈ B, ∃ y, P y ∧ SameButFlags b y) →
      ∃ repl, R = headFlags T (repl ++ N) ∧
        ∀ x ∈ repl, ∃ y, P y ∧ CopyOf x y ∧ x.Origin = T.toTokenData :: T.Origin ∧
          (∀ n, n ∈ x.Hideset ↔ n ∈ y.Hideset ∨ n ∈ Hs) ∧
          (Lexed env y → ∀ n, n ∈ x.Hideset ↔ n ∈ Hs) := by
    intro B N Hs P hs hB
    obtain ⟨repl, hR, hrepl⟩ := spliceBody_tied B N R Hs T P hs hB
    refine ⟨repl, hR, ?_⟩
    intro x hx
    obtain ⟨y, hy, h1, h2, h3⟩ := hrepl x hx
    refine ⟨y, hy, h1, h2, h3, ?_⟩
    intro hl n
    rw [h3 n, lexed_hideset env y hl]
    simp
  unfold expandMacro at h
  by_cases hc : hidesetContains T.Hideset T.Loc = true
  · simp [hc] at h
  simp only [hc, hM, hH] at h
  by_cases hO : M.IsObjlike = true
  · simp only [hO, if_true] at h
    cases hs : spliceBody (addHideset M.Body (hidesetUnion T.Hideset (newHideset M.Name))) T
        rest with
    | error e => simp [hs] at h
    | ok r =>
      simp [hs] at h
      obtain ⟨rfl, -⟩ := h
      obtain ⟨repl, hR, hrepl⟩ := key _ _ _ (fun y => ExpansionSource env pp2 view M [] y) hs
        (fun y hy => ⟨y, by simp [ExpansionSource, hO, hy], sameButFlags_refl y⟩)
      refine ⟨repl, rest, _, [], hR, hrepl, fun _ => ⟨rfl, fun n => ?_⟩,
        fun hF => by simp [hO] at hF⟩
      simp [hidesetUnion_eq_append, newHideset]
  · have hO1 : M.IsObjlike = false := by simpa using hO
    simp only [hO1, Bool.false_eq_true, if_false] at h
    cases rest with
    | nil => simp at h
    | cons n rest1 =>
      by_cases hn : equal n "(" = true
      swap
      · simp [hn] at h
      simp only [hn] at h
      cases hA : readMacroArgs (T :: n :: rest1) M.Params M.VaArgsName with
      | error e => simp [hA] at h
      | ok res =>
        obtain ⟨Args, Tok1⟩ := res
        cases Tok1 with
        | nil => simp [hA] at h
        | cons RParen after =>
          cases hS : subst env pp2 view M.Body Args st with
          | error e => simp [hA, hS] at h
          | ok res2 =>
            obtain ⟨Body, st1⟩ := res2
            cases hP : spliceBody (addHideset Body (funcHideset T RParen M)) T after with
            | error e =>
              unfold funcHideset at hP
              simp [hA, hS, hP] at h
            | ok r =>
              have hP1 := hP
              unfold funcHideset at hP1
              simp [hA, hS, hP1] at h
              obtain ⟨rfl, -⟩ := h
              have hsrc : ∀ b ∈ Body, ∃ y, ExpansionSource env pp2 view M Args y ∧
                  SameButFlags b y := by
                intro b hb
                simp only [ExpansionSource, hO1, Bool.false_eq_true, if_false]
                exact substF_source env pp2 view Args M.Body _ Args M.Body [] st Body st1 hS
                  (fun a ha => ArgList.collected a ha) (fun x hx => hx) (by simp) b hb
              obtain ⟨repl, hR, hrepl⟩ := key _ _ _ _ hP hsrc
              exact ⟨repl, after, _, Args, hR, hrepl, fun hF => by simp [hO1] at hF,
                fun _ => ⟨RParen, rfl, mem_funcHideset T RParen M⟩⟩

/-- Witness for C6 (amended): the invocation `cat(u,v)` of `#define cat(a,b) a##b`,
whose operands carry the hideset `{h}`: the token `uv` carries `{cat}`. -/
theorem expandMacro_hideset_monotone_witness :
    (∃ (repl after : List Token) (H : Hideset) (Args : List MacroArg),
      pasteResult.1 = headFlags (hid (idt "cat") ["h"]) (repl ++ after) ∧
      (∀ x ∈ repl, ∃ y, ExpansionSource sampleEnv (preprocess2 sampleEnv 5)
          (preprocess2View sampleEnv 5) catMacro Args y ∧ CopyOf x y ∧
        x.Origin = (hid (idt "cat") ["h"]).toTokenData :: (hid (idt "cat") ["h"]).Origin ∧
        (∀ n, n ∈ x.Hideset ↔ n ∈ y.Hideset ∨ n ∈ H) ∧
        (Lexed sampleEnv y → ∀ n, n ∈ x.Hideset ↔ n ∈ H)) ∧
      (catMacro.IsObjlike = true → after = pasteStream.drop 1 ∧
        ∀ n, n ∈ H ↔ n ∈ (hid (idt "cat") ["h"]).Hideset ∨ n = catMacro.Name) ∧
      (catMacro.IsObjlike = false → ∃ RParen,
        readMacroArgs (hid (idt "cat") ["h"] :: pasteStream.drop 1) catMacro.Params
          catMacro.VaArgsName = .ok (Args, RParen :: after) ∧
        ∀ n, n ∈ H ↔ (n ∈ (hid (idt "cat") ["h"]).Hideset ∧ n ∈ RParen.Hideset) ∨
          n = catMacro.Name)) ∧
    pasteResult.1.map (fun x => (x.Loc, x.Hideset)) = [("uv", ["cat"]), ("", [])] :=
  ⟨expandMacro_hideset_monotone sampleEnv (preprocess2 sampleEnv 5) (preprocess2View sampleEnv 5)
    (hid (idt "cat") ["h"]) (pasteStream.drop 1) catState pasteResult.2 catMacro pasteResult.1
    (by decide) rfl (by rfl), by decide⟩

/-! ## `#define` -/

theorem hashmap_get_put {α : Type} (Map : List (String × α)) (Key : String) (Val : α) :
    hashmap_get (hashmap_put Map Key Val) Key = some Val := by
  simp [hashmap_put, hashmap_get]

/-- C20: `readMacroDefinition` fails with `macro name must be an identifier`
when the name token is not an identifier.  When the token behind the name is
`(` without preceding space, it reads the parameter list and registers, if
anything, a function-like macro.  In every other case (also for `(` with
preceding space) it registers an object-like macro whose body is the rest of
the line from that token on, closed by a new EOF. -/
theorem readMacroDefinition_kind (st : State) (t n : Token) (rest : List Token) :
    (t.Kind ≠ .TK_IDENT →
      readMacroDefinition st (t :: n :: rest) =
        .error (.fatal "macro name must be an identifier")) ∧
    (t.Kind = .TK_IDENT → (n.HasSpace = false ∧ equal n "(" = true) →
      readMacroDefinition st (t :: n :: rest) =
        (match readMacroParams rest with
         | .error e => .error e
         | .ok (Params, VaArgsName, Tok1) =>
           match copyLine Tok1 with
           | .error e => .error e
           | .ok (Body, R) => .ok (addMacro st t.Loc false Body Params VaArgsName none, R)) ∧
      ∀ st1 R, readMacroDefinition st (t :: n :: rest) = .ok (st1, R) →
        ∃ M, hashmap_get st1.Macros t.Loc = some M ∧ M.IsObjlike = false) ∧
    (t.Kind = .TK_IDENT → ¬ (n.HasSpace = false ∧ equal n "(" = true) →
      ∀ line x xs, n :: rest = line ++ x :: xs → (∀ y ∈ line, y.AtBOL = false) →
        x.AtBOL = true →
        readMacroDefinition st (t :: n :: rest) =
          .ok (addMacro st t.Loc true (line ++ [newEOF x]) [] none none, x :: xs) ∧
        hashmap_get (addMacro st t.Loc true (line ++ [newEOF x]) [] none none).Macros t.Loc =
          some { Name := t.Loc, IsObjlike := true, Body := line ++ [newEOF x] }) := by
  refine ⟨?_, ?_, ?_⟩
  · intro hk
    simp [readMacroDefinition, hk]
  · intro hk hn
    have heq : readMacroDefinition st (t :: n :: rest) =
        (match readMacroParams rest with
         | .error e => .error e
         | .ok (Params, VaArgsName, Tok1) =>
           match copyLine Tok1 with
           | .error e => .error e
           | .ok (Body, R) => .ok (addMacro st t.Loc false Body Params VaArgsName none, R)) := by
      simp only [readMacroDefinition, hk, ne_eq, not_true_eq_false, if_false, hn.1, hn.2,
        Bool.not_false, Bool.and_self, if_true]
    refine ⟨heq, ?_⟩
    intro st1 R h
    rw [heq] at h
    cases hp : readMacroParams rest with
    | error e => simp [hp] at h
    | ok r =>
      obtain ⟨Params, Va, Tok1⟩ := r
      simp only [hp] at h
      cases hc : copyLine Tok1 with
      | error e => simp [hc] at h
      | ok r2 =>
        obtain ⟨Body, R2⟩ := r2
        simp only [hc, Except.ok.injEq, Prod.mk.injEq] at h
        obtain ⟨rfl, _⟩ := h
        exact ⟨_, hashmap_get_put _ _ _, rfl⟩
  · intro hk hn line x xs hl hline hx
    have hb : (!n.HasSpace && equal n "(") = false := by
      cases h1 : n.HasSpace <;> cases h2 : equal n "(" <;> simp_all
    refine ⟨?_, hashmap_get_put _ _ _⟩
    simp only [readMacroDefinition, hk, ne_eq, not_true_eq_false, if_false, hb,
      Bool.false_eq_true, hl, copyLine_line line x xs hline hx]

/-- Witness for C20: `#define X (1)` registers the object-like macro `X` with
the body `(1)`, and `#define f(x) x` a function-like macro. -/
theorem readMacroDefinition_kind_witness :
    readMacroDefinition {} (spc (idt "X") :: spc (pun "(") :: [ppn "1", pun ")", eof]) =
      .ok (addMacro {} "X" true ([spc (pun "("), ppn "1", pun ")"] ++ [newEOF eof]) [] none none,
        eof :: []) ∧
    ∃ M, hashmap_get (addMacro {} "f" false [spc (idt "x"), newEOF eof] ["x"] none none).Macros
        "f" = some M ∧ M.IsObjlike = false :=
  ⟨((readMacroDefinition_kind {} (spc (idt "X")) (spc (pun "(")) [ppn "1", pun ")", eof]).2.2 rfl
      (by decide) [spc (pun "("), ppn "1", pun ")"] eof [] rfl (by decide) rfl).1,
   ((readMacroDefinition_kind {} (spc (idt "f")) (pun "(")
      [idt "x", pun ")", spc (idt "x"), eof]).2.1 rfl (by decide)).2
      (addMacro {} "f" false [spc (idt "x"), newEOF eof] ["x"] none none) [eof] (by rfl)⟩

/-! ## Hidesets as sets, `quoteString` -/

/-- C28: a name is in `hidesetUnion A B` exactly when it is in `A` or in `B`
(either may be empty), and it is in `newHideset m` exactly when it is `m`. -/
theorem hidesetUnion_is_union (A B : Hideset) (m n : String) :
    (hidesetContains (hidesetUnion A B) n = true ↔
      hidesetContains A n = true ∨ hidesetContains B n = true) ∧
    (hidesetContains (hidesetUnion [] B) n = hidesetContains B n) ∧
    (hidesetContains (hidesetUnion A []) n = hidesetContains A n) ∧
    (hidesetContains (newHideset m) n = true ↔ n = m) := by
  refine ⟨?_, rfl, ?_, ?_⟩
  · simp [hidesetContains_iff_mem, hidesetUnion_eq_append]
  · rw [hidesetUnion_eq_append, List.append_nil]
  · simp [hidesetContains_iff_mem, newHideset]

/-- C29: a name is in `hidesetIntersection A B` exactly when it is in `A` and
in `B`; with respect to membership the intersection is commutative and
idempotent. -/
theorem hidesetIntersection_is_intersection (A B : Hideset) (n : String) :
    (hidesetContains (hidesetIntersection A B) n = true ↔
      hidesetContains A n = true ∧ hidesetContains B n = true) ∧
    (hidesetContains (hidesetIntersection A B) n =
      hidesetContains (hidesetIntersection B A) n) ∧
    (hidesetContains (hidesetIntersection A A) n = hidesetContains A n) := by
  refine ⟨?_, ?_, ?_⟩
  · simp [hidesetContains_iff_mem, hidesetIntersection_mem]
  · rw [Bool.eq_iff_iff]
    simp only [hidesetContains_iff_mem, hidesetIntersection_mem]
    exact And.comm
  · rw [Bool.eq_iff_iff]
    simp [hidesetContains_iff_mem, hidesetIntersection_mem]

theorem quoteChars_eq_join (cs : List Char) :
    quoteChars cs =
      (cs.map fun c => if c = '\\' ∨ c = '"' then ['\\', c] else [c]).flatten := by
  induction cs with
  | nil => rfl
  | cons c cs ih =>
    unfold quoteChars
    by_cases h : c = '\\' ∨ c = '"'
    · have hb : (c == '\\' || c == '"') = true := by
        rcases h with h | h <;> simp [h]
      simp [hb, h, ih]
    · have hb : (c == '\\' || c == '"') = false := by
        simp only [not_or] at h
        simp [h.1, h.2]
      simp [hb, h, ih]

theorem quoteChars_length (cs : List Char) :
    (quoteChars cs).length =
      cs.length + (cs.filter fun c => c == '\\' || c == '"').length := by
  induction cs with
  | nil => rfl
  | cons c cs ih =>
    unfold quoteChars
    by_cases hb : (c == '\\' || c == '"') = true
    · have hf : ((c :: cs).filter fun c => c == '\\' || c == '"') =
          c :: cs.filter fun c => c == '\\' || c == '"' := by
        rw [List.filter_cons, if_pos hb]
      simp only [hb, if_true, List.length_cons, ih, hf]
      omega
    · have hf : ((c :: cs).filter fun c => c == '\\' || c == '"') =
          cs.filter fun c => c == '\\' || c == '"' := by
        rw [List.filter_cons, if_neg hb]
      simp only [hb, Bool.false_eq_true, if_false, List.length_cons, ih, hf]
      omega

theorem quoteBufSizeLoop_eq (cs : List Char) (n : Nat) :
    quoteBufSizeLoop cs n = n + (quoteChars cs).length := by
  induction cs generalizing n with
  | nil => rfl
  | cons c cs ih =>
    unfold quoteBufSizeLoop quoteChars
    by_cases hb : (c == '\\' || c == '"') = true
    · simp only [hb, if_true, ih, List.length_cons]
      omega
    · simp only [hb, Bool.false_eq_true, if_false, ih, List.length_cons]
      omega

theorem unescape_quoteChars (cs : List Char) : unescape (quoteChars cs) = cs := by
  induction cs with
  | nil => rfl
  | cons c cs ih =>
    unfold quoteChars
    by_cases hb : (c == '\\' || c == '"') = true
    · simp only [hb, if_true]
      rw [unescape]
      simp [ih]
    · simp only [hb, Bool.false_eq_true, if_false]
      have hc : (c == '\\') = false := by
        cases h1 : c == '\\'
        · rfl
        · simp [h1] at hb
      cases hq : quoteChars cs with
      | nil =>
        rw [hq] at ih
        rw [unescape]
        simp [← ih, unescape]
      | cons d ds =>
        rw [unescape]
        simp only [hc, Bool.false_eq_true, if_false]
        rw [← hq, ih]

/-- C30: for a string whose `BufSize` fits the `int` that holds it,
`quoteString` returns `"`, then the characters with a backslash in front of
each backslash and each double quote, then `"`; its length is the length of
the string plus 2 plus the number of backslashes and double quotes; with the
terminating NUL that is the `BufSize` of the first loop; and unescaping what
stands between the outer quotes gives the string back. -/
theorem quoteString_spec (Str : String) (hsize : quoteBufSize Str < 2 ^ 31) :
    (quoteString Str).data =
      '"' :: ((Str.data.map fun c => if c = '\\' ∨ c = '"' then ['\\', c] else [c]).flatten ++
        ['"']) ∧
    (quoteString Str).length =
      Str.length + 2 + (Str.data.filter fun c => c == '\\' || c == '"').length ∧
    (quoteString Str).length + 1 = quoteBufSize Str ∧
    quoteBufSize Str < 2 ^ 31 ∧
    unescape (((quoteString Str).data.drop 1).dropLast) = Str.data := by
  refine ⟨?_, ?_, ?_, hsize, ?_⟩
  · simp [quoteString, quoteChars_eq_join]
  · simp only [quoteString, String.length, List.length_cons, List.length_append,
      quoteChars_length, List.length_singleton, List.length_nil]
    omega
  · simp only [quoteString, quoteBufSize, String.length, List.length_cons, List.length_append,
      quoteBufSizeLoop_eq, List.length_singleton, List.length_nil]
    omega
  · simp [quoteString, List.dropLast_concat, unescape_quoteChars]

/-- Witness for C30: the string `a"b\`. -/
theorem quoteString_spec_witness :
    (quoteString "a\"b\\").data = ['"', 'a', '\\', '"', 'b', '\\', '\\', '"'] ∧
    (quoteString "a\"b\\").length = 8 ∧
    quoteBufSize "a\"b\\" = 9 ∧
    unescape (((quoteString "a\"b\\").data.drop 1).dropLast) = ("a\"b\\").data :=
  ⟨(quoteString_spec "a\"b\\" (by decide)).1.trans rfl,
   (quoteString_spec "a\"b\\" (by decide)).2.1.trans rfl,
   (quoteString_spec "a\"b\\" (by decide)).2.2.1.symm.trans rfl,
   (quoteString_spec "a\"b\\" (by decide)).2.2.2.2⟩

/-! ## Skipping a conditional group -/

theorem endif_not_opens (d : Token) (h : equal d "endif" = true) : opensName d = false := by
  simp only [equal, beq_iff_eq] at h
  simp [opensName, equal, h]

theorem skipCondIncl2F_inside (inner : List Token) (hin : Inside inner) :
    ∀ (f : Nat) (e1 d1 : Token) (rest : List Token), inner.length + 1 ≤ f →
      e1.Kind ≠ .TK_EOF → isHash e1 = true → equal d1 "endif" = true →
      skipCondIncl2F f (inner ++ e1 :: d1 :: rest) = .ok rest := by
  induction hin with
  | nil =>
    intro f e1 d1 rest hf he hH hd
    obtain ⟨f1, rfl⟩ : ∃ f1, f = f1 + 1 := ⟨f - 1, by simp at hf; omega⟩
    have ho := endif_not_opens d1 hd
    simp only [opensName] at ho
    simp [skipCondIncl2F, he, hH, ho, hd]
  | text t rest1 ht hH1 _ ih =>
    intro f e1 d1 rest hf he hH hd
    obtain ⟨f1, rfl⟩ : ∃ f1, f = f1 + 1 := ⟨f - 1, by simp at hf; omega⟩
    show skipCondIncl2F (f1 + 1) (t :: (rest1 ++ e1 :: d1 :: rest)) = _
    simp only [skipCondIncl2F, ht, if_false, hH1, Bool.false_eq_true]
    exact ih f1 e1 d1 rest (by simp at hf; omega) he hH hd
  | hash h n rest1 hk hH1 ho hne _ ih =>
    intro f e1 d1 rest hf he hH hd
    obtain ⟨f1, rfl⟩ : ∃ f1, f = f1 + 1 := ⟨f - 1, by simp at hf; omega⟩
    show skipCondIncl2F (f1 + 1) (h :: n :: (rest1 ++ e1 :: d1 :: rest)) = _
    simp only [opensName] at ho
    simp only [skipCondIncl2F, hk, if_false, hH1, if_true, ho, hne, Bool.false_eq_true]
    exact ih f1 e1 d1 rest (by simp at hf ⊢; omega) he hH hd
  | block h d inner1 e2 d2 rest1 hk hH1 ho _ he2 hH2 hd2 _ ih1 ih2 =>
    intro f e1 d1 rest hf he hH hd
    obtain ⟨f1, rfl⟩ : ∃ f1, f = f1 + 1 := ⟨f - 1, by simp at hf; omega⟩
    show skipCondIncl2F (f1 + 1)
      (h :: d :: ((inner1 ++ e2 :: d2 :: rest1) ++ e1 :: d1 :: rest)) = _
    simp only [opensName] at ho
    simp only [skipCondIncl2F, hk, if_false, hH1, if_true, ho]
    have hassoc : (inner1 ++ e2 :: d2 :: rest1) ++ e1 :: d1 :: rest =
        inner1 ++ e2 :: d2 :: (rest1 ++ e1 :: d1 :: rest) := by simp
    rw [hassoc, ih1 f1 e2 d2 (rest1 ++ e1 :: d1 :: rest) (by simp at hf; omega) he2 hH2 hd2]
    exact ih2 f1 e1 d1 rest (by simp at hf; omega) he hH hd

theorem skipCondInclF_sameLevel (body : List Token) (hb : SameLevel body) :
    ∀ (f : Nat) (stop : List Token), body.length + 1 ≤ f →
      ((∃ e post, stop = e :: post ∧ e.Kind = .TK_EOF) ∨
        (∃ h d rest, stop = h :: d :: rest ∧ h.Kind ≠ .TK_EOF ∧ isHash h = true ∧
          stopsName d = true)) →
      skipCondInclF f (body ++ stop) = .ok stop := by
  induction hb with
  | nil =>
    intro f stop hf hs
    obtain ⟨f1, rfl⟩ : ∃ f1, f = f1 + 1 := ⟨f - 1, by simp at hf; omega⟩
    rcases hs with ⟨e, post, rfl, he⟩ | ⟨h, d, rest, rfl, hk, hH, hd⟩
    · simp [skipCondInclF, he]
    · have ho : (equal d "if" || equal d "ifdef" || equal d "ifndef") = false := by
        simp only [stopsName, Bool.or_eq_true, equal, beq_iff_eq] at hd
        rcases hd with (hd | hd) | hd <;> simp [equal, hd]
      simp only [stopsName] at hd
      simp [skipCondInclF, hk, hH, ho, hd]
  | text t rest1 ht hH1 _ ih =>
    intro f stop hf hs
    obtain ⟨f1, rfl⟩ : ∃ f1, f = f1 + 1 := ⟨f - 1, by simp at hf; omega⟩
    show skipCondInclF (f1 + 1) (t :: (rest1 ++ stop)) = _
    simp only [skipCondInclF, ht, if_false, hH1, Bool.false_eq_true]
    exact ih f1 stop (by simp at hf; omega) hs
  | hash h n rest1 hk hH1 ho hne _ ih =>
    intro f stop hf hs
    obtain ⟨f1, rfl⟩ : ∃ f1, f = f1 + 1 := ⟨f - 1, by simp at hf; omega⟩
    show skipCondInclF (f1 + 1) (h :: n :: (rest1 ++ stop)) = _
    simp only [opensName] at ho
    simp only [stopsName] at hne
    simp only [skipCondInclF, hk, if_false, hH1, if_true, ho, hne, Bool.false_eq_true]
    exact ih f1 stop (by simp at hf ⊢; omega) hs
  | block h d inner1 e2 d2 rest1 hk hH1 ho hin he2 hH2 hd2 _ ih =>
    intro f stop hf hs
    obtain ⟨f1, rfl⟩ : ∃ f1, f = f1 + 1 := ⟨f - 1, by simp at hf; omega⟩
    show skipCondInclF (f1 + 1) (h :: d :: ((inner1 ++ e2 :: d2 :: rest1) ++ stop)) = _
    simp only [opensName] at ho
    simp only [skipCondInclF, hk, if_false, hH1, if_true, ho]
    have hassoc : (inner1 ++ e2 :: d2 :: rest1) ++ stop =
        inner1 ++ e2 :: d2 :: (rest1 ++ stop) := by simp
    have h2 : skipCondIncl2 (inner1 ++ e2 :: d2 :: (rest1 ++ stop)) = .ok (rest1 ++ stop) :=
      skipCondIncl2F_inside inner1 hin _ e2 d2 (rest1 ++ stop) (by simp) he2 hH2 hd2
    rw [hassoc, h2]
    exact ih f1 stop (by simp at hf; omega) hs

/-- C27: when `body` holds, at the nesting level of the start position, only
ordinary tokens, other directives and complete nested conditionals (each
skipped as a unit by `skipCondIncl2`, with the `#elif` and `#else` inside it),
`skipCondIncl` returns the `#` of the `#elif`, `#else` or `#endif` that follows
`body`, and the EOF token when the EOF follows. -/
theorem skipCondIncl_same_level (body : List Token) (hb : SameLevel body) :
    (∀ (h d : Token) (rest : List Token), h.Kind ≠ .TK_EOF → isHash h = true →
      stopsName d = true → skipCondIncl (body ++ h :: d :: rest) = .ok (h :: d :: rest)) ∧
    (∀ (e : Token) (post : List Token), e.Kind = .TK_EOF →
      skipCondIncl (body ++ e :: post) = .ok (e :: post)) := by
  constructor
  · intro h d rest hk hH hd
    exact skipCondInclF_sameLevel body hb _ (h :: d :: rest) (by simp)
      (Or.inr ⟨h, d, rest, rfl, hk, hH, hd⟩)
  · intro e post he
    exact skipCondInclF_sameLevel body hb _ (e :: post) (by simp) (Or.inl ⟨e, post, rfl, he⟩)

/-- Witness for C27: the tokens `a`, `#ifdef X`, `b`, `#else`, `c`, `#endif`, `d`
in front of `#else`. -/
theorem skipCondIncl_same_level_witness :
    skipCondIncl ([bol (idt "a"), bol (pun "#"), idt "ifdef", spc (idt "X"), bol (idt "b"),
        bol (pun "#"), idt "else", bol (idt "c"), bol (pun "#"), idt "endif", bol (idt "d")] ++
        bol (pun "#") :: idt "else" :: [bol (idt "e"), eof]) =
      .ok (bol (pun "#") :: idt "else" :: [bol (idt "e"), eof]) :=
  (skipCondIncl_same_level _
    (SameLevel.text (bol (idt "a")) _ (by decide) (by decide)
      (SameLevel.block (bol (pun "#")) (idt "ifdef")
        [spc (idt "X"), bol (idt "b"), bol (pun "#"), idt "else", bol (idt "c")]
        (bol (pun "#")) (idt "endif") [bol (idt "d")] (by decide) (by decide) (by decide)
        (Inside.text (spc (idt "X")) _ (by decide) (by decide)
          (Inside.text (bol (idt "b")) _ (by decide) (by decide)
            (Inside.hash (bol (pun "#")) (idt "else") _ (by decide) (by decide) (by decide)
              (by decide)
              (Inside.text (idt "else") _ (by decide) (by decide)
                (Inside.text (bol (idt "c")) _ (by decide) (by decide) Inside.nil)))))
        (by decide) (by decide) (by decide)
        (SameLevel.text (bol (idt "d")) _ (by decide) (by decide) SameLevel.nil)))).1
    (bol (pun "#")) (idt "else") [bol (idt "e"), eof] (by decide) (by decide) (by decide)

/-! ## `defined` in the line of `#if` -/

theorem newNumToken_macros (env : Env) (st : State) (v : Int) (T : TokenData) :
    (newNumToken env st v T).2.Macros = st.Macros := by
  simp [newNumToken, tokenizeNew]

theorem itemsToks_atBOL (items : List CondItem) (h : ∀ i ∈ items, i.OK) :
    ∀ t ∈ itemsToks items, t.AtBOL = false := by
  induction items with
  | nil => simp [itemsToks]
  | cons i items ih =>
    intro t ht
    simp only [itemsToks, List.mem_append] at ht
    rcases ht with ht | ht
    · have hi := h i (List.mem_cons_self _ _)
      cases i with
      | tok a =>
        simp only [CondItem.toks, List.mem_singleton] at ht
        subst ht
        exact hi.2.1
      | name d n =>
        simp only [CondItem.toks, List.mem_cons, List.mem_singleton, List.not_mem_nil,
          or_false] at ht
        rcases ht with rfl | rfl
        · exact hi.2.1
        · exact hi.2.2.2.1
      | paren d lp n rp =>
        simp only [CondItem.toks, List.mem_cons, List.mem_singleton, List.not_mem_nil,
          or_false] at ht
        rcases ht with rfl | rfl | rfl | rfl
        · exact hi.2.1
        · exact hi.2.2.2.1
        · exact hi.2.2.2.2.2.1
        · exact hi.2.2.2.2.2.2.2.1
    · exact ih (fun j hj => h j (List.mem_cons_of_mem _ hj)) t ht

theorem itemsToks_length (items : List CondItem) : items.length ≤ (itemsToks items).length := by
  induction items with
  | nil => simp [itemsToks]
  | cons i items ih =>
    cases i <;> simp [itemsToks, CondItem.toks] <;> omega

theorem readConstExprF_items (env : Env) (Ms : List (String × Macro)) (items : List CondItem)
    (h : ∀ i ∈ items, i.OK) :
    ∀ (g : Nat) (R : List Token) (st : State), st.Macros = Ms →
      readConstExprF env (items.length + g) (itemsToks items ++ R) st =
        match readConstExprF env g R (replaceDefined env Ms items st).2 with
        | .error e => .error e
        | .ok (r, st2) => .ok ((replaceDefined env Ms items st).1 ++ r, st2) := by
  induction items with
  | nil =>
    intro g R st _
    simp only [List.length_nil, Nat.zero_add, itemsToks, List.nil_append, replaceDefined]
    cases readConstExprF env g R st with
    | error e => rfl
    | ok p => rfl
  | cons i items ih =>
    intro g R st hM
    have hi := h i (List.mem_cons_self _ _)
    have ih2 := ih (fun j hj => h j (List.mem_cons_of_mem _ hj)) g R
    have hlen : (i :: items).length + g = (items.length + g) + 1 := by simp; omega
    rw [hlen]
    cases i with
    | tok a =>
      obtain ⟨h1, _, h3⟩ := hi
      show readConstExprF env (items.length + g + 1) (a :: (itemsToks items ++ R)) st = _
      simp only [readConstExprF, h1, if_false, h3, Bool.false_eq_true, ih2 st hM,
        replaceDefined]
      cases readConstExprF env g R (replaceDefined env Ms items st).2 with
      | error e => rfl
      | ok p => rfl
    | name d n =>
      obtain ⟨h1, _, h3, _, h5, h6⟩ := hi
      have hf : (findMacro st n).isSome = (hashmap_get Ms n.Loc).isSome := by
        simp [findMacro, h5, hM]
      show readConstExprF env (items.length + g + 1) (d :: n :: (itemsToks items ++ R)) st = _
      simp only [readConstExprF, h1, if_false, h3, if_true, consume, h6, Bool.false_eq_true, h5,
        ne_eq, not_true_eq_false, hf]
      have := ih2 (newNumToken env st (definedValue Ms n) d.toTokenData).2
        (by rw [newNumToken_macros, hM])
      simp only [definedValue] at this ⊢
      rw [this]
      simp only [replaceDefined, definedValue]
      cases readConstExprF env g R (replaceDefined env Ms items (newNumToken env st
        (if (hashmap_get Ms n.Loc).isSome = true then 1 else 0) d.toTokenData).2).2 with
      | error e => rfl
      | ok p => rfl
    | paren d lp n rp =>
      obtain ⟨h1, _, h3, _, h5, _, h7, _, h9⟩ := hi
      have hf : (findMacro st n).isSome = (hashmap_get Ms n.Loc).isSome := by
        simp [findMacro, h7, hM]
      show readConstExprF env (items.length + g + 1)
        (d :: lp :: n :: rp :: (itemsToks items ++ R)) st = _
      simp only [readConstExprF, h1, if_false, h3, if_true, consume, h5, h7, ne_eq,
        not_true_eq_false, skip, h9, hf]
      have := ih2 (newNumToken env st (definedValue Ms n) d.toTokenData).2
        (by rw [newNumToken_macros, hM])
      simp only [definedValue] at this ⊢
      rw [this]
      simp only [replaceDefined, definedValue]
      cases readConstExprF env g R (replaceDefined env Ms items (newNumToken env st
        (if (hashmap_get Ms n.Loc).isSome = true then 1 else 0) d.toTokenData).2).2 with
      | error e => rfl
      | ok p => rfl

theorem readConstExprF_eof (env : Env) (g : Nat) (e : Token) (st : State)
    (he : e.Kind = .TK_EOF) : readConstExprF env (g + 1) [e] st = .ok ([e], st) := by
  simp [readConstExprF, he]

theorem readConstExprF_not_ident (env : Env) (g : Nat) (d : Token) (R : List Token) (st : State)
    (hd : d.Kind ≠ .TK_EOF) (hdef : equal d "defined" = true)
    (hR : (∃ y ys, R = y :: ys ∧ equal y "(" = false ∧ y.Kind ≠ .TK_IDENT) ∨
      (∃ lp y ys, R = lp :: y :: ys ∧ equal lp "(" = true ∧ y.Kind ≠ .TK_IDENT)) :
    readConstExprF env (g + 1) (d :: R) st =
      .error (.fatal "macro name must be an identifier") := by
  rcases hR with ⟨y, ys, rfl, h1, h2⟩ | ⟨lp, y, ys, rfl, h1, h2⟩
  · simp [readConstExprF, hd, hdef, consume, h1, h2]
  · simp [readConstExprF, hd, hdef, consume, h1, h2]

/-- C21: on a line made of ordinary tokens and the forms `defined N` and
`defined(N)` with `N` an identifier, `readConstExpr` returns the line with
every such form replaced by the lexer's token for the numeral 1 (when `N` is a
key of the macro table at entry) or 0, the other tokens kept in order, closed
by a new EOF; `*Rest` is the next line, and `N` is only looked up, never
expanded.  When the token behind `defined`, or behind `defined (`, is not an
identifier, it fails with `macro name must be an identifier`. -/
theorem readConstExpr_defined (env : Env) (st : State) (items : List CondItem)
    (hOK : ∀ i ∈ items, i.OK) (x : Token) (xs : List Token) (hx : x.AtBOL = true) :
    readConstExpr env (itemsToks items ++ x :: xs) st =
      .ok ((replaceDefined env st.Macros items st).1 ++ [newEOF x], x :: xs,
        (replaceDefined env st.Macros items st).2) ∧
    (∀ (d : Token) (tail : List Token), d.Kind ≠ .TK_EOF → d.AtBOL = false →
      equal d "defined" = true → (∀ t ∈ tail, t.AtBOL = false) →
      (∀ y ys, tail ++ [newEOF x] = y :: ys → equal y "(" = false → y.Kind ≠ .TK_IDENT →
        readConstExpr env (itemsToks items ++ d :: (tail ++ x :: xs)) st =
          .error (.fatal "macro name must be an identifier")) ∧
      (∀ lp y ys, tail ++ [newEOF x] = lp :: y :: ys → equal lp "(" = true →
        y.Kind ≠ .TK_IDENT →
        readConstExpr env (itemsToks items ++ d :: (tail ++ x :: xs)) st =
          .error (.fatal "macro name must be an identifier"))) := by
  have hbol := itemsToks_atBOL items hOK
  have hlen := itemsToks_length items
  constructor
  · unfold readConstExpr
    rw [copyLine_line (itemsToks items) x xs hbol hx]
    simp only
    obtain ⟨g, hg⟩ : ∃ g, (itemsToks items ++ [newEOF x]).length + 1 = items.length + (g + 1) :=
      ⟨(itemsToks items).length + 1 - items.length, by simp; omega⟩
    rw [hg, readConstExprF_items env st.Macros items hOK (g + 1) [newEOF x] st rfl,
      readConstExprF_eof env g (newEOF x) _ rfl]
  · intro d tail hd hdb hdef htail
    have key : ∀ R : List Token, tail ++ [newEOF x] = R →
        ((∃ y ys, R = y :: ys ∧ equal y "(" = false ∧ y.Kind ≠ .TK_IDENT) ∨
          (∃ lp y ys, R = lp :: y :: ys ∧ equal lp "(" = true ∧ y.Kind ≠ .TK_IDENT)) →
        readConstExpr env (itemsToks items ++ d :: (tail ++ x :: xs)) st =
          .error (.fatal "macro name must be an identifier") := by
      intro R hR hcase
      have hline : itemsToks items ++ d :: (tail ++ x :: xs) =
          (itemsToks items ++ d :: tail) ++ x :: xs := by simp
      have hb2 : ∀ t ∈ itemsToks items ++ d :: tail, t.AtBOL = false := by
        intro t ht
        simp only [List.mem_append, List.mem_cons] at ht
        rcases ht with ht | rfl | ht
        · exact hbol t ht
        · exact hdb
        · exact htail t ht
      unfold readConstExpr
      rw [hline, copyLine_line _ x xs hb2 hx]
      simp only
      have hl2 : (itemsToks items ++ d :: tail) ++ [newEOF x] = itemsToks items ++ d :: R := by
        rw [← hR]
        simp
      obtain ⟨g, hg⟩ : ∃ g, (itemsToks items ++ d :: R).length + 1 = items.length + (g + 1) :=
        ⟨(itemsToks items ++ d :: R).length - items.length, by simp; omega⟩
      rw [hl2, hg, readConstExprF_items env st.Macros items hOK (g + 1) (d :: R) st rfl,
        readConstExprF_not_ident env g d R _ hd hdef hcase]
    constructor
    · intro y ys hR h1 h2
      exact key (y :: ys) hR (Or.inl ⟨y, ys, rfl, h1, h2⟩)
    · intro lp y ys hR h1 h2
      exact key (lp :: y :: ys) hR (Or.inr ⟨lp, y, ys, rfl, h1, h2⟩)

/-- Witness for C21: the line `1 + defined X + defined(Y)` with `X` defined and
`Y` not, and the line `1 + defined X + defined(Y) defined 2`. -/
theorem readConstExpr_defined_witness :
    (readConstExpr sampleEnv (itemsToks definedLine ++ eof :: []) answerState).toOption.map
        (fun r => r.1.map fun t => t.Loc) = some ["1", "+", "1\n", "+", "0\n", ""] ∧
    readConstExpr sampleEnv (itemsToks definedLine ++
        spc (idt "defined") :: ([spc (ppn "2")] ++ eof :: [])) answerState =
      .error (.fatal "macro name must be an identifier") :=
  have hOK : ∀ i ∈ definedLine, i.OK := by
    intro i hi
    simp only [definedLine, List.mem_cons, List.mem_singleton, List.not_mem_nil, or_false] at hi
    rcases hi with rfl | rfl | rfl | rfl | rfl <;> simp [CondItem.OK, spc, ppn, pun, idt, equal]
  ⟨(congrArg (fun r => r.toOption.map (fun r => r.1.map fun t => t.Loc))
      (readConstExpr_defined sampleEnv answerState definedLine hOK eof [] rfl).1).trans rfl,
   ((readConstExpr_defined sampleEnv answerState definedLine hOK eof [] rfl).2
      (spc (idt "defined")) [spc (ppn "2")] (by decide) rfl (by decide)
      (by simp [spc, ppn])).1 (spc (ppn "2")) [newEOF eof] rfl (by decide) (by decide)⟩

/-! ## Include guards, the resolver cache, `#line`, string kinds -/

/-- C22: `detect_include_guard` returns `G` for the header `#ifndef G`,
`#define G`, `#endif`, `x`, `#ifdef G`, `#endif`, whose last `#endif` does not
close the `#ifndef G`.  With `G` defined the header's tokens still yield `x`,
so skipping the file changes the output: two lines `#include "a.h"` yield one
`x`, the header's tokens twice yield two. -/
theorem include_guard_misdetected :
    detect_include_guard guardFile = .ok (some "G") ∧
    locs (preprocess2 guardEnv 60 guardFile guardDefined) = some ["x", ""] ∧
    locs (preprocess2 guardEnv 60 includeTwice mainState) = some ["x", ""] ∧
    locs (preprocess2 guardEnv 60 (guardFile.dropLast ++ guardFile) mainState) =
      some ["x", "x", ""] := by
  refine ⟨by rfl, by rfl, by rfl, by rfl⟩

/-- C23: with the include paths `d0`, `d1` and the files `d0/a.h`, `d1/b.h`,
the first lookup of `a.h` sets `include_next_idx` to 1 and the lookup of `b.h`
sets it to 2; the next lookup of `a.h` is served by the cache, returns
`d0/a.h` and leaves `include_next_idx` at 2. -/
theorem cached_lookup_keeps_index :
    searchIncludePaths pathEnv {} "a.h" =
      (some "d0/a.h", { cache := [("a.h", "d0/a.h")], include_next_idx := 1 }) ∧
    afterLookups.include_next_idx = 2 ∧
    (searchIncludePaths pathEnv afterLookups "a.h").1 = some "d0/a.h" ∧
    (searchIncludePaths pathEnv afterLookups "a.h").2.include_next_idx = 2 := by
  refine ⟨by rfl, by rfl, by rfl, by rfl⟩

/-- C24: inside the taken branch of an open conditional, for every lexer, the
directive `#line 10` fails with `unterminated conditional directive`:
`readLineMarker` runs `preprocess` on its line, and `preprocess` rejects a
non-empty conditional stack. -/
theorem line_marker_in_open_conditional (env : Env) :
    preprocess2 env 30 lineInCondInput {} =
      .error (.fatal "unterminated conditional directive") := by
  rfl

/-- C26: `getStringKind` gives `STR_UTF16` for the literal `u8"a"`, and
`joinAdjacentStringLiterals` joins `u8"a" u"b"` without an error. -/
theorem u8_literal_classified_utf16 (env : Env) :
    getStringKind u8Lit = .ok .STR_UTF16 ∧
    getStringKind u16Lit = .ok .STR_UTF16 ∧
    (joinAdjacentStringLiterals env [u8Lit, u16Lit, eof]).toOption.map
      (fun l => l.map fun t => (t.Loc, t.Str)) = some [("u8\"a\"", [97, 98, 0]), ("", [])] := by
  refine ⟨by rfl, by rfl, by rfl⟩

/-! ## Joining adjacent string literals -/

theorem wrapInt32_id (x : Int) (h0 : 0 ≤ x) (h1 : x < 2 ^ 31) : wrapInt32 x = x := by
  unfold wrapInt32
  norm_num at h1 ⊢
  omega

theorem strBytes_cons (T : Token) (ts : List Token) :
    strBytes (T :: ts) = T.Str.length + strBytes ts := by
  simp [strBytes]

theorem strBytes_mem (ts : List Token) (T : Token) (h : T ∈ ts) :
    T.Str.length ≤ strBytes ts := by
  induction ts with
  | nil => simp at h
  | cons a r ih =>
    rw [strBytes_cons]
    rcases List.mem_cons.1 h with rfl | h
    · omega
    · have := ih h
      omega

theorem tokensUpTo_stop (t : Token) (rest : List Token) (End : Option Nat)
    (h : End = some 0 ∨ t.Kind = .TK_EOF) : tokensUpTo (t :: rest) End = [] := by
  rcases h with rfl | h
  · simp [tokensUpTo]
  · cases End with
    | none => simp [tokensUpTo, List.takeWhile, h]
    | some k =>
      cases k with
      | zero => simp [tokensUpTo]
      | succ k => simp [tokensUpTo, List.takeWhile, h]

theorem tokensUpTo_cons (t : Token) (rest : List Token) (End : Option Nat)
    (h0 : End ≠ some 0) (h : t.Kind ≠ .TK_EOF) :
    tokensUpTo (t :: rest) End = t :: tokensUpTo rest (End.map fun k => k - 1) := by
  cases End with
  | none => simp [tokensUpTo, List.takeWhile, h]
  | some k =>
    cases k with
    | zero => exact absurd rfl h0
    | succ k => simp [tokensUpTo, List.takeWhile, h]

theorem endOK_cons (t : Token) (rest : List Token) (End : Option Nat)
    (h0 : End ≠ some 0) (h : t.Kind ≠ .TK_EOF) (hE : EndOK (t :: rest) End) :
    EndOK rest (End.map fun k => k - 1) := by
  intro k hk
  cases End with
  | none => simp at hk
  | some j =>
    cases j with
    | zero => exact absurd rfl h0
    | succ j =>
      simp only [Option.map_some', Nat.add_sub_cancel, Option.some.injEq] at hk
      subst hk
      rcases hE (j + 1) rfl with h1 | ⟨u, hu, hk⟩
      · left
        simpa using h1
      · right
        rcases List.mem_cons.1 hu with rfl | hu
        · exact absurd hk h
        · exact ⟨u, hu, hk⟩

theorem joinTokensLoop_rest (Tok : List Token) :
    ∀ (End : Option Nat), EndOK Tok End →
      joinTokensLoop Tok End false =
        .ok (concatAll ((tokensUpTo Tok End).map lexemeWithSpace)) := by
  induction Tok with
  | nil =>
    intro End hE
    cases End with
    | none => simp [joinTokensLoop, tokensUpTo, concatAll]
    | some k =>
      rcases hE k rfl with h | ⟨u, hu, _⟩
      · simp at h
      · simp at hu
  | cons t rest ih =>
    intro End hE
    by_cases h0 : End = some 0
    · rw [tokensUpTo_stop t rest End (Or.inl h0)]
      simp [joinTokensLoop, h0, concatAll]
    · by_cases h : t.Kind = .TK_EOF
      · rw [tokensUpTo_stop t rest End (Or.inr h)]
        simp [joinTokensLoop, h0, h, concatAll]
      · rw [tokensUpTo_cons t rest End h0 h]
        simp only [joinTokensLoop, h0, h, if_false, ih _ (endOK_cons t rest End h0 h hE),
          List.map_cons, concatAll, lexemeWithSpace]
        simp

theorem joinTokensLenLoop_rest (Tok : List Token) :
    ∀ (End : Option Nat) (n : Int), EndOK Tok End → 0 ≤ n →
      n + ((concatAll ((tokensUpTo Tok End).map lexemeWithSpace)).length : Int) < 2 ^ 31 →
      joinTokensLenLoop Tok End false n =
        .ok (n + ((concatAll ((tokensUpTo Tok End).map lexemeWithSpace)).length : Int)) := by
  induction Tok with
  | nil =>
    intro End n hE _ _
    cases End with
    | none => simp [joinTokensLenLoop, tokensUpTo, concatAll]
    | some k =>
      rcases hE k rfl with h | ⟨u, hu, _⟩
      · simp at h
      · simp at hu
  | cons t rest ih =>
    intro End n hE hn hsz
    by_cases h0 : End = some 0
    · rw [tokensUpTo_stop t rest End (Or.inl h0)]
      simp [joinTokensLenLoop, h0, concatAll]
    · by_cases h : t.Kind = .TK_EOF
      · rw [tokensUpTo_stop t rest End (Or.inr h)]
        simp [joinTokensLenLoop, h0, h, concatAll]
      · rw [tokensUpTo_cons t rest End h0 h] at hsz ⊢
        simp only [List.map_cons, concatAll, String.length_append, Nat.cast_add] at hsz ⊢
        have hl : ((lexemeWithSpace t).length : Int) =
            (if t.HasSpace then 1 else 0) + (t.Loc.length : Int) := by
          unfold lexemeWithSpace
          by_cases hs : t.HasSpace = true
          · simp only [hs, if_true, String.length_append, Nat.cast_add]
            rfl
          · simp [hs, String.length_append]
        have hstep : wrapInt32 ((if (!false && t.HasSpace) = true then wrapInt32 (n + 1) else n) +
            (t.Loc.length : Int)) = n + ((lexemeWithSpace t).length : Int) := by
          rw [hl]
          by_cases hs : t.HasSpace = true
          · simp only [hs, Bool.not_false, Bool.and_self, if_true] at hsz hl ⊢
            rw [wrapInt32_id (n + 1) (by omega) (by omega),
              wrapInt32_id _ (by omega) (by omega)]
            omega
          · simp only [hs, Bool.not_false, Bool.true_and, Bool.false_eq_true, if_false] at hsz hl ⊢
            rw [wrapInt32_id _ (by omega) (by omega)]
            omega
        simp only [joinTokensLenLoop, h0, h, if_false]
        rw [hstep, ih _ _ (endOK_cons t rest End h0 h hE) (by omega) (by omega)]
        congr 1
        omega

/-- C31: when the loops come to an end and the text with its NUL fits an
`int`, `joinTokens(Tok, End)` returns the concatenation of the lexemes of the
tokens from `Tok` up to (not including) `End` or the first EOF, with one space
in front of each token but the first whose `HasSpace` is set, and the `Len` of
the first loop is the length of that text plus 1. -/
theorem joinTokens_spec (Tok : List Token) (End : Option Nat) (hEnd : EndOK Tok End)
    (hsize : (concatAll (spacedLexemes (tokensUpTo Tok End))).length + 1 < 2 ^ 31) :
    joinTokens Tok End = .ok (concatAll (spacedLexemes (tokensUpTo Tok End))) ∧
    joinTokensLen Tok End =
      .ok (((concatAll (spacedLexemes (tokensUpTo Tok End))).length : Int) + 1) := by
  cases Tok with
  | nil =>
    cases End with
    | none => simp [joinTokens, joinTokensLoop, joinTokensLen, joinTokensLenLoop, tokensUpTo,
        spacedLexemes, concatAll]
    | some k =>
      rcases hEnd k rfl with h | ⟨u, hu, _⟩
      · simp at h
      · simp at hu
  | cons t rest =>
    by_cases h0 : End = some 0
    · rw [tokensUpTo_stop t rest End (Or.inl h0)]
      simp [joinTokens, joinTokensLoop, joinTokensLen, joinTokensLenLoop, h0, spacedLexemes,
        concatAll]
    · by_cases h : t.Kind = .TK_EOF
      · rw [tokensUpTo_stop t rest End (Or.inr h)]
        simp [joinTokens, joinTokensLoop, joinTokensLen, joinTokensLenLoop, h0, h, spacedLexemes,
          concatAll]
      · have hE := endOK_cons t rest End h0 h hEnd
        rw [tokensUpTo_cons t rest End h0 h] at hsize ⊢
        simp only [spacedLexemes, concatAll, String.length_append] at hsize ⊢
        have hsz : ((t.Loc.length : Nat) : Int) +
            ((concatAll ((tokensUpTo rest (End.map fun k => k - 1)).map
              lexemeWithSpace)).length : Int) + 1 < 2 ^ 31 := by
          have := hsize
          norm_num at this ⊢
          omega
        constructor
        · simp only [joinTokens, joinTokensLoop, h0, h, if_false, joinTokensLoop_rest rest _ hE]
          simp
        · simp only [joinTokensLen, joinTokensLenLoop, h0, h, if_false, Bool.not_true,
            Bool.false_and, Bool.false_eq_true]
          rw [wrapInt32_id _ (by omega) (by omega),
            joinTokensLenLoop_rest rest _ _ hE (by omega) (by omega)]
          congr 1
          push_cast
          omega

theorem joinTokens_spec_witness :
    joinTokens [idt "a", spc (idt "b"), idt "c", eof, spc (idt "d")] none = .ok "a bc" ∧
    joinTokensLen [idt "a", spc (idt "b"), idt "c", eof, spc (idt "d")] none = .ok 5 :=
  have h := joinTokens_spec [idt "a", spc (idt "b"), idt "c", eof, spc (idt "d")] none
    (fun k hk => by simp at hk) (by decide)
  ⟨h.1.trans rfl, h.2.trans rfl⟩

/-! ## The tokens behind a macro invocation -/

/-- C32: when the replacement of a macro is empty, `expandMacro` writes the
`AtBOL` and `HasSpace` of the macro token into the first token behind the
invocation.  With `#define E` the stream `E`, then `#` at the beginning of the
next line, becomes `#` not at the beginning of a line and with a space in
front, likewise behind `F()` for `#define F()`; with `#define E y` the `#` is
left as it is.  So the lines `#define E`, `a E`, `#define X 1`, `X` yield
`a # define X 1 X`: the second directive is no longer seen as one. -/
theorem empty_macro_changes_next_token (env : Env)
    (pp2 : List Token → State → Except Err (List Token × State)) (view : ArgView) :
    (expandMacro env pp2 view [spc (idt "E"), bol (pun "#"), idt "define", eof]
        emptyObjState).toOption.map (fun r => r.1.map flagsOf) =
      some (some [("#", false, true), ("define", false, false), ("", true, false)]) ∧
    (expandMacro env pp2 view [spc (idt "F"), pun "(", pun ")", bol (pun "#"), idt "define", eof]
        emptyFunState).toOption.map (fun r => r.1.map flagsOf) =
      some (some [("#", false, true), ("define", false, false), ("", true, false)]) ∧
    (expandMacro env pp2 view [spc (idt "E"), bol (pun "#"), idt "define", eof]
        oneObjState).toOption.map (fun r => r.1.map flagsOf) =
      some (some [("y", false, true), ("#", true, false), ("define", false, false),
        ("", true, false)]) ∧
    locs (preprocess2 env 60 emptyMacroInput {}) = some ["a", "#", "define", "X", "1", "X", ""] := by
  refine ⟨by rfl, by rfl, by rfl, by rfl⟩

/-! ## Conditional balance -/

end Rvcc
